import Mathlib

/-!
Verification of the maze generator (`src/mazegen/generator.py`) against its
natural-language specification.  The Python program is shallowly embedded:
cells carry four wall flags and a visited flag, a maze is a grid of cells
represented as a total function on integer coordinates, the generation
stages are pure functions threading an explicit pseudo-random stream, and
the serializer produces the textual file format.  All definitions follow
the source; the while-loop of the recursive backtracker is modelled with an
explicit fuel argument that is proved sufficient.
-/

namespace MazeGen

/-- The four compass directions, keys of the Python wall dictionary. -/
inductive Dir : Type where
  | N : Dir
  | E : Dir
  | S : Dir
  | W : Dir
deriving DecidableEq, Repr

/-- `OPPOSITE` dictionary from the source (also inlined at line 167). -/
def Dir.opposite : Dir → Dir
  | Dir.N => Dir.S
  | Dir.S => Dir.N
  | Dir.E => Dir.W
  | Dir.W => Dir.E

/-- `DIRECTION_OFFSETS` dictionary from the source: coordinate offset of each
direction, `(dx, dy)`. -/
def Dir.off : Dir → Int × Int
  | Dir.N => (0, -1)
  | Dir.E => (1, 0)
  | Dir.S => (0, 1)
  | Dir.W => (-1, 0)

/-- The iteration order of the direction dictionaries (insertion order in
Python): North, East, South, West. -/
def dirList : List Dir := [Dir.N, Dir.E, Dir.S, Dir.W]

/-- A cell: four wall flags (`true` = wall present) and a visited flag
(`class Cell`).  Freshly built cells have every wall and are unvisited. -/
structure Cell where
  walls : Dir → Bool
  visited : Bool

/-- `Cell.__init__`: all four walls present, not visited. -/
def freshCell : Cell := { walls := fun _ => true, visited := false }

/-- `Cell.has_wall`. -/
def Cell.has_wall (c : Cell) (d : Dir) : Bool := c.walls d

/-- `Cell.remove_wall`: set the flag of one direction to `False`. -/
def Cell.remove_wall (c : Cell) (d : Dir) : Cell :=
  { c with walls := fun d' => if d' = d then false else c.walls d' }

/-- `Cell.add_wall`: set the flag of one direction to `True`. -/
def Cell.add_wall (c : Cell) (d : Dir) : Cell :=
  { c with walls := fun d' => if d' = d then true else c.walls d' }

/-- Mark a cell visited (`cell.visited = True`). -/
def Cell.setVisited (c : Cell) : Cell := { c with visited := true }

/-- The maze (`class Maze`): dimensions, entry/exit, the grid of cells
(a total function standing for the `cells[y][x]` matrix; only in-bounds
coordinates are ever consulted), and the solution move list (never
populated by the generator). -/
structure Maze where
  width : Nat
  height : Nat
  entry : Int × Int
  exit : Int × Int
  cells : Int × Int → Cell
  solution : List Dir

/-- `Maze.__init__`: a fully walled, unvisited grid. -/
def mkMaze (w h : Nat) (entry exit : Int × Int) : Maze :=
  { width := w, height := h, entry := entry, exit := exit,
    cells := fun _ => freshCell, solution := [] }

/-- The in-bounds test used throughout the source:
`0 <= x < width and 0 <= y < height`. -/
def Maze.inB (m : Maze) (p : Int × Int) : Prop :=
  0 ≤ p.1 ∧ p.1 < (m.width : Int) ∧ 0 ≤ p.2 ∧ p.2 < (m.height : Int)

instance (m : Maze) (p : Int × Int) : Decidable (m.inB p) := by
  unfold Maze.inB; infer_instance

/-- `Maze.get_cell`: the cell at `(x, y)`, or `none` when out of bounds. -/
def Maze.get_cell (m : Maze) (x y : Int) : Option Cell :=
  if m.inB (x, y) then some (m.cells (x, y)) else none

/-- Total read of a cell; agrees with `get_cell` on every in-bounds
coordinate (the only ones the algorithms consult). -/
def Maze.cellD (m : Maze) (x y : Int) : Cell :=
  (m.get_cell x y).getD freshCell

/-- `Maze.get_neighbors`: the in-bounds neighbors of `(x, y)` with the
direction leading to each, in the fixed N, E, S, W iteration order. -/
def Maze.get_neighbors (m : Maze) (x y : Int) : List (Int × Int × Dir) :=
  (dirList.map fun d => (x + d.off.1, y + d.off.2, d)).filter
    (fun t => decide (m.inB (t.1, t.2.1)))

/-- Replace the cell at one coordinate (the in-place mutations of the
Python cells become function overrides). -/
def Maze.modifyCell (m : Maze) (x y : Int) (f : Cell → Cell) : Maze :=
  { m with cells := fun p => if p = (x, y) then f (m.cells (x, y)) else m.cells p }

/-- Remove one wall flag of the cell at `(x, y)`. -/
def Maze.removeWallAt (m : Maze) (x y : Int) (d : Dir) : Maze :=
  m.modifyCell x y (fun c => c.remove_wall d)

/-- Add one wall flag of the cell at `(x, y)`. -/
def Maze.addWallAt (m : Maze) (x y : Int) (d : Dir) : Maze :=
  m.modifyCell x y (fun c => c.add_wall d)

/-- Mark the cell at `(x, y)` visited. -/
def Maze.setVisitedAt (m : Maze) (x y : Int) : Maze :=
  m.modifyCell x y Cell.setVisited

/-- Modelled from the spec: `random.Random(seed)` (Python standard library,
not part of this repository) is "a single seedable generator threaded
through the whole run so that identical seeds reproduce identical mazes
bit-for-bit".  We model it as a deterministic stream of naturals together
with a read position; `next` reads the current value and advances. -/
structure RNG where
  stream : Nat → Nat
  pos : Nat

/-- Read one pseudo-random value and advance the stream. -/
def RNG.next (r : RNG) : Nat × RNG :=
  (r.stream r.pos, { r with pos := r.pos + 1 })

/-- Modelled from the spec: the seeded generator `random.Random(seed)`.
Any concrete deterministic function of the seed is a faithful model at
this abstraction; theorems about the algorithms quantify over arbitrary
streams. -/
def mkRandom (seed : Nat) : RNG :=
  { stream := fun n => (seed * 1103515245 + n * 12345 + 12489) % 2147483648,
    pos := 0 }

/-- Modelled from the spec: `random.Random.choice` picks one element of a
non-empty list, here by reducing the drawn value modulo the length. -/
def RNG.choice (r : RNG) (l : List (Int × Int × Dir)) :
    (Int × Int × Dir) × RNG :=
  let (v, r') := r.next
  (l.getD (v % l.length) (0, 0, Dir.N), r')

/-- Modelled from the spec: `random.Random.sample` draws `k` distinct
elements ("without replacement") from the list, consuming the stream. -/
def RNG.sample (r : RNG) (l : List (Int × Int × Dir)) (k : Nat) :
    List (Int × Int × Dir) × RNG :=
  match k with
  | 0 => ([], r)
  | k + 1 =>
    if l.isEmpty then ([], r)
    else
      let (v, r') := r.next
      let i := v % l.length
      let picked := l.getD i (0, 0, Dir.N)
      let (rest, r'') := RNG.sample r' (l.eraseIdx i) k
      (picked :: rest, r'')

/-- `class MazeGenerator`: config plus the owned seeded random source.
The `loop_factor` of the source is a Python float clamped into `[0, 1]`;
we model its value exactly as a rational number. -/
structure MazeGenerator where
  width : Nat
  height : Nat
  perfect : Bool
  loop_factor : ℚ
  ran : RNG

/-- `MazeGenerator.__init__`: stores the parameters, clamps `loop_factor`
into `[0.0, 1.0]`, and seeds the owned random generator. -/
def MazeGenerator.init (width height : Nat) (perfect : Bool)
    (loop_factor : ℚ) (seed : Nat) : MazeGenerator :=
  { width := width, height := height, perfect := perfect,
    loop_factor := max 0 (min 1 loop_factor), ran := mkRandom seed }

/-- The fixed `42` bitmap of `add_42_pattern`. -/
def pattern : List (List Nat) :=
  [[1, 0, 1, 0, 1, 1, 1],
   [1, 0, 1, 0, 0, 0, 1],
   [1, 1, 1, 0, 1, 1, 1],
   [0, 0, 1, 0, 1, 0, 0],
   [0, 0, 1, 0, 1, 1, 1]]

/-- `MazeGenerator.close_cell`: despite its docstring, the body only marks
the cell visited (after the `get_cell` `None` guard); no wall is touched. -/
def MazeGenerator.close_cell (m : Maze) (x y : Int) : Maze :=
  match m.get_cell x y with
  | none => m
  | some _ => m.setVisitedAt x y

/-- `MazeGenerator.add_42_pattern`: centre the bitmap, and for every `1`
bit that is neither entry nor exit, close (mark visited) that cell.  A
maze smaller than `9 x 7` is left unchanged. -/
def MazeGenerator.add_42_pattern (g : MazeGenerator) (m : Maze) : Maze :=
  if g.width < 7 + 2 ∨ g.height < 5 + 2 then m
  else
    let offset_x : Int := ((g.width - 7) / 2 : Nat)
    let offset_y : Int := ((g.height - 5) / 2 : Nat)
    pattern.enum.foldl
      (fun m1 pyrow =>
        pyrow.2.enum.foldl
          (fun m2 pxval =>
            if pxval.2 = 1 then
              let cx := offset_x + pxval.1
              let cy := offset_y + pyrow.1
              if (cx, cy) = m.entry then m2
              else if (cx, cy) = m.exit then m2
              else MazeGenerator.close_cell m2 cx cy
            else m2)
          m1)
      m

/-- One datum of the backtracker loop body needs the unvisited in-bounds
neighbors of the stack top (`unvisiteed_neighbors` in the source). -/
def Maze.unvisitedNeighbors (m : Maze) (x y : Int) : List (Int × Int × Dir) :=
  (m.get_neighbors x y).filter (fun t => ¬ (m.cellD t.1 t.2.1).visited)

/-- The carving mutation of one loop iteration (source lines 166-169):
remove the shared wall on both sides and mark the neighbor visited. -/
def carveUpd (m : Maze) (x y nx ny : Int) (d : Dir) : Maze :=
  ((m.removeWallAt x y d).removeWallAt nx ny d.opposite).setVisitedAt nx ny

/-- The body of the `while stack:` loop of
`MazeGenerator.recursive_backtracker`, with explicit fuel (the loop's
termination is proved separately).  The stack top is the list head.  When
neighbors remain one is chosen at random, the shared wall is removed on
both sides, the neighbor is marked visited and pushed; otherwise the top
is popped. -/
def carve (fuel : Nat) (m : Maze) (stack : List (Int × Int)) (r : RNG) :
    Maze × RNG :=
  match fuel with
  | 0 => (m, r)
  | fuel + 1 =>
    match stack with
    | [] => (m, r)
    | (x, y) :: rest =>
      let ns := m.unvisitedNeighbors x y
      if ns.isEmpty then carve fuel m rest r
      else
        let (t, r') := r.choice ns
        let nx := t.1
        let ny := t.2.1
        let d := t.2.2
        if m.inB (x, y) ∧ m.inB (nx, ny) then
          carve fuel (carveUpd m x y nx ny d) ((nx, ny) :: (x, y) :: rest) r'
        else carve fuel m ((x, y) :: rest) r'

/-- Fuel that always suffices for the backtracker loop (each iteration
strictly decreases `2 * unvisited + stack length`). -/
def carveFuel (m : Maze) : Nat := 2 * m.width * m.height + 1

/-- `MazeGenerator.recursive_backtracker`: seed the stack with the start
cell, mark it visited, and run the loop. -/
def MazeGenerator.recursive_backtracker (m : Maze) (start_x start_y : Int)
    (r : RNG) : Maze × RNG :=
  let m0 := match m.get_cell start_x start_y with
    | none => m
    | some _ => m.setVisitedAt start_x start_y
  carve (carveFuel m) m0 [(start_x, start_y)] r

/-- The reserved-cell scan of `MazeGenerator.add_loops`: every in-bounds
cell that is visited and still has all four walls. -/
def Maze.pattern_walls (m : Maze) : List (Int × Int) :=
  (List.range m.height).flatMap fun y : Nat =>
    (List.range m.width).filterMap fun x : Nat =>
      match m.get_cell (x : Int) (y : Int) with
      | none => none
      | some cell =>
        if cell.visited ∧ dirList.all (fun d => cell.has_wall d) then
          some ((x : Int), (y : Int))
        else none

/-- The candidate scan of `MazeGenerator.add_loops`: existing East and
South walls between two in-bounds cells, neither of which is reserved. -/
def Maze.internal_walls (m : Maze) (pw : List (Int × Int)) :
    List (Int × Int × Dir) :=
  (List.range m.height).flatMap fun y : Nat =>
    (List.range m.width).flatMap fun x : Nat =>
      let xi : Int := x
      let yi : Int := y
      let ePart :=
        if x + 1 < m.width ∧ (m.cellD xi yi).has_wall Dir.E
            ∧ ¬ (xi, yi) ∈ pw ∧ ¬ (xi + 1, yi) ∈ pw then
          [(xi, yi, Dir.E)] else []
      let sPart :=
        if y + 1 < m.height ∧ (m.cellD xi yi).has_wall Dir.S
            ∧ ¬ (xi, yi) ∈ pw ∧ ¬ (xi, yi + 1) ∈ pw then
          [(xi, yi, Dir.S)] else []
      ePart ++ sPart

/-- `MazeGenerator.add_loops`: sample `floor(candidates * loop_factor)`
candidate walls and remove each on both sides. -/
def MazeGenerator.add_loops (g : MazeGenerator) (m : Maze) (r : RNG) :
    Maze × RNG :=
  let internal := m.internal_walls m.pattern_walls
  let num_to_remove : Nat := (⌊(internal.length : ℚ) * g.loop_factor⌋).toNat
  let (walls_to_remove, r') :=
    r.sample internal (min num_to_remove internal.length)
  let m' := walls_to_remove.foldl
    (fun m1 t =>
      let dxy := t.2.2.off
      match m1.get_cell t.1 t.2.1, m1.get_cell (t.1 + dxy.1) (t.2.1 + dxy.2) with
      | some _, some _ =>
        (m1.removeWallAt t.1 t.2.1 t.2.2).removeWallAt
          (t.1 + dxy.1) (t.2.1 + dxy.2) t.2.2.opposite
      | _, _ => m1)
    m
  (m', r')

/-- `MazeGenerator.add_border_walls`: force every outward-facing wall of
the boundary closed. -/
def MazeGenerator.add_border_walls (m : Maze) : Maze :=
  (List.range m.height).foldl
    (fun mm (y : Nat) => ((mm.addWallAt 0 (y : Int) Dir.W).addWallAt
      ((m.width : Int) - 1) (y : Int) Dir.E))
    ((List.range m.width).foldl
      (fun mm (x : Nat) => ((mm.addWallAt (x : Int) 0 Dir.N).addWallAt
        (x : Int) ((m.height : Int) - 1) Dir.S)) m)

/-- `MazeGenerator.generate`: validate entry and exit, then build the maze
and run the four stages.  The `ValueError`s of the source become `Except`
errors, raised before any cell is created. -/
def MazeGenerator.generate (g : MazeGenerator) (entry exit : Int × Int) :
    Except String Maze :=
  if ¬ (0 ≤ entry.1 ∧ entry.1 < (g.width : Int)
      ∧ 0 ≤ entry.2 ∧ entry.2 < (g.height : Int)) then
    Except.error "Entry point out of bounds"
  else if ¬ (0 ≤ exit.1 ∧ exit.1 < (g.width : Int)
      ∧ 0 ≤ exit.2 ∧ exit.2 < (g.height : Int)) then
    Except.error "Exit point out of bounds"
  else if entry = exit then
    Except.error "Entry and exit points cannot be the same."
  else
    let maze := mkMaze g.width g.height entry exit
    let maze1 := g.add_42_pattern maze
    let (maze2, r2) := MazeGenerator.recursive_backtracker maze1
      entry.1 entry.2 g.ran
    let (maze3, _) := if ¬ g.perfect then g.add_loops maze2 r2
      else (maze2, r2)
    Except.ok (MazeGenerator.add_border_walls maze3)

/-- The decimal digit characters used by Python's string formatting. -/
def digitChar (d : Nat) : Char :=
  match d with
  | 0 => '0' | 1 => '1' | 2 => '2' | 3 => '3' | 4 => '4'
  | 5 => '5' | 6 => '6' | 7 => '7' | 8 => '8' | _ => '9'

/-- Decimal rendering of a natural number, most significant digit first,
as Python's `f'{n}'` produces it. -/
def natDec (n : Nat) : String :=
  if n = 0 then "0"
  else String.mk (((Nat.digits 10 n).reverse).map digitChar)

/-- Decimal rendering of a Python integer. -/
def intDec (i : Int) : String :=
  if i < 0 then "-" ++ natDec (-i).toNat else natDec i.toNat

/-- The uppercase hexadecimal digit of a value below 16, as produced by
the `f'{value:X}'` of `save_to_file`. -/
def hexChar (v : Nat) : Char :=
  match v with
  | 0 => '0' | 1 => '1' | 2 => '2' | 3 => '3' | 4 => '4'
  | 5 => '5' | 6 => '6' | 7 => '7' | 8 => '8' | 9 => '9'
  | 10 => 'A' | 11 => 'B' | 12 => 'C' | 13 => 'D' | 14 => 'E' | _ => 'F'

/-- The wall bitmask of one cell:
`(N << 0) | (E << 1) | (S << 2) | (W << 3)`. -/
def cellValue (c : Cell) : Nat :=
  (cond (c.walls Dir.N) 1 0) + 2 * (cond (c.walls Dir.E) 1 0)
    + 4 * (cond (c.walls Dir.S) 1 0) + 8 * (cond (c.walls Dir.W) 1 0)

/-- One grid row of the output file: one hex digit per cell. -/
def rowHex (m : Maze) (y : Nat) : String :=
  String.mk ((List.range m.width).map fun x : Nat =>
    hexChar (cellValue (m.cellD (x : Int) (y : Int))))

/-- The move letters of the solution line. -/
def dirChar : Dir → Char
  | Dir.N => 'N' | Dir.E => 'E' | Dir.S => 'S' | Dir.W => 'W'

/-- The lines of `save_to_file`, in order: the hex grid, a blank line, the
entry coordinates, the exit coordinates, and the (possibly empty) solution
moves. -/
def serializeLines (m : Maze) : List String :=
  ((List.range m.height).map (rowHex m))
    ++ [""]
    ++ [intDec m.entry.1 ++ " " ++ intDec m.entry.2]
    ++ [intDec m.exit.1 ++ " " ++ intDec m.exit.2]
    ++ [String.mk (m.solution.map dirChar)]

/-- The byte content written by `save_to_file`: every line followed by a
newline. -/
def serialize (m : Maze) : String :=
  String.join ((serializeLines m).map (fun l => l ++ "\n"))

/-! ### Decoder, modelled from the spec

The repository contains no reader for its file format; the spec (§6, §8)
fixes one bit order per hex digit and requires the format to be lossless.
The decoder below is modelled from those spec words and is compared with
the serializer in the round-trip theorem. -/

/-- The wall flags of one cell, `(N, E, S, W)`. -/
abbrev Quad := Bool × Bool × Bool × Bool

/-- Modelled from the spec: inverse of `hexChar`. -/
def hexVal (c : Char) : Option Nat :=
  if c = '0' then some 0 else if c = '1' then some 1
  else if c = '2' then some 2 else if c = '3' then some 3
  else if c = '4' then some 4 else if c = '5' then some 5
  else if c = '6' then some 6 else if c = '7' then some 7
  else if c = '8' then some 8 else if c = '9' then some 9
  else if c = 'A' then some 10 else if c = 'B' then some 11
  else if c = 'C' then some 12 else if c = 'D' then some 13
  else if c = 'E' then some 14 else if c = 'F' then some 15
  else none

/-- Modelled from the spec: decode one hex digit into the four wall flags
with the fixed bit order `bit0 = N, bit1 = E, bit2 = S, bit3 = W`. -/
def decodeWalls (c : Char) : Option Quad :=
  match hexVal c with
  | none => none
  | some v => some (v % 2 = 1, v / 2 % 2 = 1, v / 4 % 2 = 1, v / 8 % 2 = 1)

/-- Modelled from the spec: decode one grid line, one cell per character. -/
def decodeRow (l : List Char) : Option (List Quad) :=
  match l with
  | [] => some []
  | c :: cs =>
    match decodeWalls c, decodeRow cs with
    | some q, some qs => some (q :: qs)
    | _, _ => none

/-- Modelled from the spec: decode all grid lines. -/
def decodeRows (ls : List String) : Option (List (List Quad)) :=
  match ls with
  | [] => some []
  | s :: ss =>
    match decodeRow s.data, decodeRows ss with
    | some q, some qs => some (q :: qs)
    | _, _ => none

/-- Modelled from the spec: inverse of `digitChar`. -/
def digitVal (c : Char) : Option Nat :=
  if c = '0' then some 0 else if c = '1' then some 1
  else if c = '2' then some 2 else if c = '3' then some 3
  else if c = '4' then some 4 else if c = '5' then some 5
  else if c = '6' then some 6 else if c = '7' then some 7
  else if c = '8' then some 8 else if c = '9' then some 9
  else none

/-- Modelled from the spec: decode a nonempty run of decimal digits. -/
def digitVals : List Char → Option (List Nat)
  | [] => some []
  | c :: cs =>
    match digitVal c, digitVals cs with
    | some d, some ds => some (d :: ds)
    | _, _ => none

/-- Modelled from the spec: decode a decimal natural number. -/
def decodeNat (l : List Char) : Option Nat :=
  match l with
  | [] => none
  | _ =>
    match digitVals l with
    | some ds => some (Nat.ofDigits 10 ds.reverse)
    | none => none

/-- Modelled from the spec: decode a decimal integer (optional sign). -/
def decodeInt (l : List Char) : Option Int :=
  match l with
  | '-' :: rest => (decodeNat rest).map (fun n : Nat => -(n : Int))
  | _ => (decodeNat l).map (fun n : Nat => (n : Int))

/-- Modelled from the spec: decode a coordinate line `x y`. -/
def decodeCoord (s : String) : Option (Int × Int) :=
  match s.data.drop ((s.data.takeWhile (fun c => c ≠ ' ')).length) with
  | ' ' :: ys =>
    match decodeInt (s.data.takeWhile (fun c => c ≠ ' ')), decodeInt ys with
    | some a, some b => some (a, b)
    | _, _ => none
  | _ => none

/-- Modelled from the spec: decode a whole serialized maze file (as its
list of lines): the hex grid up to the blank separator line, then the
entry and exit coordinate lines; the trailing solution line may be empty
and is not part of the wall state. -/
def decodeFile (ls : List String) :
    Option (List (List Quad) × (Int × Int) × (Int × Int)) :=
  match ls.drop ((ls.takeWhile (fun l => l ≠ "")).length) with
  | "" :: eLine :: xLine :: _sol :: [] =>
    match decodeRows (ls.takeWhile (fun l => l ≠ "")),
        decodeCoord eLine, decodeCoord xLine with
    | some rows, some e, some x => some (rows, e, x)
    | _, _, _ => none
  | _ => none

/-- The wall-flag matrix of a maze, row by row, as `(N, E, S, W)`
quadruples: the state the spec requires the format to preserve. -/
def wallMatrix (m : Maze) : List (List Quad) :=
  (List.range m.height).map fun y : Nat =>
    (List.range m.width).map fun x : Nat =>
      let c := m.cellD (x : Int) (y : Int)
      (c.walls Dir.N, c.walls Dir.E, c.walls Dir.S, c.walls Dir.W)

/-! ### Geometric description of the stamped cells -/

/-- The bitmap bit at relative position `(px, py)`. -/
def patBit (px py : Nat) : Nat := (pattern.getD py []).getD px 0

/-- The relative positions of the `1` bits of the bitmap, in the order the
stamping loop visits them. -/
def relPos : List (Nat × Nat) :=
  [(0, 0), (2, 0), (4, 0), (5, 0), (6, 0),
   (0, 1), (2, 1), (6, 1),
   (0, 2), (1, 2), (2, 2), (4, 2), (5, 2), (6, 2),
   (2, 3), (4, 3),
   (2, 4), (4, 4), (5, 4), (6, 4)]

/-- Horizontal offset of the centred bitmap. -/
def offX (w : Nat) : Int := ((w - 7) / 2 : Nat)

/-- Vertical offset of the centred bitmap. -/
def offY (h : Nat) : Int := ((h - 5) / 2 : Nat)

/-- The cells the Pattern Stamper marks: defined geometrically from the
parameters (grid large enough, a `1` bit of the centred bitmap, not the
entry, not the exit). -/
def stampedB (w h : Nat) (entry exit : Int × Int) (p : Int × Int) : Bool :=
  decide (7 + 2 ≤ w) && decide (5 + 2 ≤ h)
    && relPos.any (fun q => decide (p = (offX w + q.1, offY h + q.2)))
    && !(decide (p = entry)) && !(decide (p = exit))

/-- In-bounds test on bare dimensions (matches `Maze.inB`). -/
def inBnds (w h : Nat) (p : Int × Int) : Prop :=
  0 ≤ p.1 ∧ p.1 < (w : Int) ∧ 0 ≤ p.2 ∧ p.2 < (h : Int)

instance (w h : Nat) (p : Int × Int) : Decidable (inBnds w h p) := by
  unfold inBnds; infer_instance

/-- A non-obstacle ("reachable" in the spec's words) cell: in bounds and
not stamped. -/
def freeCell (w h : Nat) (entry exit : Int × Int) (p : Int × Int) : Prop :=
  inBnds w h p ∧ ¬ stampedB w h entry exit p = true

instance (w h : Nat) (en ex p : Int × Int) :
    Decidable (freeCell w h en ex p) := by
  unfold freeCell; infer_instance

/-! ### Counting definitions -/

/-- All in-bounds coordinates. -/
def gridFinset (w h : Nat) : Finset (Int × Int) :=
  (Finset.Ico 0 (w : Int)) ×ˢ (Finset.Ico 0 (h : Int))

/-- An internal wall record: an E or S direction from a cell whose
neighbor in that direction is also in bounds, with the wall absent.  Each
shared wall is counted once, on its E/S side. -/
def openRec (m : Maze) (p : Int × Int) (d : Dir) : Prop :=
  m.inB p ∧ m.inB (p.1 + d.off.1, p.2 + d.off.2) ∧ (m.cells p).walls d = false

instance (m : Maze) (p : Int × Int) (d : Dir) : Decidable (openRec m p d) := by
  unfold openRec; infer_instance

/-- The number of removed (open) internal walls of a maze. -/
def openInternalCount (m : Maze) : Nat :=
  (((gridFinset m.width m.height) ×ˢ ({Dir.E, Dir.S} : Finset Dir)).filter
    (fun t => openRec m t.1 t.2)).card

/-- The number of in-bounds unvisited cells (the loop measure). -/
def unvisitedCount (m : Maze) : Nat :=
  ((gridFinset m.width m.height).filter
    (fun p => ¬ (m.cells p).visited)).card

/-- The number of in-bounds visited non-stamped cells. -/
def visitedFreeCount (m : Maze) (en ex : Int × Int) : Nat :=
  ((gridFinset m.width m.height).filter
    (fun p => (m.cells p).visited
      ∧ ¬ stampedB m.width m.height en ex p = true)).card

/-- The number of non-obstacle cells (`reachable_cells` in the claim). -/
def freeCount (w h : Nat) (en ex : Int × Int) : Nat :=
  ((gridFinset w h).filter (fun p => ¬ stampedB w h en ex p = true)).card

/-! ### Small update/read lemmas -/

@[simp] theorem width_modifyCell (m : Maze) (x y : Int) (f : Cell → Cell) :
    (m.modifyCell x y f).width = m.width := rfl

@[simp] theorem height_modifyCell (m : Maze) (x y : Int) (f : Cell → Cell) :
    (m.modifyCell x y f).height = m.height := rfl

@[simp] theorem entry_modifyCell (m : Maze) (x y : Int) (f : Cell → Cell) :
    (m.modifyCell x y f).entry = m.entry := rfl

@[simp] theorem exit_modifyCell (m : Maze) (x y : Int) (f : Cell → Cell) :
    (m.modifyCell x y f).exit = m.exit := rfl

@[simp] theorem inB_modifyCell (m : Maze) (x y : Int) (f : Cell → Cell)
    (p : Int × Int) : (m.modifyCell x y f).inB p ↔ m.inB p := Iff.rfl

theorem cells_modifyCell (m : Maze) (x y : Int) (f : Cell → Cell)
    (p : Int × Int) :
    (m.modifyCell x y f).cells p
      = if p = (x, y) then f (m.cells (x, y)) else m.cells p := rfl

theorem cells_modifyCell_same (m : Maze) (x y : Int) (f : Cell → Cell) :
    (m.modifyCell x y f).cells (x, y) = f (m.cells (x, y)) := by
  simp [cells_modifyCell]

theorem cells_modifyCell_other (m : Maze) (x y : Int) (f : Cell → Cell)
    (p : Int × Int) (h : p ≠ (x, y)) :
    (m.modifyCell x y f).cells p = m.cells p := by
  simp [cells_modifyCell, h]

@[simp] theorem walls_remove_wall (c : Cell) (d d' : Dir) :
    (c.remove_wall d).walls d' = if d' = d then false else c.walls d' := rfl

@[simp] theorem walls_add_wall (c : Cell) (d d' : Dir) :
    (c.add_wall d).walls d' = if d' = d then true else c.walls d' := rfl

@[simp] theorem visited_remove_wall (c : Cell) (d : Dir) :
    (c.remove_wall d).visited = c.visited := rfl

@[simp] theorem visited_add_wall (c : Cell) (d : Dir) :
    (c.add_wall d).visited = c.visited := rfl

@[simp] theorem walls_setVisited (c : Cell) (d : Dir) :
    c.setVisited.walls d = c.walls d := rfl

@[simp] theorem visited_setVisited (c : Cell) :
    c.setVisited.visited = true := rfl

theorem get_cell_eq_some (m : Maze) (x y : Int) (h : m.inB (x, y)) :
    m.get_cell x y = some (m.cells (x, y)) := by
  simp [Maze.get_cell, h]

theorem get_cell_eq_none (m : Maze) (x y : Int) (h : ¬ m.inB (x, y)) :
    m.get_cell x y = none := by
  simp [Maze.get_cell, h]

theorem cellD_eq_cells (m : Maze) (x y : Int) (h : m.inB (x, y)) :
    m.cellD x y = m.cells (x, y) := by
  simp [Maze.cellD, get_cell_eq_some m x y h]

theorem mem_get_neighbors (m : Maze) (x y : Int) (t : Int × Int × Dir) :
    t ∈ m.get_neighbors x y
      ↔ ∃ d : Dir, t = (x + d.off.1, y + d.off.2, d) ∧ m.inB (t.1, t.2.1) := by
  simp only [Maze.get_neighbors, List.mem_filter, List.mem_map,
    decide_eq_true_eq]
  constructor
  · rintro ⟨⟨d, _, rfl⟩, h⟩
    exact ⟨d, rfl, h⟩
  · rintro ⟨d, rfl, h⟩
    refine ⟨⟨d, ?_, rfl⟩, h⟩
    simp [dirList]
    cases d <;> simp

theorem mem_get_neighbors_inB (m : Maze) (x y : Int) (t : Int × Int × Dir)
    (h : t ∈ m.get_neighbors x y) : m.inB (t.1, t.2.1) := by
  rcases (mem_get_neighbors m x y t).1 h with ⟨d, _, hb⟩
  exact hb

theorem mem_unvisitedNeighbors (m : Maze) (x y : Int) (t : Int × Int × Dir) :
    t ∈ m.unvisitedNeighbors x y
      ↔ t ∈ m.get_neighbors x y ∧ ¬ (m.cellD t.1 t.2.1).visited := by
  simp [Maze.unvisitedNeighbors, List.mem_filter]

/-! ### C7: input validation -/

/-- C7: `generate` rejects, before any cell is created or mutated, every
call in which entry or exit lies outside `[0,width) x [0,height)` or entry
equals exit, and on rejection the caller receives no `Maze`; for all other
inputs a maze is produced.  (The validation in the source precedes the
`Maze(...)` construction, so a rejected call builds no cell; the `Except`
result carries no partial maze.) -/
theorem claim_C7_validation (g : MazeGenerator) (en ex : Int × Int) :
    (∃ mz, g.generate en ex = Except.ok mz)
      ↔ inBnds g.width g.height en ∧ inBnds g.width g.height ex ∧ en ≠ ex := by
  unfold MazeGenerator.generate
  by_cases h1 : 0 ≤ en.1 ∧ en.1 < (g.width : Int) ∧ 0 ≤ en.2 ∧ en.2 < (g.height : Int)
  · by_cases h2 : 0 ≤ ex.1 ∧ ex.1 < (g.width : Int) ∧ 0 ≤ ex.2 ∧ ex.2 < (g.height : Int)
    · by_cases h3 : en = ex
      · simp [h1, h2, h3, inBnds]
      · rw [if_neg (not_not_intro h1), if_neg (not_not_intro h2), if_neg h3]
        constructor
        · intro _
          exact ⟨h1, h2, h3⟩
        · intro _
          exact ⟨_, rfl⟩
    · simp [h1, h2, inBnds]
  · simp [h1, inBnds]

/-! ### C3: determinism -/

/-- C3: for a freshly constructed `MazeGenerator`, the same seed together
with the same width, height, perfect flag, loop factor, entry and exit
always yields byte-identical serialized output; moreover the output is a
function only of the owned random stream (two generators whose streams
agree pointwise produce identical bytes), the stamper and the border
enforcer taking no randomness at all. -/
theorem claim_C3_determinism (w h : Nat) (pf : Bool) (lf : ℚ) (seed : Nat)
    (en ex : Int × Int) (s1 s2 : Nat → Nat) (hs : ∀ n, s1 n = s2 n) :
    Except.map serialize ((MazeGenerator.init w h pf lf seed).generate en ex)
      = Except.map serialize ((MazeGenerator.init w h pf lf seed).generate en ex)
    ∧ Except.map serialize
        ((⟨w, h, pf, lf, ⟨s1, 0⟩⟩ : MazeGenerator).generate en ex)
      = Except.map serialize
        ((⟨w, h, pf, lf, ⟨s2, 0⟩⟩ : MazeGenerator).generate en ex) := by
  refine ⟨rfl, ?_⟩
  have : s1 = s2 := funext hs
  rw [this]

/-- Witness for C3 at a concrete instance. -/
theorem claim_C3_witness :
    Except.map serialize ((MazeGenerator.init 5 5 true (1/10) 1).generate
        (0, 0) (4, 4))
      = Except.map serialize ((MazeGenerator.init 5 5 true (1/10) 1).generate
        (0, 0) (4, 4))
    ∧ Except.map serialize
        ((⟨5, 5, true, 1/10, ⟨fun _ => 3, 0⟩⟩ : MazeGenerator).generate
          (0, 0) (4, 4))
      = Except.map serialize
        ((⟨5, 5, true, 1/10, ⟨fun _ => 3, 0⟩⟩ : MazeGenerator).generate
          (0, 0) (4, 4)) :=
  claim_C3_determinism 5 5 true (1/10) 1 (0, 0) (4, 4)
    (fun _ => 3) (fun _ => 3) (fun _ => rfl)

/-! ### C8: round-trip helpers -/

theorem hexVal_hexChar (v : Nat) (h : v < 16) : hexVal (hexChar v) = some v := by
  interval_cases v <;> rfl

theorem decodeWalls_quad (a b c d : Bool) :
    decodeWalls (hexChar ((cond a 1 0) + 2 * (cond b 1 0)
        + 4 * (cond c 1 0) + 8 * (cond d 1 0)))
      = some (a, b, c, d) := by
  cases a <;> cases b <;> cases c <;> cases d <;> rfl

theorem decodeWalls_cellValue (c : Cell) :
    decodeWalls (hexChar (cellValue c))
      = some (c.walls Dir.N, c.walls Dir.E, c.walls Dir.S, c.walls Dir.W) :=
  decodeWalls_quad _ _ _ _

theorem decodeRow_map (f : Nat → Cell) (xs : List Nat) :
    decodeRow (xs.map fun x => hexChar (cellValue (f x)))
      = some (xs.map fun x =>
          ((f x).walls Dir.N, (f x).walls Dir.E,
           (f x).walls Dir.S, (f x).walls Dir.W)) := by
  induction xs with
  | nil => rfl
  | cons x xs ih =>
    simp only [List.map_cons, decodeRow, decodeWalls_cellValue (f x), ih]

theorem decodeRow_rowHex (m : Maze) (y : Nat) :
    decodeRow (rowHex m y).data
      = some ((List.range m.width).map fun x : Nat =>
          ((m.cellD (x : Int) (y : Int)).walls Dir.N,
           (m.cellD (x : Int) (y : Int)).walls Dir.E,
           (m.cellD (x : Int) (y : Int)).walls Dir.S,
           (m.cellD (x : Int) (y : Int)).walls Dir.W)) :=
  decodeRow_map (fun x => m.cellD (x : Int) (y : Int)) (List.range m.width)

theorem decodeRows_grid (m : Maze) (ys : List Nat) :
    decodeRows (ys.map (rowHex m))
      = some (ys.map fun y : Nat =>
          (List.range m.width).map fun x : Nat =>
            ((m.cellD (x : Int) (y : Int)).walls Dir.N,
             (m.cellD (x : Int) (y : Int)).walls Dir.E,
             (m.cellD (x : Int) (y : Int)).walls Dir.S,
             (m.cellD (x : Int) (y : Int)).walls Dir.W)) := by
  induction ys with
  | nil => rfl
  | cons y ys ih =>
    simp only [List.map_cons, decodeRows, decodeRow_rowHex m y, ih]

theorem takeWhile_append_all {α : Type} {p : α → Bool} (A : List α)
    (b : α) (B : List α) (hA : ∀ a ∈ A, p a = true)
    (hb : p b = false) : (A ++ b :: B).takeWhile p = A := by
  induction A with
  | nil => simp [List.takeWhile_cons, hb]
  | cons a A ih =>
    have ha := hA a (List.mem_cons_self a A)
    simp only [List.cons_append, List.takeWhile_cons, ha, if_true]
    rw [ih fun x hx => hA x (List.mem_cons_of_mem a hx)]

theorem digitChar_ne_minus (d : Nat) : digitChar d ≠ '-' := by
  unfold digitChar; split <;> decide

theorem digitChar_ne_space (d : Nat) : digitChar d ≠ ' ' := by
  unfold digitChar; split <;> decide

theorem digitVal_digitChar (d : Nat) (h : d < 10) :
    digitVal (digitChar d) = some d := by
  interval_cases d <;> rfl

theorem digitVals_map (ds : List Nat) (h : ∀ d ∈ ds, d < 10) :
    digitVals (ds.map digitChar) = some ds := by
  induction ds with
  | nil => rfl
  | cons d ds ih =>
    have hd := h d (List.mem_cons_self d ds)
    simp only [List.map_cons, digitVals, digitVal_digitChar d hd,
      ih fun x hx => h x (List.mem_cons_of_mem d hx)]

theorem natDec_data (n : Nat) (h : n ≠ 0) :
    (natDec n).data = (Nat.digits 10 n).reverse.map digitChar := by
  unfold natDec
  rw [if_neg h]

theorem decodeNat_natDec (n : Nat) : decodeNat (natDec n).data = some n := by
  by_cases h0 : n = 0
  · subst h0; rfl
  · rw [natDec_data n h0]
    have hdig : ∀ d ∈ (Nat.digits 10 n).reverse, d < 10 := by
      intro d hd
      exact Nat.digits_lt_base (by norm_num) (List.mem_reverse.1 hd)
    have hvals := digitVals_map (Nat.digits 10 n).reverse hdig
    have hne : (Nat.digits 10 n).reverse ≠ [] := by
      simp [Nat.digits_ne_nil_iff_ne_zero, h0]
    unfold decodeNat
    cases hl : (Nat.digits 10 n).reverse.map digitChar with
    | nil => exact absurd (List.map_eq_nil_iff.1 hl) hne
    | cons c cs =>
      rw [hl] at hvals
      show (match digitVals (c :: cs) with
        | some ds => some (Nat.ofDigits 10 ds.reverse)
        | none => none) = some n
      rw [hvals]
      simp only [List.reverse_reverse]
      rw [Nat.ofDigits_digits]

theorem natDec_no_space (n : Nat) : ∀ c ∈ (natDec n).data, c ≠ ' ' := by
  intro c hc
  by_cases h0 : n = 0
  · subst h0
    have : (natDec 0).data = ['0'] := rfl
    rw [this] at hc
    rcases List.mem_singleton.1 hc with rfl
    decide
  · rw [natDec_data n h0] at hc
    rcases List.mem_map.1 hc with ⟨d, _, rfl⟩
    exact digitChar_ne_space d

theorem natDec_no_minus_head (n : Nat) (l : List Char)
    (h : (natDec n).data = '-' :: l) : False := by
  by_cases h0 : n = 0
  · subst h0
    rw [show (natDec 0).data = ['0'] from rfl] at h
    injection h with h1 h2
    exact absurd h1 (by decide)
  · rw [natDec_data n h0] at h
    cases hl : (Nat.digits 10 n).reverse with
    | nil =>
      rw [hl] at h
      cases h
    | cons d ds =>
      rw [hl] at h
      simp only [List.map_cons, List.cons.injEq] at h
      exact digitChar_ne_minus d h.1

theorem decodeInt_minus (l : List Char) :
    decodeInt ('-' :: l) = (decodeNat l).map (fun n : Nat => -(n : Int)) := rfl

theorem decodeInt_not_minus (c : Char) (cs : List Char) (hc : c ≠ '-') :
    decodeInt (c :: cs) = (decodeNat (c :: cs)).map (fun n : Nat => (n : Int)) := by
  unfold decodeInt
  split
  · rename_i heq
    rw [List.cons.injEq] at heq
    exact absurd heq.1 hc
  · rfl

theorem decodeInt_intDec (i : Int) : decodeInt (intDec i).data = some i := by
  by_cases hneg : i < 0
  · unfold intDec
    rw [if_pos hneg]
    have hd : ("-" ++ natDec (-i).toNat).data
        = '-' :: (natDec (-i).toNat).data := by
      rw [String.data_append]
      rfl
    rw [hd, decodeInt_minus, decodeNat_natDec]
    have hval : -((((-i).toNat : Nat)) : Int) = i := by omega
    rw [Option.map_some', hval]
  · unfold intDec
    rw [if_neg hneg]
    cases hd : (natDec i.toNat).data with
    | nil =>
      exfalso
      by_cases h0 : i.toNat = 0
      · rw [show natDec i.toNat = natDec 0 from by rw [h0],
          show (natDec 0).data = ['0'] from rfl] at hd
        cases hd
      · rw [natDec_data i.toNat h0] at hd
        have hne : (Nat.digits 10 i.toNat).reverse ≠ [] := by
          simp [Nat.digits_ne_nil_iff_ne_zero, h0]
        exact hne (List.map_eq_nil_iff.1 hd)
    | cons c cs =>
      have hc : c ≠ '-' := by
        intro h
        exact natDec_no_minus_head i.toNat cs (by rw [hd, h])
      rw [← hd, show decodeInt (natDec i.toNat).data
          = decodeInt (c :: cs) from by rw [hd],
        decodeInt_not_minus c cs hc, ← hd, decodeNat_natDec]
      have hval : ((i.toNat : Nat) : Int) = i := by omega
      rw [Option.map_some', hval]

theorem intDec_no_space (a : Int) : ∀ c ∈ (intDec a).data, c ≠ ' ' := by
  intro c hc
  unfold intDec at hc
  by_cases hneg : a < 0
  · rw [if_pos hneg, String.data_append] at hc
    rcases List.mem_append.1 hc with h | h
    · rcases List.mem_singleton.1 h with rfl
      decide
    · exact natDec_no_space _ c h
  · rw [if_neg hneg] at hc
    exact natDec_no_space _ c hc

theorem decodeCoord_pair (a b : Int) :
    decodeCoord (intDec a ++ " " ++ intDec b) = some (a, b) := by
  have hdata : (intDec a ++ " " ++ intDec b).data
      = (intDec a).data ++ ' ' :: (intDec b).data := by
    rw [String.data_append, String.data_append,
      show (" " : String).data = [' '] from rfl, List.append_assoc,
      List.singleton_append]
  have htake := @takeWhile_append_all Char (fun c => decide (c ≠ ' '))
    (intDec a).data ' ' (intDec b).data
    (fun x hx => by simpa using intDec_no_space a x hx) (by decide)
  unfold decodeCoord
  rw [hdata, htake, List.drop_left]
  show (match decodeInt (intDec a).data, decodeInt (intDec b).data with
    | some a, some b => some (a, b)
    | _, _ => none) = some (a, b)
  rw [decodeInt_intDec a, decodeInt_intDec b]

theorem rowHex_ne_empty (m : Maze) (hw : 1 ≤ m.width) (y : Nat) :
    rowHex m y ≠ "" := by
  intro h
  have hd : (rowHex m y).data = [] := by rw [h]
  unfold rowHex at hd
  have h2 := List.map_eq_nil_iff.1 hd
  rw [List.range_eq_nil] at h2
  omega

/-- C8: round-trip losslessness.  Decoding the serialized lines (the hex
grid with one digit per cell and rows as lines, the fixed bit-to-direction
mapping applied identically to every cell, then the entry and exit lines)
reproduces exactly the maze's wall-flag matrix and its entry and exit
coordinates; the trailing solution line may be empty and carries no wall
state. -/
theorem claim_C8_roundtrip (m : Maze) (hw : 1 ≤ m.width) :
    decodeFile (serializeLines m) = some (wallMatrix m, m.entry, m.exit) := by
  have hA : ∀ a ∈ (List.range m.height).map (rowHex m),
      (fun l : String => decide (l ≠ "")) a = true := by
    intro a ha
    rcases List.mem_map.1 ha with ⟨y, _, rfl⟩
    simpa using rowHex_ne_empty m hw y
  have hshape : serializeLines m
      = ((List.range m.height).map (rowHex m))
        ++ "" :: [intDec m.entry.1 ++ " " ++ intDec m.entry.2,
                  intDec m.exit.1 ++ " " ++ intDec m.exit.2,
                  String.mk (m.solution.map dirChar)] := by
    unfold serializeLines
    simp [List.append_assoc]
  unfold decodeFile
  rw [hshape]
  rw [takeWhile_append_all _ _ _ hA (by simp)]
  rw [List.drop_left]
  show (match decodeRows ((List.range m.height).map (rowHex m)),
      decodeCoord (intDec m.entry.1 ++ " " ++ intDec m.entry.2),
      decodeCoord (intDec m.exit.1 ++ " " ++ intDec m.exit.2) with
    | some rows, some e, some x => some (rows, e, x)
    | _, _, _ => none) = some (wallMatrix m, m.entry, m.exit)
  rw [decodeRows_grid m (List.range m.height), decodeCoord_pair,
    decodeCoord_pair]
  rfl

/-- Witness for C8 on a concrete finished maze. -/
theorem claim_C8_witness :
    1 ≤ (mkMaze 2 2 (0, 0) (1, 1)).width
    ∧ decodeFile (serializeLines (mkMaze 2 2 (0, 0) (1, 1)))
      = some (wallMatrix (mkMaze 2 2 (0, 0) (1, 1)), ((0 : Int), (0 : Int)),
          ((1 : Int), (1 : Int))) :=
  ⟨by decide, claim_C8_roundtrip (mkMaze 2 2 (0, 0) (1, 1)) (by decide)⟩

/-! ### Adjacency, pairing, open-passage reachability -/

/-- The coordinate one step in direction `d`. -/
def stepP (p : Int × Int) (d : Dir) : Int × Int :=
  (p.1 + d.off.1, p.2 + d.off.2)

theorem stepP_ne (p : Int × Int) (d : Dir) : stepP p d ≠ p := by
  cases d <;> simp [stepP, Dir.off, Prod.ext_iff] <;> omega

theorem stepP_opposite (p : Int × Int) (d : Dir) :
    stepP (stepP p d) d.opposite = p := by
  cases d <;> simp [stepP, Dir.off, Dir.opposite, Prod.ext_iff] <;> omega

/-- The wall-pairing invariant of the spec: two adjacent in-bounds cells
agree about their shared wall. -/
def Paired (m : Maze) : Prop :=
  ∀ p d, m.inB p → m.inB (stepP p d) →
    (m.cells p).walls d = (m.cells (stepP p d)).walls d.opposite

/-- An open passage between two adjacent in-bounds cells: the wall absent
on both sides. -/
def OpenEdge (m : Maze) (p q : Int × Int) : Prop :=
  ∃ d : Dir, q = stepP p d ∧ m.inB p ∧ m.inB q
    ∧ (m.cells p).walls d = false ∧ (m.cells q).walls d.opposite = false

/-- Reachability along open passages. -/
inductive OpenReach (m : Maze) : (Int × Int) → (Int × Int) → Prop where
  | refl (p : Int × Int) : OpenReach m p p
  | tail (p q s : Int × Int) : OpenReach m p q → OpenEdge m q s →
      OpenReach m p s

theorem Dir.opposite_opposite (d : Dir) : d.opposite.opposite = d := by
  cases d <;> rfl

theorem OpenEdge.symm {m : Maze} {p q : Int × Int} (h : OpenEdge m p q) :
    OpenEdge m q p := by
  rcases h with ⟨d, rfl, hp, hq, hw1, hw2⟩
  exact ⟨d.opposite, (stepP_opposite p d).symm, hq, hp, hw2,
    by rw [Dir.opposite_opposite]; exact hw1⟩

/-- Wall monotonicity: a maze with the same dimensions and at least as
many open walls keeps all open reachability. -/
theorem OpenReach.mono (m m' : Maze) (hw : m'.width = m.width)
    (hh : m'.height = m.height)
    (hwalls : ∀ p d, (m.cells p).walls d = false →
      (m'.cells p).walls d = false)
    {a b : Int × Int} (h : OpenReach m a b) : OpenReach m' a b := by
  induction h with
  | refl => exact OpenReach.refl a
  | tail q s _ he ih =>
    rcases he with ⟨d, rfl, hp, hq, h1, h2⟩
    refine OpenReach.tail a q _ ih ⟨d, rfl, ?_, ?_, hwalls _ _ h1, hwalls _ _ h2⟩
    · simpa [Maze.inB, hw, hh] using hp
    · simpa [Maze.inB, hw, hh] using hq

theorem OpenReach.trans {m : Maze} {a b c : Int × Int}
    (h1 : OpenReach m a b) (h2 : OpenReach m b c) : OpenReach m a c := by
  induction h2 with
  | refl => exact h1
  | tail q s _ he ih => exact OpenReach.tail _ _ _ ih he

/-! ### A generic fold-preservation principle and a counting helper -/

theorem foldl_preserve {α : Type} (R : Maze → Maze → Prop)
    (hrefl : ∀ m, R m m)
    (htrans : ∀ a b c, R a b → R b c → R a c)
    (f : Maze → α → Maze) (hf : ∀ mm a, R mm (f mm a)) (l : List α)
    (m : Maze) : R m (l.foldl f m) := by
  induction l generalizing m with
  | nil => exact hrefl m
  | cons a l ih => exact htrans _ _ _ (hf m a) (ih (f m a))

theorem filter_card_flip {α : Type} [DecidableEq α] (s : Finset α)
    (P Q : α → Prop) [DecidablePred P] [DecidablePred Q] (a : α)
    (ha : a ∈ s) (hPa : ¬ P a) (hQa : Q a)
    (hrest : ∀ x ∈ s, x ≠ a → (Q x ↔ P x)) :
    (s.filter Q).card = (s.filter P).card + 1 := by
  have hins : s.filter Q = insert a (s.filter P) := by
    ext x
    constructor
    · intro hx
      rcases Finset.mem_filter.1 hx with ⟨hxs, hxQ⟩
      by_cases hxa : x = a
      · exact Finset.mem_insert.2 (Or.inl hxa)
      · exact Finset.mem_insert.2 (Or.inr (Finset.mem_filter.2
          ⟨hxs, (hrest x hxs hxa).1 hxQ⟩))
    · intro hx
      rcases Finset.mem_insert.1 hx with rfl | hxP
      · exact Finset.mem_filter.2 ⟨ha, hQa⟩
      · rcases Finset.mem_filter.1 hxP with ⟨hxs, hxPP⟩
        by_cases hxa : x = a
        · subst hxa
          exact absurd hxPP hPa
        · exact Finset.mem_filter.2 ⟨hxs, (hrest x hxs hxa).2 hxPP⟩
  rw [hins, Finset.card_insert_of_not_mem]
  intro hmem
  exact hPa (Finset.mem_filter.1 hmem).2

theorem mem_gridFinset (w h : Nat) (p : Int × Int) :
    p ∈ gridFinset w h ↔ inBnds w h p := by
  cases p with
  | mk a b =>
    simp [gridFinset, Finset.mem_product, Finset.mem_Ico, inBnds, and_assoc]

/-! ### The stamping stage -/

/-- One step of the stamping loop: skip entry and exit, close the cell. -/
def stampStep (en ex : Int × Int) (m2 : Maze) (c : Int × Int) : Maze :=
  if c = en then m2 else if c = ex then m2
  else MazeGenerator.close_cell m2 c.1 c.2

/-- The absolute coordinates of the bitmap's `1` cells. -/
def stampList (w h : Nat) : List (Int × Int) :=
  relPos.map fun q => (offX w + q.1, offY h + q.2)

set_option maxHeartbeats 2000000 in
theorem add42_eq (g : MazeGenerator) (m : Maze) :
    g.add_42_pattern m
      = if g.width < 7 + 2 ∨ g.height < 5 + 2 then m
        else (stampList g.width g.height).foldl (stampStep m.entry m.exit) m := by
  unfold MazeGenerator.add_42_pattern
  split
  · rfl
  · show (pattern.enum.foldl _ m) = _
    simp only [pattern, stampList, relPos, offX, offY, List.enum, List.enumFrom,
      List.map, List.foldl, stampStep]
    norm_num

theorem close_cell_width (m : Maze) (x y : Int) :
    (MazeGenerator.close_cell m x y).width = m.width := by
  unfold MazeGenerator.close_cell
  cases m.get_cell x y <;> rfl

theorem close_cell_height (m : Maze) (x y : Int) :
    (MazeGenerator.close_cell m x y).height = m.height := by
  unfold MazeGenerator.close_cell
  cases m.get_cell x y <;> rfl

theorem close_cell_entry (m : Maze) (x y : Int) :
    (MazeGenerator.close_cell m x y).entry = m.entry := by
  unfold MazeGenerator.close_cell
  cases m.get_cell x y <;> rfl

theorem close_cell_exit (m : Maze) (x y : Int) :
    (MazeGenerator.close_cell m x y).exit = m.exit := by
  unfold MazeGenerator.close_cell
  cases m.get_cell x y <;> rfl

theorem walls_close_cell (m : Maze) (x y : Int) (p : Int × Int) (d : Dir) :
    ((MazeGenerator.close_cell m x y).cells p).walls d
      = (m.cells p).walls d := by
  unfold MazeGenerator.close_cell
  cases m.get_cell x y with
  | none => rfl
  | some c =>
    unfold Maze.setVisitedAt
    rw [cells_modifyCell]
    split
    · rename_i h
      rw [h, walls_setVisited]
    · rfl

theorem stampStep_width (en ex : Int × Int) (m : Maze) (c : Int × Int) :
    (stampStep en ex m c).width = m.width := by
  unfold stampStep
  split
  · rfl
  · split
    · rfl
    · exact close_cell_width m c.1 c.2

theorem stampStep_height (en ex : Int × Int) (m : Maze) (c : Int × Int) :
    (stampStep en ex m c).height = m.height := by
  unfold stampStep
  split
  · rfl
  · split
    · rfl
    · exact close_cell_height m c.1 c.2

theorem inB_stampStep (en ex : Int × Int) (m : Maze) (c p : Int × Int) :
    (stampStep en ex m c).inB p ↔ m.inB p := by
  unfold Maze.inB
  rw [stampStep_width, stampStep_height]

theorem walls_stampStep (en ex : Int × Int) (m : Maze) (c p : Int × Int)
    (d : Dir) :
    ((stampStep en ex m c).cells p).walls d = (m.cells p).walls d := by
  unfold stampStep
  split
  · rfl
  · split
    · rfl
    · exact walls_close_cell m c.1 c.2 p d

theorem visited_stampStep (en ex : Int × Int) (m : Maze) (c p : Int × Int) :
    ((stampStep en ex m c).cells p).visited = true
      ↔ ((m.cells p).visited = true
          ∨ (p = c ∧ c ≠ en ∧ c ≠ ex ∧ m.inB c)) := by
  unfold stampStep
  split
  · rename_i h
    simp [h]
  · rename_i hen
    split
    · rename_i h
      simp [h, hen]
    · rename_i hex
      unfold MazeGenerator.close_cell
      cases hc : m.get_cell c.1 c.2 with
      | none =>
        rw [Maze.get_cell, ite_eq_right_iff] at hc
        have hni : ¬ m.inB (c.1, c.2) := fun hi => by cases hc hi
        simp only [iff_self_or]
        rintro ⟨rfl, -, -, hic⟩
        exact absurd hic hni
      | some cc =>
        have hic : m.inB (c.1, c.2) := by
          by_contra hni
          rw [get_cell_eq_none m c.1 c.2 hni] at hc
          cases hc
        unfold Maze.setVisitedAt
        rw [cells_modifyCell]
        split
        · rename_i hpc
          simp only [visited_setVisited]
          constructor
          · intro _
            exact Or.inr ⟨by rw [hpc], hen, hex, hic⟩
          · intro _
            trivial
        · rename_i hpc
          have hpc' : p ≠ c := fun h => hpc (by rw [h])
          simp [hpc']

theorem visited_stampFold (en ex : Int × Int) (cs : List (Int × Int))
    (m : Maze) (p : Int × Int) :
    (((cs.foldl (stampStep en ex) m).cells p).visited = true)
      ↔ ((m.cells p).visited = true
          ∨ ∃ c ∈ cs, p = c ∧ c ≠ en ∧ c ≠ ex ∧ m.inB c) := by
  induction cs generalizing m with
  | nil => simp
  | cons c cs ih =>
    rw [List.foldl_cons, ih (stampStep en ex m c), visited_stampStep]
    constructor
    · rintro (h | ⟨c', hc', hp, h1, h2, h3⟩)
      · rcases h with h | h
        · exact Or.inl h
        · exact Or.inr ⟨c, List.mem_cons_self c cs, h⟩
      · exact Or.inr ⟨c', List.mem_cons_of_mem c hc', hp, h1, h2,
          (inB_stampStep en ex m c c').1 h3⟩
    · rintro (h | ⟨c', hc', hp, h1, h2, h3⟩)
      · exact Or.inl (Or.inl h)
      · rcases List.mem_cons.1 hc' with rfl | hc''
        · exact Or.inl (Or.inr ⟨hp, h1, h2, h3⟩)
        · exact Or.inr ⟨c', hc'', hp, h1, h2,
            (inB_stampStep en ex m c c').2 h3⟩

theorem walls_stampFold (en ex : Int × Int) (cs : List (Int × Int))
    (m : Maze) (p : Int × Int) (d : Dir) :
    (((cs.foldl (stampStep en ex) m).cells p).walls d)
      = (m.cells p).walls d := by
  refine foldl_preserve
    (fun m1 m2 => ∀ p d, (m2.cells p).walls d = (m1.cells p).walls d)
    (fun _ _ _ => rfl) (fun a b c h1 h2 p d => (h2 p d).trans (h1 p d))
    (stampStep en ex) (fun mm c p d => walls_stampStep en ex mm c p d) cs m p d

theorem width_stampFold (en ex : Int × Int) (cs : List (Int × Int))
    (m : Maze) :
    (cs.foldl (stampStep en ex) m).width = m.width := by
  refine foldl_preserve (fun m1 m2 => m2.width = m1.width)
    (fun _ => rfl) (fun a b c h1 h2 => h2.trans h1)
    (stampStep en ex) (fun mm c => stampStep_width en ex mm c) cs m

theorem height_stampFold (en ex : Int × Int) (cs : List (Int × Int))
    (m : Maze) :
    (cs.foldl (stampStep en ex) m).height = m.height := by
  refine foldl_preserve (fun m1 m2 => m2.height = m1.height)
    (fun _ => rfl) (fun a b c h1 h2 => h2.trans h1)
    (stampStep en ex) (fun mm c => stampStep_height en ex mm c) cs m

theorem add42_walls (g : MazeGenerator) (m : Maze) (p : Int × Int) (d : Dir) :
    ((g.add_42_pattern m).cells p).walls d = (m.cells p).walls d := by
  rw [add42_eq]
  split
  · rfl
  · exact walls_stampFold m.entry m.exit _ m p d

theorem add42_width (g : MazeGenerator) (m : Maze) :
    (g.add_42_pattern m).width = m.width := by
  rw [add42_eq]
  split
  · rfl
  · exact width_stampFold m.entry m.exit _ m

theorem add42_height (g : MazeGenerator) (m : Maze) :
    (g.add_42_pattern m).height = m.height := by
  rw [add42_eq]
  split
  · rfl
  · exact height_stampFold m.entry m.exit _ m

theorem mem_stampList (w h : Nat) (p : Int × Int) :
    p ∈ stampList w h
      ↔ ∃ q ∈ relPos, p = (offX w + (q.1 : Int), offY h + (q.2 : Int)) := by
  simp only [stampList, List.mem_map]
  constructor
  · rintro ⟨q, hq, rfl⟩
    exact ⟨q, hq, rfl⟩
  · rintro ⟨q, hq, rfl⟩
    exact ⟨q, hq, rfl⟩

theorem stampedB_iff (w h : Nat) (en ex p : Int × Int) :
    stampedB w h en ex p = true
      ↔ (7 + 2 ≤ w ∧ 5 + 2 ≤ h ∧ p ∈ stampList w h ∧ p ≠ en ∧ p ≠ ex) := by
  unfold stampedB
  rw [mem_stampList]
  simp [List.any_eq_true, and_assoc]

theorem relPos_bounds : ∀ q ∈ relPos, q.1 ≤ 6 ∧ q.2 ≤ 4 := by decide

theorem stampList_inB (w h : Nat) (hw : 7 + 2 ≤ w) (hh : 5 + 2 ≤ h)
    (p : Int × Int) (hmem : p ∈ stampList w h) : inBnds w h p := by
  rcases (mem_stampList w h p).1 hmem with ⟨q, hq, rfl⟩
  have hb := relPos_bounds q hq
  unfold inBnds offX offY
  refine ⟨?_, ?_, ?_, ?_⟩ <;> simp only [] <;> omega

theorem stamped_inB (w h : Nat) (en ex p : Int × Int)
    (hs : stampedB w h en ex p = true) : inBnds w h p := by
  rcases (stampedB_iff w h en ex p).1 hs with ⟨hw, hh, hmem, -, -⟩
  exact stampList_inB w h hw hh p hmem

theorem cells_mkMaze (w h : Nat) (en ex : Int × Int) (p : Int × Int) :
    (mkMaze w h en ex).cells p = freshCell := rfl

theorem visited_add42_mkMaze (g : MazeGenerator) (en ex : Int × Int)
    (p : Int × Int) :
    ((g.add_42_pattern (mkMaze g.width g.height en ex)).cells p).visited
      = stampedB g.width g.height en ex p := by
  rw [add42_eq]
  by_cases hsmall : g.width < 7 + 2 ∨ g.height < 5 + 2
  · rw [if_pos hsmall]
    have hb : stampedB g.width g.height en ex p = false := by
      rw [Bool.eq_false_iff]
      intro hs
      rcases (stampedB_iff _ _ _ _ _).1 hs with ⟨hw, hh, -, -, -⟩
      omega
    rw [hb]
    rfl
  · rw [if_neg hsmall]
    push_neg at hsmall
    have hiff := visited_stampFold en ex (stampList g.width g.height)
      (mkMaze g.width g.height en ex) p
    by_cases hb : stampedB g.width g.height en ex p = true
    · rw [hb]
      apply hiff.2
      rcases (stampedB_iff _ _ _ _ _).1 hb with ⟨hw, hh, hmem, hne, hnx⟩
      exact Or.inr ⟨p, hmem, rfl, hne, hnx,
        stampList_inB _ _ hw hh p hmem⟩
    · rw [Bool.not_eq_true] at hb
      rw [hb, Bool.eq_false_iff]
      intro hv
      rcases hiff.1 hv with h | ⟨c, hc, rfl, h1, h2, h3⟩
      · cases h
      · rw [Bool.eq_false_iff] at hb
        exact hb ((stampedB_iff _ _ _ _ _).2
          ⟨hsmall.1, hsmall.2, hc, h1, h2⟩)

theorem walls_add42_mkMaze (g : MazeGenerator) (en ex : Int × Int)
    (p : Int × Int) (d : Dir) :
    ((g.add_42_pattern (mkMaze g.width g.height en ex)).cells p).walls d
      = true := by
  rw [add42_walls]
  rfl

/-! ### Properties of the carving update -/

theorem carveUpd_width (m : Maze) (x y nx ny : Int) (d : Dir) :
    (carveUpd m x y nx ny d).width = m.width := rfl

theorem carveUpd_height (m : Maze) (x y nx ny : Int) (d : Dir) :
    (carveUpd m x y nx ny d).height = m.height := rfl

theorem carveUpd_inB (m : Maze) (x y nx ny : Int) (d : Dir) (p : Int × Int) :
    (carveUpd m x y nx ny d).inB p ↔ m.inB p := Iff.rfl

theorem visited_carveUpd (m : Maze) (x y nx ny : Int) (d : Dir)
    (p : Int × Int) :
    ((carveUpd m x y nx ny d).cells p).visited
      = if p = (nx, ny) then true else (m.cells p).visited := by
  unfold carveUpd Maze.setVisitedAt Maze.removeWallAt
  rw [cells_modifyCell]
  split
  · rename_i h
    rw [visited_setVisited]
  · rw [cells_modifyCell]
    split
    · rename_i h1 h2
      exact absurd h2 h1
    · rw [cells_modifyCell]
      split
      · rename_i h
        rw [visited_remove_wall, h]
      · rfl

theorem walls_carveUpd (m : Maze) (x y nx ny : Int) (d : Dir)
    (hne : ((nx : Int), (ny : Int)) ≠ (x, y)) (p : Int × Int) (e : Dir) :
    ((carveUpd m x y nx ny d).cells p).walls e
      = if p = (x, y) ∧ e = d then false
        else if p = (nx, ny) ∧ e = d.opposite then false
        else (m.cells p).walls e := by
  unfold carveUpd Maze.setVisitedAt Maze.removeWallAt
  rw [cells_modifyCell]
  split
  · rename_i h
    rw [walls_setVisited, cells_modifyCell_same, walls_remove_wall]
    subst h
    by_cases he : e = d.opposite
    · rw [if_pos he, if_neg, if_pos ⟨rfl, he⟩]
      rintro ⟨h1, -⟩
      exact hne h1
    · rw [if_neg he, if_neg, if_neg]
      · rw [cells_modifyCell_other m x y _ _ hne]
      · rintro ⟨-, h2⟩
        exact he h2
      · rintro ⟨h1, -⟩
        exact hne h1
  · rename_i hpn
    rw [cells_modifyCell]
    split
    · rename_i h
      exact absurd h hpn
    · rw [cells_modifyCell]
      split
      · rename_i hpx
        rw [walls_remove_wall]
        subst hpx
        by_cases he : e = d
        · rw [if_pos he, if_pos ⟨rfl, he⟩]
        · rw [if_neg he, if_neg, if_neg]
          · rintro ⟨h1, -⟩
            exact hpn h1
          · rintro ⟨-, h2⟩
            exact he h2
      · rename_i hpx
        rw [if_neg, if_neg]
        · rintro ⟨h1, -⟩
          exact hpn h1
        · rintro ⟨h1, -⟩
          exact hpx h1

/-- Walls are only ever removed by the carving update. -/
theorem walls_carveUpd_mono (m : Maze) (x y nx ny : Int) (d : Dir)
    (hne : ((nx : Int), (ny : Int)) ≠ (x, y)) (p : Int × Int) (e : Dir)
    (h : (m.cells p).walls e = false) :
    ((carveUpd m x y nx ny d).cells p).walls e = false := by
  rw [walls_carveUpd m x y nx ny d hne p e]
  split
  · rfl
  · split
    · rfl
    · exact h

theorem get_neighbors_carveUpd (m : Maze) (x y nx ny : Int) (d : Dir)
    (a b : Int) :
    (carveUpd m x y nx ny d).get_neighbors a b = m.get_neighbors a b := rfl

theorem Dir.opposite_inj {d e : Dir} (h : d.opposite = e.opposite) : d = e := by
  cases d <;> cases e <;> first | rfl | cases h

theorem Dir.opposite_ne (d : Dir) : d.opposite ≠ d := by
  cases d <;> intro h <;> cases h

theorem stepP_inj {a b : Int × Int} {d : Dir} (h : stepP a d = stepP b d) :
    a = b := by
  have := congrArg (fun p => stepP p d.opposite) h
  simpa [stepP_opposite] using this

theorem inB_iff_inBnds (m : Maze) (p : Int × Int) :
    m.inB p ↔ inBnds m.width m.height p := Iff.rfl

/-- The open edges after one carving update: the old ones plus the freshly
carved passage (in both directions). -/
theorem OpenEdge_carveUpd (m : Maze) (p0 : Int × Int) (d : Dir)
    (hp0B : m.inB p0) (hqB : m.inB (stepP p0 d)) (a b : Int × Int) :
    OpenEdge (carveUpd m p0.1 p0.2 (stepP p0 d).1 (stepP p0 d).2 d) a b
      ↔ OpenEdge m a b ∨ (a = p0 ∧ b = stepP p0 d)
        ∨ (a = stepP p0 d ∧ b = p0) := by
  have hne : ((stepP p0 d).1, (stepP p0 d).2) ≠ (p0.1, p0.2) := by
    intro h
    exact stepP_ne p0 d h
  constructor
  · rintro ⟨e, rfl, hA, hB, h1, h2⟩
    rw [carveUpd_inB] at hA hB
    rw [walls_carveUpd m p0.1 p0.2 _ _ d hne] at h1 h2
    by_cases hc1 : a = (p0.1, p0.2) ∧ e = d
    · exact Or.inr (Or.inl ⟨hc1.1, by rw [hc1.1, hc1.2]⟩)
    · rw [if_neg hc1] at h1
      by_cases hc2 : a = ((stepP p0 d).1, (stepP p0 d).2) ∧ e = d.opposite
      · refine Or.inr (Or.inr ⟨hc2.1, ?_⟩)
        rw [hc2.1, hc2.2]
        exact stepP_opposite p0 d
      · rw [if_neg hc2] at h1
        by_cases hc3 : stepP a e = (p0.1, p0.2) ∧ e.opposite = d
        · exfalso
          apply hc2
          have he : e = d.opposite := by
            rw [← hc3.2, Dir.opposite_opposite]
          constructor
          · have : a = stepP (stepP a e) e.opposite := (stepP_opposite a e).symm
            rw [this, hc3.1, he, Dir.opposite_opposite]
          · exact he
        · rw [if_neg hc3] at h2
          by_cases hc4 : stepP a e = ((stepP p0 d).1, (stepP p0 d).2)
              ∧ e.opposite = d.opposite
          · exfalso
            apply hc1
            have he : e = d := Dir.opposite_inj hc4.2
            subst he
            exact ⟨(stepP_inj (hc4.1.trans Prod.mk.eta)).trans
              Prod.mk.eta.symm, rfl⟩
          · rw [if_neg hc4] at h2
            exact Or.inl ⟨e, rfl, hA, hB, h1, h2⟩
  · rintro (h | ⟨ha, hb⟩ | ⟨ha, hb⟩)
    · rcases h with ⟨e, rfl, hA, hB, h1, h2⟩
      exact ⟨e, rfl, hA, hB,
        walls_carveUpd_mono m p0.1 p0.2 _ _ d hne a e h1,
        walls_carveUpd_mono m p0.1 p0.2 _ _ d hne _ e.opposite h2⟩
    · rw [ha, hb]
      refine ⟨d, rfl, hp0B, hqB, ?_, ?_⟩
      · rw [walls_carveUpd m p0.1 p0.2 _ _ d hne, if_pos ⟨Prod.mk.eta.symm, rfl⟩]
      · rw [walls_carveUpd m p0.1 p0.2 _ _ d hne, if_neg,
          if_pos ⟨Prod.mk.eta.symm, rfl⟩]
        rintro ⟨h1, -⟩
        exact stepP_ne p0 d ((Prod.mk.eta.symm.trans h1.symm).symm.trans
          Prod.mk.eta)
    · rw [ha, hb]
      refine ⟨d.opposite, (stepP_opposite p0 d).symm, hqB, hp0B, ?_, ?_⟩
      · rw [walls_carveUpd m p0.1 p0.2 _ _ d hne, if_neg,
          if_pos ⟨Prod.mk.eta.symm, rfl⟩]
        rintro ⟨h1, -⟩
        exact stepP_ne p0 d ((Prod.mk.eta.symm.trans h1.symm).symm.trans
          Prod.mk.eta)
      · rw [walls_carveUpd m p0.1 p0.2 _ _ d hne,
          if_pos ⟨Prod.mk.eta.symm, Dir.opposite_opposite d⟩]

theorem unvisitedCount_carveUpd (m : Maze) (p0 : Int × Int) (d : Dir)
    (hqB : m.inB (stepP p0 d))
    (hqV : (m.cells (stepP p0 d)).visited = false) :
    unvisitedCount m
      = unvisitedCount
          (carveUpd m p0.1 p0.2 (stepP p0 d).1 (stepP p0 d).2 d) + 1 := by
  unfold unvisitedCount
  simp only [carveUpd_width, carveUpd_height]
  refine filter_card_flip (gridFinset m.width m.height) _ _ (stepP p0 d)
    ((mem_gridFinset _ _ _).2 ((inB_iff_inBnds m _).1 hqB)) ?_ ?_ ?_
  · intro hP
    apply hP
    rw [visited_carveUpd, if_pos Prod.mk.eta.symm]
  · rw [hqV]
    simp
  · intro p _ hpq
    rw [visited_carveUpd, if_neg (fun hh => hpq (hh.trans Prod.mk.eta))]

theorem visitedFreeCount_carveUpd (m : Maze) (en ex : Int × Int)
    (p0 : Int × Int) (d : Dir)
    (hqB : m.inB (stepP p0 d))
    (hqV : (m.cells (stepP p0 d)).visited = false)
    (hqS : stampedB m.width m.height en ex (stepP p0 d) = false) :
    visitedFreeCount
        (carveUpd m p0.1 p0.2 (stepP p0 d).1 (stepP p0 d).2 d) en ex
      = visitedFreeCount m en ex + 1 := by
  unfold visitedFreeCount
  simp only [carveUpd_width, carveUpd_height]
  refine filter_card_flip (gridFinset m.width m.height) _ _ (stepP p0 d)
    ((mem_gridFinset _ _ _).2 ((inB_iff_inBnds m _).1 hqB)) ?_ ?_ ?_
  · rintro ⟨hv, -⟩
    rw [hqV] at hv
    cases hv
  · constructor
    · rw [visited_carveUpd, if_pos Prod.mk.eta.symm]
    · rw [hqS]
      simp
  · intro p _ hpq
    rw [visited_carveUpd, if_neg (fun hh => hpq (hh.trans Prod.mk.eta))]

theorem openInternalCount_carveUpd (m : Maze) (p0 : Int × Int) (d : Dir)
    (hp0B : m.inB p0) (hqB : m.inB (stepP p0 d))
    (hwp : (m.cells p0).walls d = true)
    (hwq : (m.cells (stepP p0 d)).walls d.opposite = true) :
    openInternalCount
        (carveUpd m p0.1 p0.2 (stepP p0 d).1 (stepP p0 d).2 d)
      = openInternalCount m + 1 := by
  have hne : ((stepP p0 d).1, (stepP p0 d).2) ≠ (p0.1, p0.2) := by
    intro h
    exact stepP_ne p0 d h
  unfold openInternalCount
  simp only [carveUpd_width, carveUpd_height]
  have hmemE : Dir.E ∈ ({Dir.E, Dir.S} : Finset Dir) := by decide
  have hmemS : Dir.S ∈ ({Dir.E, Dir.S} : Finset Dir) := by decide
  cases d with
  | E =>
    refine filter_card_flip _ _ _ (p0, Dir.E)
      (Finset.mem_product.2 ⟨(mem_gridFinset _ _ _).2 hp0B, hmemE⟩) ?_ ?_ ?_
    · rintro ⟨-, -, hw⟩
      rw [hwp] at hw
      cases hw
    · refine ⟨hp0B, hqB, ?_⟩
      rw [walls_carveUpd m p0.1 p0.2 _ _ _ hne,
        if_pos ⟨Prod.mk.eta.symm, rfl⟩]
    · rintro ⟨p', e'⟩ hmem hne'
      dsimp only
      have he' : e' = Dir.E ∨ e' = Dir.S := by
        have := (Finset.mem_product.1 hmem).2
        simpa using this
      have hc1 : ¬(p' = (p0.1, p0.2) ∧ e' = Dir.E) := by
        rintro ⟨h1, h2⟩
        exact hne' (by rw [show p' = p0 from h1.trans Prod.mk.eta, h2])
      have hc2 : ¬(p' = ((stepP p0 Dir.E).1, (stepP p0 Dir.E).2)
          ∧ e' = Dir.E.opposite) := by
        rintro ⟨-, h2⟩
        rcases he' with rfl | rfl
        · cases h2
        · cases h2
      unfold openRec
      rw [walls_carveUpd m p0.1 p0.2 _ _ _ hne, if_neg hc1, if_neg hc2]
      exact Iff.rfl
  | S =>
    refine filter_card_flip _ _ _ (p0, Dir.S)
      (Finset.mem_product.2 ⟨(mem_gridFinset _ _ _).2 hp0B, hmemS⟩) ?_ ?_ ?_
    · rintro ⟨-, -, hw⟩
      rw [hwp] at hw
      cases hw
    · refine ⟨hp0B, hqB, ?_⟩
      rw [walls_carveUpd m p0.1 p0.2 _ _ _ hne,
        if_pos ⟨Prod.mk.eta.symm, rfl⟩]
    · rintro ⟨p', e'⟩ hmem hne'
      dsimp only
      have he' : e' = Dir.E ∨ e' = Dir.S := by
        have := (Finset.mem_product.1 hmem).2
        simpa using this
      have hc1 : ¬(p' = (p0.1, p0.2) ∧ e' = Dir.S) := by
        rintro ⟨h1, h2⟩
        exact hne' (by rw [show p' = p0 from h1.trans Prod.mk.eta, h2])
      have hc2 : ¬(p' = ((stepP p0 Dir.S).1, (stepP p0 Dir.S).2)
          ∧ e' = Dir.S.opposite) := by
        rintro ⟨-, h2⟩
        rcases he' with rfl | rfl
        · cases h2
        · cases h2
      unfold openRec
      rw [walls_carveUpd m p0.1 p0.2 _ _ _ hne, if_neg hc1, if_neg hc2]
      exact Iff.rfl
  | W =>
    have hstep : stepP (stepP p0 Dir.W) Dir.E = p0 := stepP_opposite p0 Dir.W
    refine filter_card_flip _ _ _ (stepP p0 Dir.W, Dir.E)
      (Finset.mem_product.2 ⟨(mem_gridFinset _ _ _).2 hqB, hmemE⟩) ?_ ?_ ?_
    · rintro ⟨-, -, hw⟩
      rw [show (Dir.E : Dir) = Dir.W.opposite from rfl, hwq] at hw
      cases hw
    · refine ⟨hqB, ?_, ?_⟩
      · show m.inB (stepP (stepP p0 Dir.W) Dir.E)
        rw [hstep]
        exact hp0B
      · rw [walls_carveUpd m p0.1 p0.2 _ _ _ hne, if_neg,
          if_pos ⟨Prod.mk.eta.symm, rfl⟩]
        rintro ⟨h1, h2⟩
        cases h2
    · rintro ⟨p', e'⟩ hmem hne'
      dsimp only
      have he' : e' = Dir.E ∨ e' = Dir.S := by
        have := (Finset.mem_product.1 hmem).2
        simpa using this
      have hc1 : ¬(p' = (p0.1, p0.2) ∧ e' = Dir.W) := by
        rintro ⟨-, h2⟩
        rcases he' with rfl | rfl
        · cases h2
        · cases h2
      have hc2 : ¬(p' = ((stepP p0 Dir.W).1, (stepP p0 Dir.W).2)
          ∧ e' = Dir.W.opposite) := by
        rintro ⟨h1, h2⟩
        exact hne' (by rw [show p' = stepP p0 Dir.W from h1.trans Prod.mk.eta,
          show e' = Dir.E from h2])
      unfold openRec
      rw [walls_carveUpd m p0.1 p0.2 _ _ _ hne, if_neg hc1, if_neg hc2]
      exact Iff.rfl
  | N =>
    have hstep : stepP (stepP p0 Dir.N) Dir.S = p0 := stepP_opposite p0 Dir.N
    refine filter_card_flip _ _ _ (stepP p0 Dir.N, Dir.S)
      (Finset.mem_product.2 ⟨(mem_gridFinset _ _ _).2 hqB, hmemS⟩) ?_ ?_ ?_
    · rintro ⟨-, -, hw⟩
      rw [show (Dir.S : Dir) = Dir.N.opposite from rfl, hwq] at hw
      cases hw
    · refine ⟨hqB, ?_, ?_⟩
      · show m.inB (stepP (stepP p0 Dir.N) Dir.S)
        rw [hstep]
        exact hp0B
      · rw [walls_carveUpd m p0.1 p0.2 _ _ _ hne, if_neg,
          if_pos ⟨Prod.mk.eta.symm, rfl⟩]
        rintro ⟨h1, h2⟩
        cases h2
    · rintro ⟨p', e'⟩ hmem hne'
      dsimp only
      have he' : e' = Dir.E ∨ e' = Dir.S := by
        have := (Finset.mem_product.1 hmem).2
        simpa using this
      have hc1 : ¬(p' = (p0.1, p0.2) ∧ e' = Dir.N) := by
        rintro ⟨-, h2⟩
        rcases he' with rfl | rfl
        · cases h2
        · cases h2
      have hc2 : ¬(p' = ((stepP p0 Dir.N).1, (stepP p0 Dir.N).2)
          ∧ e' = Dir.N.opposite) := by
        rintro ⟨h1, h2⟩
        exact hne' (by rw [show p' = stepP p0 Dir.N from h1.trans Prod.mk.eta,
          show e' = Dir.S from h2])
      unfold openRec
      rw [walls_carveUpd m p0.1 p0.2 _ _ _ hne, if_neg hc1, if_neg hc2]
      exact Iff.rfl

theorem stampedB_entry (w h : Nat) (en ex : Int × Int) :
    stampedB w h en ex en = false := by
  unfold stampedB
  simp

theorem stampedB_exit_pos (w h : Nat) (en ex : Int × Int) :
    stampedB w h en ex ex = false := by
  unfold stampedB
  simp

theorem visited_carveUpd_mono (m : Maze) (x y nx ny : Int) (d : Dir)
    (p : Int × Int) (hv : (m.cells p).visited = true) :
    ((carveUpd m x y nx ny d).cells p).visited = true := by
  rw [visited_carveUpd]
  split
  · rfl
  · exact hv

theorem choice_mem (r : RNG) (l : List (Int × Int × Dir)) (hne : l ≠ []) :
    (r.choice l).1 ∈ l := by
  unfold RNG.choice
  have hlen : 0 < l.length := List.length_pos.2 hne
  have hlt : (r.next.1) % l.length < l.length := Nat.mod_lt _ hlen
  simp only []
  rw [List.getD_eq_getElem l _ hlt]
  exact List.getElem_mem hlt

theorem unvisitedNeighbors_nil (m : Maze) (x y : Int)
    (h : m.unvisitedNeighbors x y = []) :
    ∀ t ∈ m.get_neighbors x y, (m.cellD t.1 t.2.1).visited = true := by
  intro t ht
  have := List.filter_eq_nil_iff.1 h t ht
  simpa using this

theorem mem_unvisitedNeighbors_elim (m : Maze) (x y : Int)
    (t : Int × Int × Dir) (ht : t ∈ m.unvisitedNeighbors x y) :
    t = ((stepP (x, y) t.2.2).1, (stepP (x, y) t.2.2).2, t.2.2)
      ∧ m.inB (stepP (x, y) t.2.2)
      ∧ (m.cells (stepP (x, y) t.2.2)).visited = false := by
  rcases (mem_unvisitedNeighbors m x y t).1 ht with ⟨hnb, hv⟩
  rcases (mem_get_neighbors m x y t).1 hnb with ⟨d, hteq, hB⟩
  have ht2 : t.2.2 = d := by rw [hteq]
  subst ht2
  have hstep : (t.1, t.2.1) = stepP (x, y) t.2.2 := by
    rw [hteq]
    rfl
  have hB' : m.inB (stepP (x, y) t.2.2) := by
    rw [← hstep]
    exact hB
  refine ⟨?_, hB', ?_⟩
  · rw [hteq]
    rfl
  · rw [← hstep]
    rw [cellD_eq_cells m t.1 t.2.1 hB] at hv
    simpa using hv

/-- The carving loop invariant, carried through `carve`.  The parameters
`w h en ex` are the generation parameters; `stampedB w h en ex` describes
the Pattern Stamper's obstacle cells. -/
structure CarveInv (w h : Nat) (en ex : Int × Int) (m : Maze)
    (stack : List (Int × Int)) : Prop where
  hw : m.width = w
  hh : m.height = h
  hen_inB : m.inB en
  hen_vis : (m.cells en).visited = true
  hpair : Paired m
  hbound : ∀ p d, m.inB p → ¬ m.inB (stepP p d) → (m.cells p).walls d = true
  hunvis : ∀ p d, m.inB p → (m.cells p).visited = false →
      (m.cells p).walls d = true
  hstamp : ∀ p, stampedB w h en ex p = true →
      (m.cells p).visited = true ∧ ∀ d, (m.cells p).walls d = true
  hstack : ∀ q ∈ stack, m.inB q ∧ (m.cells q).visited = true
      ∧ stampedB w h en ex q = false
  hreach : ∀ p, m.inB p → (m.cells p).visited = true →
      stampedB w h en ex p = false → OpenReach m en p
  hcomplete : ∀ p, m.inB p → (m.cells p).visited = true →
      stampedB w h en ex p = false → p ∈ stack
      ∨ ∀ t ∈ m.get_neighbors p.1 p.2, (m.cells (t.1, t.2.1)).visited = true
  hcount : openInternalCount m + 1 = visitedFreeCount m en ex
  hedge : ∀ p q, OpenEdge m p q →
      (m.cells p).visited = true ∧ stampedB w h en ex p = false
  hrank : ∃ (rk : Int × Int → Nat) (ctr : Nat),
      (∀ p, m.inB p → (m.cells p).visited = true →
        stampedB w h en ex p = false → rk p < ctr)
      ∧ (∀ p q, m.inB p → m.inB q → (m.cells p).visited = true
          → (m.cells q).visited = true → stampedB w h en ex p = false
          → stampedB w h en ex q = false → rk p = rk q → p = q)
      ∧ (∀ p a a', OpenEdge m a p → OpenEdge m a' p → rk a < rk p
          → rk a' < rk p → a = a')
  hmiss : (∀ p, m.inB p → stampedB w h en ex p = false →
        (m.cells p).visited = true → ∃ d, (m.cells p).walls d = false)
      ∨ ((∀ p, m.inB p → stampedB w h en ex p = false →
            (m.cells p).visited = true → p = en) ∧ stack = [en])

/-- The push step of the carving loop preserves the invariant. -/
theorem CarveInv.push (w h : Nat) (en ex : Int × Int) (m : Maze)
    (x y : Int) (rest : List (Int × Int)) (d : Dir)
    (inv : CarveInv w h en ex m ((x, y) :: rest))
    (hqB : m.inB (stepP (x, y) d))
    (hqV : (m.cells (stepP (x, y) d)).visited = false) :
    CarveInv w h en ex
      (carveUpd m x y (stepP (x, y) d).1 (stepP (x, y) d).2 d)
      (stepP (x, y) d :: (x, y) :: rest) := by
  have hp0 := inv.hstack (x, y) (List.mem_cons_self _ _)
  obtain ⟨hp0B, hp0V, hp0S⟩ := hp0
  have hqS : stampedB w h en ex (stepP (x, y) d) = false := by
    rw [Bool.eq_false_iff]
    intro hs
    rw [(inv.hstamp _ hs).1] at hqV
    cases hqV
  have hqNe : stepP (x, y) d ≠ (x, y) := stepP_ne (x, y) d
  have hne : ((stepP (x, y) d).1, (stepP (x, y) d).2) ≠ ((x : Int), (y : Int)) := by
    intro hcontra
    exact hqNe (Prod.mk.eta.symm.trans hcontra)
  have hwq : (m.cells (stepP (x, y) d)).walls d.opposite = true :=
    inv.hunvis _ _ hqB hqV
  have hwp : (m.cells (x, y)).walls d = true := by
    rw [inv.hpair (x, y) d hp0B hqB]
    exact hwq
  have hedgeIff := OpenEdge_carveUpd m (x, y) d hp0B hqB
  have hQvis : ((carveUpd m x y (stepP (x, y) d).1 (stepP (x, y) d).2
      d).cells (stepP (x, y) d)).visited = true := by
    rw [visited_carveUpd, if_pos Prod.mk.eta.symm]
  have hVmono : ∀ p, (m.cells p).visited = true →
      ((carveUpd m x y (stepP (x, y) d).1 (stepP (x, y) d).2
        d).cells p).visited = true :=
    fun p hp => visited_carveUpd_mono m x y _ _ d p hp
  have hVinv : ∀ p, p ≠ stepP (x, y) d →
      ((carveUpd m x y (stepP (x, y) d).1 (stepP (x, y) d).2
        d).cells p).visited = (m.cells p).visited := by
    intro p hp
    rw [visited_carveUpd, if_neg (fun hc => hp (hc.trans Prod.mk.eta))]
  refine ⟨inv.hw, inv.hh, inv.hen_inB, hVmono en inv.hen_vis, ?_, ?_, ?_, ?_,
    ?_, ?_, ?_, ?_, ?_, ?_, ?_⟩
  · -- hpair
    intro p e hp hps
    rw [carveUpd_inB] at hp hps
    rw [walls_carveUpd m x y _ _ d hne, walls_carveUpd m x y _ _ d hne]
    by_cases hc1 : p = ((x : Int), (y : Int)) ∧ e = d
    · rw [if_pos hc1]
      obtain ⟨rfl, rfl⟩ := hc1
      rw [if_neg, if_pos ⟨Prod.mk.eta.symm, rfl⟩]
      rintro ⟨h1, -⟩
      exact hqNe h1
    · rw [if_neg hc1]
      by_cases hc2 : p = ((stepP (x, y) d).1, (stepP (x, y) d).2)
          ∧ e = d.opposite
      · rw [if_pos hc2]
        obtain ⟨hp1, rfl⟩ := hc2
        have hp1' : p = stepP (x, y) d := hp1.trans Prod.mk.eta
        subst hp1'
        rw [if_pos ⟨stepP_opposite (x, y) d, Dir.opposite_opposite d⟩]
      · rw [if_neg hc2]
        by_cases hc3 : stepP p e = ((x : Int), (y : Int)) ∧ e.opposite = d
        · exfalso
          apply hc2
          have he : e = d.opposite := by
            rw [← hc3.2, Dir.opposite_opposite]
          refine ⟨?_, he⟩
          have h1 : stepP p e = (x, y) := hc3.1
          have : p = stepP (x, y) e.opposite := by
            rw [← h1, stepP_opposite]
          rw [this, he, Dir.opposite_opposite]
        · rw [if_neg hc3]
          by_cases hc4 : stepP p e = ((stepP (x, y) d).1, (stepP (x, y) d).2)
              ∧ e.opposite = d.opposite
          · exfalso
            apply hc1
            have he : e = d := Dir.opposite_inj hc4.2
            subst he
            have : stepP p e = stepP (x, y) e := hc4.1.trans Prod.mk.eta
            rw [stepP_inj this]
            exact ⟨Prod.mk.eta.symm, rfl⟩
          · rw [if_neg hc4]
            exact inv.hpair p e hp hps
  · -- hbound
    intro p e hp hout
    rw [carveUpd_inB] at hp
    have hout' : ¬ m.inB (stepP p e) := fun hc => hout hc
    have hc1 : ¬(p = ((x : Int), (y : Int)) ∧ e = d) := by
      rintro ⟨rfl, rfl⟩
      exact hout' hqB
    have hc2 : ¬(p = ((stepP (x, y) d).1, (stepP (x, y) d).2)
        ∧ e = d.opposite) := by
      rintro ⟨h1, rfl⟩
      apply hout'
      have hp1 : p = stepP (x, y) d := h1.trans Prod.mk.eta
      rw [hp1, stepP_opposite]
      exact hp0B
    rw [walls_carveUpd m x y _ _ d hne, if_neg hc1, if_neg hc2]
    exact inv.hbound p e hp hout'
  · -- hunvis
    intro p e hp hv
    rw [carveUpd_inB] at hp
    have hpq : p ≠ stepP (x, y) d := by
      intro hc
      rw [hc, hQvis] at hv
      cases hv
    rw [hVinv p hpq] at hv
    have hc1 : ¬(p = ((x : Int), (y : Int)) ∧ e = d) := by
      rintro ⟨rfl, -⟩
      rw [hp0V] at hv
      cases hv
    have hc2 : ¬(p = ((stepP (x, y) d).1, (stepP (x, y) d).2)
        ∧ e = d.opposite) := by
      rintro ⟨h1, -⟩
      exact hpq (h1.trans Prod.mk.eta)
    rw [walls_carveUpd m x y _ _ d hne, if_neg hc1, if_neg hc2]
    exact inv.hunvis p e hp hv
  · -- hstamp
    intro p hs
    have hps0 : p ≠ (x, y) := by
      intro hc
      rw [hc, hp0S] at hs
      cases hs
    have hpq : p ≠ stepP (x, y) d := by
      intro hc
      rw [hc, hqS] at hs
      cases hs
    obtain ⟨hv, hwalls⟩ := inv.hstamp p hs
    refine ⟨hVmono p hv, ?_⟩
    intro e
    have hc1 : ¬(p = ((x : Int), (y : Int)) ∧ e = d) := by
      rintro ⟨h1, -⟩
      exact hps0 h1
    have hc2 : ¬(p = ((stepP (x, y) d).1, (stepP (x, y) d).2)
        ∧ e = d.opposite) := by
      rintro ⟨h1, -⟩
      exact hpq (h1.trans Prod.mk.eta)
    rw [walls_carveUpd m x y _ _ d hne, if_neg hc1, if_neg hc2]
    exact hwalls e
  · -- hstack
    intro qq hqq
    rcases List.mem_cons.1 hqq with rfl | hmem
    · exact ⟨hqB, hQvis, hqS⟩
    · obtain ⟨hB, hV, hS⟩ := inv.hstack qq hmem
      exact ⟨hB, hVmono qq hV, hS⟩
  · -- hreach
    intro p hp hv hs
    rw [carveUpd_inB] at hp
    by_cases hpq : p = stepP (x, y) d
    · rw [hpq]
      have hr0 : OpenReach (carveUpd m x y (stepP (x, y) d).1
          (stepP (x, y) d).2 d) en (x, y) :=
        OpenReach.mono m (carveUpd m x y (stepP (x, y) d).1
            (stepP (x, y) d).2 d) rfl rfl
          (fun p' e' hw => walls_carveUpd_mono m x y _ _ d hne p' e' hw)
          (inv.hreach (x, y) hp0B hp0V hp0S)
      exact OpenReach.tail en (x, y) _ hr0
        ((hedgeIff (x, y) (stepP (x, y) d)).2 (Or.inr (Or.inl ⟨rfl, rfl⟩)))
    · rw [hVinv p hpq] at hv
      exact OpenReach.mono m (carveUpd m x y (stepP (x, y) d).1
          (stepP (x, y) d).2 d) rfl rfl
        (fun p' e' hw => walls_carveUpd_mono m x y _ _ d hne p' e' hw)
        (inv.hreach p hp hv hs)
  · -- hcomplete
    intro p hp hv hs
    rw [carveUpd_inB] at hp
    by_cases hpq : p = stepP (x, y) d
    · exact Or.inl (by rw [hpq]; exact List.mem_cons_self _ _)
    · rw [hVinv p hpq] at hv
      rcases inv.hcomplete p hp hv hs with hmem | hall
      · exact Or.inl (List.mem_cons_of_mem _ hmem)
      · refine Or.inr ?_
        intro t ht
        rw [get_neighbors_carveUpd] at ht
        exact hVmono _ (hall t ht)
  · -- hcount
    rw [openInternalCount_carveUpd m (x, y) d hp0B hqB hwp hwq,
      visitedFreeCount_carveUpd m en ex (x, y) d hqB hqV
        (by rw [inv.hw, inv.hh]; exact hqS)]
    rw [← inv.hcount]
  · -- hedge
    intro p qq hE
    rcases (hedgeIff p qq).1 hE with hold | ⟨rfl, rfl⟩ | ⟨rfl, rfl⟩
    · obtain ⟨hv, hs⟩ := inv.hedge p qq hold
      exact ⟨hVmono p hv, hs⟩
    · exact ⟨hVmono _ hp0V, hp0S⟩
    · exact ⟨hQvis, hqS⟩
  · -- hrank
    obtain ⟨rk, ctr, hbnd, hinj, huniq⟩ := inv.hrank
    refine ⟨fun p => if p = stepP (x, y) d then ctr else rk p, ctr + 1,
      ?_, ?_, ?_⟩
    · intro p hp hv hs
      dsimp only
      rw [carveUpd_inB] at hp
      by_cases hpq : p = stepP (x, y) d
      · rw [if_pos hpq]
        omega
      · rw [if_neg hpq]
        rw [hVinv p hpq] at hv
        have := hbnd p hp hv hs
        omega
    · intro p qq hp hqq hvp hvq hsp hsq heq
      dsimp only at heq
      rw [carveUpd_inB] at hp hqq
      by_cases hpq : p = stepP (x, y) d
      · by_cases hqq' : qq = stepP (x, y) d
        · rw [hpq, hqq']
        · rw [if_pos hpq, if_neg hqq'] at heq
          rw [hVinv qq hqq'] at hvq
          have := hbnd qq hqq hvq hsq
          omega
      · by_cases hqq' : qq = stepP (x, y) d
        · rw [if_neg hpq, if_pos hqq'] at heq
          rw [hVinv p hpq] at hvp
          have := hbnd p hp hvp hsp
          omega
        · rw [if_neg hpq, if_neg hqq'] at heq
          rw [hVinv p hpq] at hvp
          rw [hVinv qq hqq'] at hvq
          exact hinj p qq hp hqq hvp hvq hsp hsq heq
    · intro p a a' hEa hEa' hra hra'
      dsimp only at hra hra'
      have hnoq : ∀ b, ¬ OpenEdge m b (stepP (x, y) d) := by
        intro b hEb
        have := (inv.hedge _ _ hEb.symm).1
        rw [hqV] at this
        cases this
      by_cases hpq : p = stepP (x, y) d
      · subst hpq
        have ha : a = (x, y) := by
          rcases (hedgeIff a _).1 hEa with hold | ⟨rfl, h2⟩ | ⟨h1, h2⟩
          · exact absurd hold (hnoq a)
          · rfl
          · exact absurd h2 hqNe
        have ha' : a' = (x, y) := by
          rcases (hedgeIff a' _).1 hEa' with hold | ⟨rfl, h2⟩ | ⟨h1, h2⟩
          · exact absurd hold (hnoq a')
          · rfl
          · exact absurd h2 hqNe
        rw [ha, ha']
      · rw [if_neg hpq] at hra hra'
        have hstep : ∀ b, OpenEdge (carveUpd m x y (stepP (x, y) d).1
              (stepP (x, y) d).2 d) b p →
            (if b = stepP (x, y) d then ctr else rk b) < rk p →
            OpenEdge m b p ∧ rk b < rk p := by
          intro b hEb hrb
          rcases (hedgeIff b p).1 hEb with hbold | ⟨rfl, h2⟩ | ⟨h1, h2⟩
          · have hbq : b ≠ stepP (x, y) d := by
              intro hc
              rw [hc] at hbold
              exact hnoq p hbold.symm
            rw [if_neg hbq] at hrb
            exact ⟨hbold, hrb⟩
          · exact absurd h2 hpq
          · exfalso
            rw [if_pos h1] at hrb
            have hx := hbnd (x, y) hp0B hp0V hp0S
            rw [h2] at hrb
            omega
        obtain ⟨hEa2, hra2⟩ := hstep a hEa hra
        obtain ⟨hEa2', hra2'⟩ := hstep a' hEa' hra'
        exact huniq p a a' hEa2 hEa2' hra2 hra2'
  · -- hmiss
    left
    intro p hp hs hv
    rw [carveUpd_inB] at hp
    by_cases hpq : p = stepP (x, y) d
    · refine ⟨d.opposite, ?_⟩
      rw [hpq, walls_carveUpd m x y _ _ d hne, if_neg,
        if_pos ⟨Prod.mk.eta.symm, rfl⟩]
      rintro ⟨-, h2⟩
      exact Dir.opposite_ne d h2
    · rw [hVinv p hpq] at hv
      rcases inv.hmiss with hL | ⟨honly, hstk⟩
      · obtain ⟨e, he⟩ := hL p hp hs hv
        exact ⟨e, walls_carveUpd_mono m x y _ _ d hne p e he⟩
      · have hxy : ((x : Int), (y : Int)) = en ∧ rest = [] := by
          rw [List.cons.injEq] at hstk
          exact hstk
        have hpe : p = en := honly p hp hs hv
        refine ⟨d, ?_⟩
        rw [walls_carveUpd m x y _ _ d hne,
          if_pos ⟨by rw [hpe, ← hxy.1], rfl⟩]

/-- The pop step of the carving loop preserves the invariant.  The
hypothesis `hfreenb` (the entry has a free in-bounds neighbor) rules out
the degenerate initial pop. -/
theorem CarveInv.pop (w h : Nat) (en ex : Int × Int) (m : Maze)
    (x y : Int) (rest : List (Int × Int))
    (inv : CarveInv w h en ex m ((x, y) :: rest))
    (hfreenb : ∃ d : Dir, inBnds w h (stepP en d)
      ∧ stampedB w h en ex (stepP en d) = false)
    (hempty : m.unvisitedNeighbors x y = []) :
    CarveInv w h en ex m rest := by
  have hall := unvisitedNeighbors_nil m x y hempty
  refine ⟨inv.hw, inv.hh, inv.hen_inB, inv.hen_vis, inv.hpair, inv.hbound,
    inv.hunvis, inv.hstamp, ?_, inv.hreach, ?_, inv.hcount, inv.hedge,
    inv.hrank, ?_⟩
  · intro q hq
    exact inv.hstack q (List.mem_cons_of_mem _ hq)
  · intro p hp hv hs
    rcases inv.hcomplete p hp hv hs with hmem | hnb
    · rcases List.mem_cons.1 hmem with rfl | hmem'
      · refine Or.inr ?_
        intro t ht
        have ht' : t ∈ m.get_neighbors x y := by simpa using ht
        have := hall t ht'
        rw [cellD_eq_cells m t.1 t.2.1
          (mem_get_neighbors_inB m x y t ht')] at this
        exact this
      · exact Or.inl hmem'
    · exact Or.inr hnb
  · rcases inv.hmiss with hL | ⟨honly, hstk⟩
    · exact Or.inl hL
    · exfalso
      obtain ⟨hxy, hrest⟩ : ((x : Int), (y : Int)) = en ∧ rest = [] := by
        rw [List.cons.injEq] at hstk
        exact hstk
      obtain ⟨d, hnbB, hnbS⟩ := hfreenb
      have hnbB' : m.inB (stepP en d) := by
        rw [inB_iff_inBnds, inv.hw, inv.hh]
        exact hnbB
      have hnbV : (m.cells (stepP en d)).visited = false := by
        rw [Bool.eq_false_iff]
        intro hv
        exact stepP_ne en d (honly (stepP en d) hnbB' hnbS hv)
      have ht : ((stepP en d).1, (stepP en d).2, d)
          ∈ m.unvisitedNeighbors x y := by
        rw [mem_unvisitedNeighbors]
        constructor
        · rw [mem_get_neighbors]
          refine ⟨d, ?_, ?_⟩
          · have : en = ((x : Int), (y : Int)) := hxy.symm
            rw [this]
            rfl
          · exact hnbB'
        · show ¬ (m.cellD (stepP en d).1 (stepP en d).2).visited = true
          rw [cellD_eq_cells m (stepP en d).1 (stepP en d).2
            (by rw [Prod.mk.eta]; exact hnbB')]
          rw [show m.cells ((stepP en d).1, (stepP en d).2)
            = m.cells (stepP en d) from by rw [Prod.mk.eta]]
          rw [hnbV]
          simp
      rw [hempty] at ht
      cases ht

/-- The backtracker loop establishes the terminal invariant: with enough
fuel the stack empties and the invariant holds of the result. -/
theorem carve_spec (w h : Nat) (en ex : Int × Int)
    (hfreenb : ∃ d : Dir, inBnds w h (stepP en d)
      ∧ stampedB w h en ex (stepP en d) = false) :
    ∀ (fuel : Nat) (m : Maze) (stack : List (Int × Int)) (r : RNG),
      CarveInv w h en ex m stack
      → 2 * unvisitedCount m + stack.length ≤ fuel
      → CarveInv w h en ex (carve fuel m stack r).1 [] := by
  intro fuel
  induction fuel with
  | zero =>
    intro m stack r inv hle
    have hstk : stack = [] := by
      cases stack with
      | nil => rfl
      | cons a l => simp at hle
    subst hstk
    exact inv
  | succ fuel ih =>
    intro m stack r inv hle
    cases stack with
    | nil => exact inv
    | cons p0 rest =>
      obtain ⟨x, y⟩ := p0
      show CarveInv w h en ex
        (carve (fuel + 1) m ((x, y) :: rest) r).1 []
      rw [show carve (fuel + 1) m ((x, y) :: rest) r
          = if (m.unvisitedNeighbors x y).isEmpty then carve fuel m rest r
            else
              (fun t r' =>
                if m.inB (x, y) ∧ m.inB (t.1, t.2.1) then
                  carve fuel (carveUpd m x y t.1 t.2.1 t.2.2)
                    ((t.1, t.2.1) :: (x, y) :: rest) r'
                else carve fuel m ((x, y) :: rest) r')
                (r.choice (m.unvisitedNeighbors x y)).1
                (r.choice (m.unvisitedNeighbors x y)).2
        from rfl]
      by_cases hemp : (m.unvisitedNeighbors x y).isEmpty
      · rw [if_pos hemp]
        have hempty : m.unvisitedNeighbors x y = [] :=
          List.isEmpty_iff.1 hemp
        refine ih m rest r (CarveInv.pop w h en ex m x y rest inv hfreenb
          hempty) ?_
        have := hle
        simp only [List.length_cons] at this ⊢
        omega
      · rw [if_neg hemp]
        have hnonnil : m.unvisitedNeighbors x y ≠ [] := by
          intro hc
          rw [hc] at hemp
          exact hemp rfl
        have htmem := choice_mem r (m.unvisitedNeighbors x y) hnonnil
        obtain ⟨hteq, hB, hV⟩ := mem_unvisitedNeighbors_elim m x y _ htmem
        rw [hteq]
        dsimp only
        have hp0B : m.inB (x, y) :=
          (inv.hstack (x, y) (List.mem_cons_self _ _)).1
        rw [if_pos ⟨hp0B, hB⟩]
        refine ih (carveUpd m x y
            (stepP (x, y) (r.choice (m.unvisitedNeighbors x y)).1.2.2).1
            (stepP (x, y) (r.choice (m.unvisitedNeighbors x y)).1.2.2).2
            (r.choice (m.unvisitedNeighbors x y)).1.2.2)
          _ (r.choice (m.unvisitedNeighbors x y)).2 ?_ ?_
        · exact CarveInv.push w h en ex m x y rest
            (r.choice (m.unvisitedNeighbors x y)).1.2.2 inv hB hV
        · have hcnt : unvisitedCount m
              = unvisitedCount (carveUpd m x y
                (stepP (x, y) (r.choice (m.unvisitedNeighbors x y)).1.2.2).1
                (stepP (x, y) (r.choice (m.unvisitedNeighbors x y)).1.2.2).2
                (r.choice (m.unvisitedNeighbors x y)).1.2.2) + 1 :=
            unvisitedCount_carveUpd m (x, y)
              (r.choice (m.unvisitedNeighbors x y)).1.2.2 hB hV
          simp only [List.length_cons] at hle ⊢
          omega

/-! ### The initial invariant -/

/-- The maze state at the start of the carving loop: pattern stamped, the
start cell marked visited. -/
def startMaze (g : MazeGenerator) (en ex : Int × Int) : Maze :=
  (g.add_42_pattern (mkMaze g.width g.height en ex)).setVisitedAt en.1 en.2

theorem startMaze_width (g : MazeGenerator) (en ex : Int × Int) :
    (startMaze g en ex).width = g.width := by
  show (g.add_42_pattern (mkMaze g.width g.height en ex)).width = g.width
  rw [add42_width]
  rfl

theorem startMaze_height (g : MazeGenerator) (en ex : Int × Int) :
    (startMaze g en ex).height = g.height := by
  show (g.add_42_pattern (mkMaze g.width g.height en ex)).height = g.height
  rw [add42_height]
  rfl

theorem walls_startMaze (g : MazeGenerator) (en ex : Int × Int)
    (p : Int × Int) (d : Dir) :
    ((startMaze g en ex).cells p).walls d = true := by
  unfold startMaze Maze.setVisitedAt
  rw [cells_modifyCell]
  split
  · rw [walls_setVisited]
    exact walls_add42_mkMaze g en ex _ d
  · exact walls_add42_mkMaze g en ex p d

theorem visited_startMaze (g : MazeGenerator) (en ex : Int × Int)
    (p : Int × Int) :
    ((startMaze g en ex).cells p).visited = true
      ↔ stampedB g.width g.height en ex p = true ∨ p = en := by
  unfold startMaze Maze.setVisitedAt
  rw [cells_modifyCell]
  split
  · rename_i hp
    simp only [visited_setVisited]
    constructor
    · intro _
      exact Or.inr (hp.trans Prod.mk.eta)
    · intro _
      trivial
  · rename_i hp
    rw [visited_add42_mkMaze]
    constructor
    · intro hs
      exact Or.inl hs
    · rintro (hs | rfl)
      · exact hs
      · exact absurd Prod.mk.eta.symm hp

theorem inB_startMaze (g : MazeGenerator) (en ex : Int × Int)
    (p : Int × Int) :
    (startMaze g en ex).inB p ↔ inBnds g.width g.height p := by
  rw [inB_iff_inBnds, startMaze_width, startMaze_height]

theorem gridFinset_card (w h : Nat) : (gridFinset w h).card = w * h := by
  rw [gridFinset, Finset.card_product]
  rw [Int.card_Ico, Int.card_Ico]
  simp

theorem unvisitedCount_le (m : Maze) :
    unvisitedCount m ≤ m.width * m.height := by
  unfold unvisitedCount
  calc ((gridFinset m.width m.height).filter _).card
      ≤ (gridFinset m.width m.height).card := Finset.card_filter_le _ _
    _ = m.width * m.height := gridFinset_card _ _

/-- The initial state satisfies the carving invariant. -/
theorem initial_inv (g : MazeGenerator) (en ex : Int × Int)
    (henB : inBnds g.width g.height en) :
    CarveInv g.width g.height en ex (startMaze g en ex) [en] := by
  have hwalls := walls_startMaze g en ex
  have hvis := visited_startMaze g en ex
  have hiB := inB_startMaze g en ex
  refine ⟨startMaze_width g en ex, startMaze_height g en ex,
    (hiB en).2 henB, (hvis en).2 (Or.inr rfl), ?_, ?_, ?_, ?_, ?_, ?_, ?_,
    ?_, ?_, ?_, ?_⟩
  · intro p d _ _
    rw [hwalls, hwalls]
  · intro p d _ _
    exact hwalls p d
  · intro p d _ _
    exact hwalls p d
  · intro p hs
    exact ⟨(hvis p).2 (Or.inl hs), fun d => hwalls p d⟩
  · intro q hq
    rcases List.mem_singleton.1 hq with rfl
    exact ⟨(hiB q).2 henB, (hvis q).2 (Or.inr rfl), stampedB_entry _ _ _ _⟩
  · intro p _ hv hs
    rcases (hvis p).1 hv with hstamp | rfl
    · rw [hstamp] at hs
      cases hs
    · exact OpenReach.refl p
  · intro p _ hv hs
    rcases (hvis p).1 hv with hstamp | rfl
    · rw [hstamp] at hs
      cases hs
    · exact Or.inl (List.mem_singleton.2 rfl)
  · show openInternalCount (startMaze g en ex) + 1
      = visitedFreeCount (startMaze g en ex) en ex
    have hopen : openInternalCount (startMaze g en ex) = 0 := by
      unfold openInternalCount
      rw [Finset.card_eq_zero, Finset.filter_eq_empty_iff]
      rintro ⟨p, d⟩ -
      rintro ⟨-, -, hw⟩
      rw [hwalls] at hw
      cases hw
    have hvf : visitedFreeCount (startMaze g en ex) en ex = 1 := by
      unfold visitedFreeCount
      rw [show (gridFinset (startMaze g en ex).width
          (startMaze g en ex).height).filter
          (fun p => ((startMaze g en ex).cells p).visited = true
            ∧ ¬ stampedB (startMaze g en ex).width
                (startMaze g en ex).height en ex p = true) = {en} from ?_]
      · exact Finset.card_singleton en
      · ext p
        rw [Finset.mem_filter, Finset.mem_singleton]
        constructor
        · rintro ⟨hmem, hv, hs⟩
          rcases (hvis p).1 hv with hstamp | rfl
          · rw [startMaze_width, startMaze_height] at hs
            exact absurd hstamp hs
          · rfl
        · rintro rfl
          refine ⟨?_, (hvis p).2 (Or.inr rfl), ?_⟩
          · rw [mem_gridFinset, startMaze_width, startMaze_height]
            exact henB
          · rw [startMaze_width, startMaze_height, stampedB_entry]
            simp
    rw [hopen, hvf]
  · rintro p q ⟨d, -, -, -, hw, -⟩
    rw [hwalls] at hw
    cases hw
  · refine ⟨fun _ => 0, 1, ?_, ?_, ?_⟩
    · intro p _ _ _
      show (0 : Nat) < 1
      omega
    · intro p q _ _ hvp hvq hsp hsq _
      rcases (hvis p).1 hvp with hstamp | rfl
      · rw [hstamp] at hsp
        cases hsp
      · rcases (hvis q).1 hvq with hstamp | rfl
        · rw [hstamp] at hsq
          cases hsq
        · rfl
    · rintro p a a' ⟨d, -, -, -, hw, -⟩
      rw [hwalls] at hw
      cases hw
  · refine Or.inr ⟨?_, rfl⟩
    intro p _ hs hv
    rcases (hvis p).1 hv with hstamp | rfl
    · rw [hstamp] at hs
      cases hs
    · rfl

/-- The recursive backtracker, started at a validated entry, reaches the
terminal invariant. -/
theorem recursive_backtracker_inv (g : MazeGenerator) (en ex : Int × Int)
    (r : RNG) (henB : inBnds g.width g.height en)
    (hfreenb : ∃ d : Dir, inBnds g.width g.height (stepP en d)
      ∧ stampedB g.width g.height en ex (stepP en d) = false) :
    CarveInv g.width g.height en ex
      (MazeGenerator.recursive_backtracker
        (g.add_42_pattern (mkMaze g.width g.height en ex)) en.1 en.2 r).1
      [] := by
  unfold MazeGenerator.recursive_backtracker
  have hiB : (g.add_42_pattern (mkMaze g.width g.height en ex)).inB
      (en.1, en.2) := by
    rw [inB_iff_inBnds, add42_width, add42_height]
    show inBnds g.width g.height (en.1, en.2)
    rw [Prod.mk.eta]
    exact henB
  rw [get_cell_eq_some _ en.1 en.2 hiB]
  show CarveInv g.width g.height en ex
    (carve (carveFuel (g.add_42_pattern (mkMaze g.width g.height en ex)))
      (startMaze g en ex) [(en.1, en.2)] r).1 []
  refine carve_spec g.width g.height en ex hfreenb _ _ _ r ?_ ?_
  · have := initial_inv g en ex henB
    exact this
  · unfold carveFuel
    have h1 := unvisitedCount_le (startMaze g en ex)
    rw [startMaze_width, startMaze_height] at h1
    have h2 : (g.add_42_pattern (mkMaze g.width g.height en ex)).width
        = g.width := by
      rw [add42_width]
      rfl
    have h3 : (g.add_42_pattern (mkMaze g.width g.height en ex)).height
        = g.height := by
      rw [add42_height]
      rfl
    rw [h2, h3]
    simp only [List.length_cons, List.length_nil]
    have h4 : 2 * unvisitedCount (startMaze g en ex)
        ≤ 2 * (g.width * g.height) := Nat.mul_le_mul_left 2 h1
    calc 2 * unvisitedCount (startMaze g en ex) + (0 + 1)
        ≤ 2 * (g.width * g.height) + 1 := by omega
      _ = 2 * g.width * g.height + 1 := by rw [Nat.mul_assoc]

/-! ### The border enforcer -/

theorem walls_addWallAt (m : Maze) (x y : Int) (d : Dir) (p : Int × Int)
    (e : Dir) :
    ((m.addWallAt x y d).cells p).walls e
      = if p = (x, y) ∧ e = d then true else (m.cells p).walls e := by
  unfold Maze.addWallAt
  rw [cells_modifyCell]
  split
  · rename_i hp
    rw [walls_add_wall]
    by_cases he : e = d
    · rw [if_pos he, if_pos ⟨hp, he⟩]
    · rw [if_neg he, if_neg, hp]
      rintro ⟨-, h2⟩
      exact he h2
  · rename_i hp
    rw [if_neg]
    rintro ⟨h1, -⟩
    exact hp h1

theorem visited_addWallAt (m : Maze) (x y : Int) (d : Dir) (p : Int × Int) :
    ((m.addWallAt x y d).cells p).visited = (m.cells p).visited := by
  unfold Maze.addWallAt
  rw [cells_modifyCell]
  split
  · rename_i hp
    rw [visited_add_wall, hp]
  · rfl

theorem walls_addWallAt_mono (m : Maze) (x y : Int) (d : Dir) (p : Int × Int)
    (e : Dir) (h : (m.cells p).walls e = true) :
    ((m.addWallAt x y d).cells p).walls e = true := by
  rw [walls_addWallAt]
  split
  · rfl
  · exact h

/-- A fold keeps a property preserved by every step. -/
theorem foldl_keeps {α : Type} (f : Maze → α → Maze) (P : Maze → Prop)
    (hmono : ∀ mm a, P mm → P (f mm a)) (l : List α) (m : Maze) (hm : P m) :
    P (l.foldl f m) := by
  induction l generalizing m with
  | nil => exact hm
  | cons a l ih => exact ih (f m a) (hmono m a hm)

/-- A fold sets and keeps a monotone property provided one of its elements
establishes it. -/
theorem foldl_sets {α : Type} (f : Maze → α → Maze) (P : Maze → Prop)
    (hmono : ∀ mm a, P mm → P (f mm a)) (l : List α) (a0 : α) (ha0 : a0 ∈ l)
    (hset : ∀ mm, P (f mm a0)) (m : Maze) : P (l.foldl f m) := by
  induction l generalizing m with
  | nil => cases ha0
  | cons a l ih =>
    rcases List.mem_cons.1 ha0 with heq | hmem
    · rw [List.foldl_cons]
      exact foldl_keeps f P hmono l (f m a) (heq ▸ hset m)
    · rw [List.foldl_cons]
      exact ih hmem (f m a)

theorem addBorder_width (m : Maze) :
    (MazeGenerator.add_border_walls m).width = m.width := by
  unfold MazeGenerator.add_border_walls
  exact foldl_keeps
    (fun mm (y : Nat) => ((mm.addWallAt 0 (y : Int) Dir.W).addWallAt
      ((m.width : Int) - 1) (y : Int) Dir.E))
    (fun mm => mm.width = m.width) (fun mm y hP => hP) (List.range m.height)
    _ (foldl_keeps
      (fun mm (x : Nat) => ((mm.addWallAt (x : Int) 0 Dir.N).addWallAt
        (x : Int) ((m.height : Int) - 1) Dir.S))
      (fun mm => mm.width = m.width) (fun mm x hP => hP) (List.range m.width)
      m rfl)

theorem addBorder_height (m : Maze) :
    (MazeGenerator.add_border_walls m).height = m.height := by
  unfold MazeGenerator.add_border_walls
  exact foldl_keeps
    (fun mm (y : Nat) => ((mm.addWallAt 0 (y : Int) Dir.W).addWallAt
      ((m.width : Int) - 1) (y : Int) Dir.E))
    (fun mm => mm.height = m.height) (fun mm y hP => hP) (List.range m.height)
    _ (foldl_keeps
      (fun mm (x : Nat) => ((mm.addWallAt (x : Int) 0 Dir.N).addWallAt
        (x : Int) ((m.height : Int) - 1) Dir.S))
      (fun mm => mm.height = m.height) (fun mm x hP => hP)
      (List.range m.width) m rfl)

theorem visited_addBorder (m : Maze) (p : Int × Int) :
    ((MazeGenerator.add_border_walls m).cells p).visited
      = (m.cells p).visited := by
  unfold MazeGenerator.add_border_walls
  exact foldl_keeps
    (fun mm (y : Nat) => ((mm.addWallAt 0 (y : Int) Dir.W).addWallAt
      ((m.width : Int) - 1) (y : Int) Dir.E))
    (fun mm => ∀ q, (mm.cells q).visited = (m.cells q).visited)
    (fun mm y hP q => by
      rw [visited_addWallAt, visited_addWallAt]
      exact hP q) (List.range m.height)
    _ (foldl_keeps
      (fun mm (x : Nat) => ((mm.addWallAt (x : Int) 0 Dir.N).addWallAt
        (x : Int) ((m.height : Int) - 1) Dir.S))
      (fun mm => ∀ q, (mm.cells q).visited = (m.cells q).visited)
      (fun mm x hP q => by
        rw [visited_addWallAt, visited_addWallAt]
        exact hP q) (List.range m.width) m (fun q => rfl)) p

/-- The border enforcer leaves walls between two in-bounds cells alone. -/
theorem addBorder_inner (m : Maze) (p : Int × Int) (d : Dir)
    (hp : m.inB p) (hin : m.inB (stepP p d)) :
    ((MazeGenerator.add_border_walls m).cells p).walls d
      = (m.cells p).walls d := by
  obtain ⟨hx0, hxw, hy0, hyh⟩ := hp
  obtain ⟨hx0', hxw', hy0', hyh'⟩ := hin
  unfold MazeGenerator.add_border_walls
  refine foldl_keeps
    (fun mm (y : Nat) => ((mm.addWallAt 0 (y : Int) Dir.W).addWallAt
      ((m.width : Int) - 1) (y : Int) Dir.E))
    (fun mm => (mm.cells p).walls d = (m.cells p).walls d)
    (fun mm y hP => ?_) (List.range m.height)
    _ (foldl_keeps
      (fun mm (x : Nat) => ((mm.addWallAt (x : Int) 0 Dir.N).addWallAt
        (x : Int) ((m.height : Int) - 1) Dir.S))
      (fun mm => (mm.cells p).walls d = (m.cells p).walls d)
      (fun mm x hP => ?_) (List.range m.width) m rfl)
  · dsimp only
    rw [walls_addWallAt, if_neg, walls_addWallAt, if_neg]
    · exact hP
    · rintro ⟨hpe, rfl⟩
      have h1 : p.1 = 0 := by rw [hpe]
      simp only [stepP, Dir.off] at hx0'
      omega
    · rintro ⟨hpe, rfl⟩
      have : p.1 = (m.width : Int) - 1 := by rw [hpe]
      simp only [stepP, Dir.off] at hxw'
      omega
  · dsimp only
    rw [walls_addWallAt, if_neg, walls_addWallAt, if_neg]
    · exact hP
    · rintro ⟨hpe, rfl⟩
      have : p.2 = 0 := by rw [hpe]
      simp only [stepP, Dir.off] at hy0'
      omega
    · rintro ⟨hpe, rfl⟩
      have : p.2 = (m.height : Int) - 1 := by rw [hpe]
      simp only [stepP, Dir.off] at hyh'
      omega

/-- The border enforcer forces every outward boundary wall closed. -/
theorem addBorder_boundary (m : Maze) (p : Int × Int) (d : Dir)
    (hp : m.inB p) (hout : ¬ m.inB (stepP p d)) :
    ((MazeGenerator.add_border_walls m).cells p).walls d = true := by
  obtain ⟨hx0, hxw, hy0, hyh⟩ := hp
  unfold MazeGenerator.add_border_walls
  cases d with
  | N =>
    have hy : p.2 = 0 := by
      by_contra hne
      exact hout ⟨by simpa [stepP, Dir.off] using hx0,
        by simpa [stepP, Dir.off] using hxw,
        by simp only [stepP, Dir.off]; omega,
        by simp only [stepP, Dir.off]; omega⟩
    refine foldl_keeps _
      (fun mm => (mm.cells p).walls Dir.N = true)
      (fun mm y hP => by
        dsimp only
        rw [walls_addWallAt, walls_addWallAt]
        split
        · rfl
        · split
          · rename_i h1 h2
            cases h2.2
          · exact hP) (List.range m.height) _ ?_
    refine foldl_sets _ (fun mm => (mm.cells p).walls Dir.N = true)
      (fun mm x hP => by
        dsimp only
        rw [walls_addWallAt, walls_addWallAt]
        split
        · rename_i h1
          cases h1.2
        · split
          · rfl
          · exact hP) (List.range m.width) p.1.toNat ?_ ?_ m
    · rw [List.mem_range]
      omega
    · intro mm
      have hc1 : ¬(p = ((p.1.toNat : Int), (m.height : Int) - 1)
          ∧ Dir.N = Dir.S) := by
        rintro ⟨-, h2⟩
        cases h2
      have hc2 : p = ((p.1.toNat : Int), (0 : Int)) := by
        have ht : (p.1.toNat : Int) = p.1 := by omega
        rw [ht, ← hy]
      rw [walls_addWallAt, if_neg hc1, walls_addWallAt, if_pos ⟨hc2, rfl⟩]
  | S =>
    have hy : p.2 = (m.height : Int) - 1 := by
      by_contra hne
      exact hout ⟨by simpa [stepP, Dir.off] using hx0,
        by simpa [stepP, Dir.off] using hxw,
        by simp only [stepP, Dir.off]; omega,
        by simp only [stepP, Dir.off]; omega⟩
    refine foldl_keeps _
      (fun mm => (mm.cells p).walls Dir.S = true)
      (fun mm y hP => by
        dsimp only
        rw [walls_addWallAt, walls_addWallAt]
        split
        · rfl
        · split
          · rename_i h1 h2
            cases h2.2
          · exact hP) (List.range m.height) _ ?_
    refine foldl_sets _ (fun mm => (mm.cells p).walls Dir.S = true)
      (fun mm x hP => by
        dsimp only
        rw [walls_addWallAt, walls_addWallAt]
        split
        · rfl
        · split
          · rename_i h1 h2
            cases h2.2
          · exact hP) (List.range m.width) p.1.toNat ?_ ?_ m
    · rw [List.mem_range]
      omega
    · intro mm
      have hc2 : p = ((p.1.toNat : Int), (m.height : Int) - 1) := by
        have ht : (p.1.toNat : Int) = p.1 := by omega
        rw [ht, ← hy]
      rw [walls_addWallAt, if_pos ⟨hc2, rfl⟩]
  | W =>
    have hx : p.1 = 0 := by
      by_contra hne
      exact hout ⟨by simp only [stepP, Dir.off]; omega,
        by simp only [stepP, Dir.off]; omega,
        by simpa [stepP, Dir.off] using hy0,
        by simpa [stepP, Dir.off] using hyh⟩
    refine foldl_sets _ (fun mm => (mm.cells p).walls Dir.W = true)
      (fun mm y hP => by
        dsimp only
        rw [walls_addWallAt, walls_addWallAt]
        split
        · rename_i h1
          cases h1.2
        · split
          · rfl
          · exact hP) (List.range m.height) p.2.toNat ?_ ?_ _
    · rw [List.mem_range]
      omega
    · intro mm
      have hc1 : ¬(p = ((m.width : Int) - 1, (p.2.toNat : Int))
          ∧ Dir.W = Dir.E) := by
        rintro ⟨-, h2⟩
        cases h2
      have hc2 : p = ((0 : Int), (p.2.toNat : Int)) := by
        have ht : (p.2.toNat : Int) = p.2 := by omega
        rw [ht, ← hx]
      rw [walls_addWallAt, if_neg hc1, walls_addWallAt, if_pos ⟨hc2, rfl⟩]
  | E =>
    have hx : p.1 = (m.width : Int) - 1 := by
      by_contra hne
      exact hout ⟨by simp only [stepP, Dir.off]; omega,
        by simp only [stepP, Dir.off]; omega,
        by simpa [stepP, Dir.off] using hy0,
        by simpa [stepP, Dir.off] using hyh⟩
    refine foldl_sets _ (fun mm => (mm.cells p).walls Dir.E = true)
      (fun mm y hP => by
        dsimp only
        rw [walls_addWallAt, walls_addWallAt]
        split
        · rfl
        · split
          · rename_i h1 h2
            cases h2.2
          · exact hP) (List.range m.height) p.2.toNat ?_ ?_ _
    · rw [List.mem_range]
      omega
    · intro mm
      have hc2 : p = ((m.width : Int) - 1, (p.2.toNat : Int)) := by
        have ht : (p.2.toNat : Int) = p.2 := by omega
        rw [ht, ← hx]
      rw [walls_addWallAt, if_pos ⟨hc2, rfl⟩]

/-! ### The loop-injection stage -/

/-- The wall-removal step of `add_loops` (source lines 211-217), acting on
one sampled candidate. -/
def loopStep (m1 : Maze) (t : Int × Int × Dir) : Maze :=
  match m1.get_cell t.1 t.2.1,
      m1.get_cell (t.1 + t.2.2.off.1) (t.2.1 + t.2.2.off.2) with
  | some _, some _ =>
    (m1.removeWallAt t.1 t.2.1 t.2.2).removeWallAt
      (t.1 + t.2.2.off.1) (t.2.1 + t.2.2.off.2) t.2.2.opposite
  | _, _ => m1

theorem add_loops_eq (g : MazeGenerator) (m : Maze) (r : RNG) :
    g.add_loops m r
      = (((r.sample (m.internal_walls m.pattern_walls)
            (min ((⌊((m.internal_walls m.pattern_walls).length : ℚ)
              * g.loop_factor⌋).toNat)
              (m.internal_walls m.pattern_walls).length)).1.foldl loopStep m),
         (r.sample (m.internal_walls m.pattern_walls)
            (min ((⌊((m.internal_walls m.pattern_walls).length : ℚ)
              * g.loop_factor⌋).toNat)
              (m.internal_walls m.pattern_walls).length)).2) := rfl

theorem loopStep_width (m : Maze) (t : Int × Int × Dir) :
    (loopStep m t).width = m.width := by
  unfold loopStep
  split <;> rfl

theorem loopStep_height (m : Maze) (t : Int × Int × Dir) :
    (loopStep m t).height = m.height := by
  unfold loopStep
  split <;> rfl

theorem inB_loopStep (m : Maze) (t : Int × Int × Dir) (p : Int × Int) :
    (loopStep m t).inB p ↔ m.inB p := by
  unfold Maze.inB
  rw [loopStep_width, loopStep_height]

theorem walls_removeWallAt (m : Maze) (x y : Int) (d : Dir) (p : Int × Int)
    (e : Dir) :
    ((m.removeWallAt x y d).cells p).walls e
      = if p = (x, y) ∧ e = d then false else (m.cells p).walls e := by
  unfold Maze.removeWallAt
  rw [cells_modifyCell]
  split
  · rename_i hp
    rw [walls_remove_wall]
    by_cases he : e = d
    · rw [if_pos he, if_pos ⟨hp, he⟩]
    · rw [if_neg he, if_neg, hp]
      rintro ⟨-, h2⟩
      exact he h2
  · rename_i hp
    rw [if_neg]
    rintro ⟨h1, -⟩
    exact hp h1

theorem visited_removeWallAt (m : Maze) (x y : Int) (d : Dir)
    (p : Int × Int) :
    ((m.removeWallAt x y d).cells p).visited = (m.cells p).visited := by
  unfold Maze.removeWallAt
  rw [cells_modifyCell]
  split
  · rename_i hp
    rw [visited_remove_wall, hp]
  · rfl

theorem visited_loopStep (m : Maze) (t : Int × Int × Dir) (p : Int × Int) :
    ((loopStep m t).cells p).visited = (m.cells p).visited := by
  unfold loopStep
  split
  · rw [visited_removeWallAt, visited_removeWallAt]
  · rfl

/-- Walls after one loop-removal step, when both cells are in bounds. -/
theorem walls_loopStep (m : Maze) (t : Int × Int × Dir)
    (h1 : m.inB (t.1, t.2.1)) (h2 : m.inB (stepP (t.1, t.2.1) t.2.2))
    (p : Int × Int) (e : Dir) :
    ((loopStep m t).cells p).walls e
      = if p = (t.1, t.2.1) ∧ e = t.2.2 then false
        else if p = stepP (t.1, t.2.1) t.2.2 ∧ e = t.2.2.opposite then false
        else (m.cells p).walls e := by
  unfold loopStep
  rw [get_cell_eq_some _ _ _ h1, get_cell_eq_some _ _ _ h2]
  show (((m.removeWallAt t.1 t.2.1 t.2.2).removeWallAt
      (t.1 + t.2.2.off.1) (t.2.1 + t.2.2.off.2) t.2.2.opposite).cells p).walls e
    = if p = (t.1, t.2.1) ∧ e = t.2.2 then false
      else if p = stepP (t.1, t.2.1) t.2.2 ∧ e = t.2.2.opposite then false
      else (m.cells p).walls e
  have hsp : stepP (t.1, t.2.1) t.2.2
      = (t.1 + t.2.2.off.1, t.2.1 + t.2.2.off.2) := rfl
  rw [walls_removeWallAt, walls_removeWallAt, hsp]
  by_cases hN : p = (t.1 + t.2.2.off.1, t.2.1 + t.2.2.off.2)
      ∧ e = t.2.2.opposite
  · rw [if_pos hN]
    by_cases hC : p = (t.1, t.2.1) ∧ e = t.2.2
    · rw [if_pos hC]
    · rw [if_neg hC, if_pos hN]
  · rw [if_neg hN]
    by_cases hC : p = (t.1, t.2.1) ∧ e = t.2.2
    · rw [if_pos hC, if_pos hC]
    · rw [if_neg hC, if_neg hC, if_neg hN]

/-- A step of the loop fold whose candidate has an out-of-direction pair
is irrelevant here: the loop fold only ever sets wall flags to `false`. -/
theorem walls_loopStep_mono (m : Maze) (t : Int × Int × Dir) (p : Int × Int)
    (e : Dir) (h : (m.cells p).walls e = false) :
    ((loopStep m t).cells p).walls e = false := by
  unfold loopStep
  split
  · rw [walls_removeWallAt, walls_removeWallAt]
    split
    · rfl
    · split
      · rfl
      · exact h
  · exact h

theorem loopFold_width (W : List (Int × Int × Dir)) (m : Maze) :
    (W.foldl loopStep m).width = m.width :=
  foldl_keeps loopStep (fun mm => mm.width = m.width)
    (fun mm a hP => by dsimp only; rw [loopStep_width]; exact hP) W m rfl

theorem loopFold_height (W : List (Int × Int × Dir)) (m : Maze) :
    (W.foldl loopStep m).height = m.height :=
  foldl_keeps loopStep (fun mm => mm.height = m.height)
    (fun mm a hP => by dsimp only; rw [loopStep_height]; exact hP) W m rfl

theorem visited_loopFold (W : List (Int × Int × Dir)) (m : Maze)
    (p : Int × Int) :
    ((W.foldl loopStep m).cells p).visited = (m.cells p).visited :=
  foldl_keeps loopStep
    (fun mm => ∀ q, (mm.cells q).visited = (m.cells q).visited)
    (fun mm a hP q => by rw [visited_loopStep]; exact hP q) W m
    (fun q => rfl) p

/-- Master wall lemma for the loop-removal fold: a flag is cleared exactly
when one of the sampled candidates names it, from either side. -/
theorem walls_loopFold (W : List (Int × Int × Dir)) :
    ∀ (m : Maze),
      (∀ t ∈ W, m.inB (t.1, t.2.1) ∧ m.inB (stepP (t.1, t.2.1) t.2.2)) →
    ∀ (p : Int × Int) (e : Dir),
      ((W.foldl loopStep m).cells p).walls e
        = if (p.1, p.2, e) ∈ W
            ∨ ((stepP p e).1, (stepP p e).2, e.opposite) ∈ W
          then false else (m.cells p).walls e := by
  induction W with
  | nil =>
    intro m hW p e
    rw [if_neg]
    · rfl
    · rintro (h | h) <;> cases h
  | cons t W ih =>
    intro m hW p e
    rw [List.foldl_cons]
    have ht := hW t (List.mem_cons_self _ _)
    have hW' : ∀ t' ∈ W, (loopStep m t).inB (t'.1, t'.2.1)
        ∧ (loopStep m t).inB (stepP (t'.1, t'.2.1) t'.2.2) := by
      intro t' ht'
      have := hW t' (List.mem_cons_of_mem _ ht')
      rw [inB_loopStep, inB_loopStep]
      exact this
    rw [ih (loopStep m t) hW' p e]
    by_cases hmem : (p.1, p.2, e) ∈ W
        ∨ ((stepP p e).1, (stepP p e).2, e.opposite) ∈ W
    · rw [if_pos hmem, if_pos]
      rcases hmem with h | h
      · exact Or.inl (List.mem_cons_of_mem _ h)
      · exact Or.inr (List.mem_cons_of_mem _ h)
    · rw [if_neg hmem, walls_loopStep m t ht.1 ht.2]
      by_cases hA : p = (t.1, t.2.1) ∧ e = t.2.2
      · rw [if_pos hA, if_pos]
        refine Or.inl (List.mem_cons.2 (Or.inl ?_))
        rw [hA.2]
        have : (p.1, p.2) = (t.1, t.2.1) := Prod.mk.eta.trans hA.1
        rw [show (p.1, p.2, t.2.2) = ((p.1, p.2).1, (p.1, p.2).2, t.2.2)
          from rfl, this]
      · rw [if_neg hA]
        by_cases hB : p = stepP (t.1, t.2.1) t.2.2 ∧ e = t.2.2.opposite
        · rw [if_pos hB, if_pos]
          refine Or.inr (List.mem_cons.2 (Or.inl ?_))
          have h1 : stepP p e = (t.1, t.2.1) := by
            rw [hB.1, hB.2, stepP_opposite]
          have h2 : e.opposite = t.2.2 := by
            rw [hB.2, Dir.opposite_opposite]
          rw [h1, h2]
        · rw [if_neg hB, if_neg]
          rintro (h | h)
          · rcases List.mem_cons.1 h with h1 | h1
            · refine hA ⟨?_, ?_⟩
              · have := congrArg (fun q : Int × Int × Dir => (q.1, q.2.1)) h1
                simpa [Prod.ext_iff] using this
              · have := congrArg (fun q : Int × Int × Dir => q.2.2) h1
                simpa using this
            · exact hmem (Or.inl h1)
          · rcases List.mem_cons.1 h with h1 | h1
            · have hb : (t.1, t.2.1) = stepP p e := by
                rw [← h1]
              have hd : t.2.2 = e.opposite := by
                rw [← h1]
              refine hB ⟨?_, ?_⟩
              · rw [hb, hd, stepP_opposite]
              · rw [hd, Dir.opposite_opposite]
            · exact hmem (Or.inr h1)

/-! ### Properties of the sampling model -/

theorem sample_succ (r : RNG) (l : List (Int × Int × Dir)) (k : Nat) :
    RNG.sample r l (k + 1)
      = if l.isEmpty then ([], r)
        else ((l.getD (r.next.1 % l.length) (0, 0, Dir.N))
            :: (RNG.sample r.next.2
              (l.eraseIdx (r.next.1 % l.length)) k).1,
          (RNG.sample r.next.2 (l.eraseIdx (r.next.1 % l.length)) k).2) := rfl

theorem sample_length : ∀ (k : Nat) (l : List (Int × Int × Dir)) (r : RNG),
    ((r.sample l k).1).length = min k l.length := by
  intro k
  induction k with
  | zero =>
    intro l r
    simp [RNG.sample]
  | succ k ih =>
    intro l r
    rw [sample_succ]
    by_cases he : l.isEmpty = true
    · rw [if_pos he]
      have h0 : l.length = 0 := List.isEmpty_iff_length_eq_zero.1 he
      simp [h0]
    · rw [if_neg he]
      have hlen : 0 < l.length := by
        rcases Nat.eq_zero_or_pos l.length with h | h
        · exact absurd (List.isEmpty_iff_length_eq_zero.2 h) he
        · exact h
      simp only [List.length_cons, ih]
      rw [List.length_eraseIdx_of_lt (Nat.mod_lt _ hlen)]
      omega

theorem sample_subset : ∀ (k : Nat) (l : List (Int × Int × Dir)) (r : RNG),
    ∀ t ∈ (r.sample l k).1, t ∈ l := by
  intro k
  induction k with
  | zero =>
    intro l r t ht
    simp [RNG.sample] at ht
  | succ k ih =>
    intro l r t ht
    rw [sample_succ] at ht
    by_cases he : l.isEmpty = true
    · rw [if_pos he] at ht
      simp at ht
    · rw [if_neg he] at ht
      have hlen : 0 < l.length := by
        rcases Nat.eq_zero_or_pos l.length with h | h
        · exact absurd (List.isEmpty_iff_length_eq_zero.2 h) he
        · exact h
      rcases List.mem_cons.1 ht with rfl | hmem
      · rw [List.getD_eq_getElem _ _ (Nat.mod_lt _ hlen)]
        exact List.getElem_mem _
      · exact List.eraseIdx_subset _ _ (ih _ _ _ hmem)

theorem sample_nodup : ∀ (k : Nat) (l : List (Int × Int × Dir)) (r : RNG),
    l.Nodup → ((r.sample l k).1).Nodup := by
  intro k
  induction k with
  | zero =>
    intro l r hl
    simp [RNG.sample]
  | succ k ih =>
    intro l r hl
    rw [sample_succ]
    by_cases he : l.isEmpty = true
    · rw [if_pos he]
      simp
    · rw [if_neg he]
      have hlen : 0 < l.length := by
        rcases Nat.eq_zero_or_pos l.length with h | h
        · exact absurd (List.isEmpty_iff_length_eq_zero.2 h) he
        · exact h
      have hi : r.next.1 % l.length < l.length := Nat.mod_lt _ hlen
      rw [List.nodup_cons]
      constructor
      · intro hmem
        have h1 : l.getD (r.next.1 % l.length) (0, 0, Dir.N)
            ∈ l.eraseIdx (r.next.1 % l.length) :=
          sample_subset k _ _ _ hmem
        rw [List.getD_eq_getElem _ _ hi] at h1
        rw [List.mem_eraseIdx_iff_getElem] at h1
        obtain ⟨j, hj, hne, heq⟩ := h1
        exact hne (hl.getElem_inj_iff.1 heq)
      · exact ih _ _ (hl.eraseIdx _)

/-! ### Membership in the candidate and reserved scans -/

theorem mem_if_singleton {α : Type} (C : Prop) [Decidable C] (v t : α) :
    t ∈ (if C then [v] else []) ↔ C ∧ t = v := by
  split
  · rename_i hc
    simp [hc, eq_comm]
  · rename_i hc
    simp [hc]

theorem nodup_if_pair {α : Type} (C1 C2 : Prop) [Decidable C1] [Decidable C2]
    (v1 v2 : α) (hne : v1 ≠ v2) :
    ((if C1 then [v1] else []) ++ (if C2 then [v2] else [])).Nodup := by
  split <;> split <;> simp [hne]

theorem all_mem_dirList (d : Dir) : d ∈ dirList := by
  cases d <;> simp [dirList]

theorem inB_natCast (m : Maze) (x y : Nat) (hx : x < m.width)
    (hy : y < m.height) : m.inB ((x : Int), (y : Int)) :=
  ⟨Int.natCast_nonneg x, Int.ofNat_lt.2 hx, Int.natCast_nonneg y,
    Int.ofNat_lt.2 hy⟩

theorem mem_pattern_walls (m : Maze) (p : Int × Int) :
    p ∈ m.pattern_walls
      ↔ m.inB p ∧ (m.cells p).visited = true
        ∧ ∀ d, (m.cells p).walls d = true := by
  unfold Maze.pattern_walls
  simp only [List.mem_flatMap, List.mem_range, List.mem_filterMap]
  constructor
  · rintro ⟨y, hy, x, hx, hmem⟩
    have hin : m.inB ((x : Int), (y : Int)) := inB_natCast m x y hx hy
    rw [get_cell_eq_some _ _ _ hin] at hmem
    simp only at hmem
    split at hmem
    · rename_i hcond
      have hp : p = ((x : Int), (y : Int)) :=
        (Option.some_injective _ hmem).symm
      subst hp
      refine ⟨hin, hcond.1, ?_⟩
      intro d
      have := List.all_eq_true.1 hcond.2 d (all_mem_dirList d)
      simpa [Cell.has_wall] using this
    · cases hmem
  · rintro ⟨hin, hvis, hwalls⟩
    obtain ⟨h1, h2, h3, h4⟩ := hin
    refine ⟨p.2.toNat, ?_, p.1.toNat, ?_, ?_⟩
    · omega
    · omega
    have hp : ((p.1.toNat : Int), (p.2.toNat : Int)) = p := by
      have e1 : (p.1.toNat : Int) = p.1 := by omega
      have e2 : (p.2.toNat : Int) = p.2 := by omega
      rw [e1, e2]
    have hin2 : m.inB ((p.1.toNat : Int), (p.2.toNat : Int)) := by
      rw [hp]
      exact ⟨h1, h2, h3, h4⟩
    rw [get_cell_eq_some _ _ _ hin2]
    simp only
    rw [if_pos, hp]
    constructor
    · rw [hp]
      exact hvis
    · refine List.all_eq_true.2 ?_
      intro d hd
      have := hwalls d
      rw [← hp] at this
      simpa [Cell.has_wall] using this

/-- Every candidate produced by the internal-wall scan joins two in-bounds
non-reserved cells by an existing East or South wall. -/
theorem mem_internal_walls_elim (m : Maze) (pw : List (Int × Int))
    (t : Int × Int × Dir) (h : t ∈ m.internal_walls pw) :
    m.inB (t.1, t.2.1) ∧ m.inB (stepP (t.1, t.2.1) t.2.2)
      ∧ (m.cells (t.1, t.2.1)).walls t.2.2 = true
      ∧ (t.1, t.2.1) ∉ pw ∧ stepP (t.1, t.2.1) t.2.2 ∉ pw
      ∧ (t.2.2 = Dir.E ∨ t.2.2 = Dir.S) := by
  unfold Maze.internal_walls at h
  simp only [List.mem_flatMap, List.mem_range, List.mem_append,
    mem_if_singleton] at h
  obtain ⟨y, hy, x, hx, hcase⟩ := h
  have hin : m.inB ((x : Int), (y : Int)) := inB_natCast m x y hx hy
  rcases hcase with ⟨⟨hlt, hwall, hpw1, hpw2⟩, rfl⟩
    | ⟨⟨hlt, hwall, hpw1, hpw2⟩, rfl⟩
  · have hin2 : m.inB ((x : Int) + 1, (y : Int)) := by
      have hcast : ((x : Int) + 1) = ((x + 1 : Nat) : Int) := by push_cast; ring
      rw [hcast]
      exact inB_natCast m (x + 1) y hlt hy
    rw [cellD_eq_cells _ _ _ hin] at hwall
    exact ⟨hin, hin2, hwall, hpw1, hpw2, Or.inl rfl⟩
  · have hin2 : m.inB ((x : Int), (y : Int) + 1) := by
      have hcast : ((y : Int) + 1) = ((y + 1 : Nat) : Int) := by push_cast; ring
      rw [hcast]
      exact inB_natCast m x (y + 1) hx hlt
    rw [cellD_eq_cells _ _ _ hin] at hwall
    exact ⟨hin, hin2, hwall, hpw1, hpw2, Or.inr rfl⟩

theorem internal_walls_nodup (m : Maze) (pw : List (Int × Int)) :
    (m.internal_walls pw).Nodup := by
  unfold Maze.internal_walls
  rw [List.flatMap_def, List.nodup_flatten]
  constructor
  · intro l hl
    rcases List.mem_map.1 hl with ⟨y, hy, rfl⟩
    rw [List.flatMap_def, List.nodup_flatten]
    constructor
    · intro l2 hl2
      rcases List.mem_map.1 hl2 with ⟨x, hx, rfl⟩
      exact nodup_if_pair _ _ _ _ (by simp)
    · rw [List.pairwise_map]
      refine (List.pairwise_lt_range _).imp ?_
      intro a b hab t hta htb
      simp only [List.mem_append, mem_if_singleton] at hta htb
      have ha : t.1 = (a : Int) := by
        rcases hta with ⟨-, rfl⟩ | ⟨-, rfl⟩ <;> rfl
      have hb : t.1 = (b : Int) := by
        rcases htb with ⟨-, rfl⟩ | ⟨-, rfl⟩ <;> rfl
      rw [ha] at hb
      have : a = b := by exact_mod_cast hb
      omega
  · rw [List.pairwise_map]
    refine (List.pairwise_lt_range _).imp ?_
    intro a b hab t hta htb
    simp only [List.mem_flatMap, List.mem_range, List.mem_append,
      mem_if_singleton] at hta htb
    obtain ⟨x1, hx1, hca⟩ := hta
    obtain ⟨x2, hx2, hcb⟩ := htb
    have ha : t.2.1 = (a : Int) := by
      rcases hca with ⟨-, rfl⟩ | ⟨-, rfl⟩ <;> rfl
    have hb : t.2.1 = (b : Int) := by
      rcases hcb with ⟨-, rfl⟩ | ⟨-, rfl⟩ <;> rfl
    rw [ha] at hb
    have : a = b := by exact_mod_cast hb
    omega

theorem floor_mul_le (n : Nat) (f : ℚ) (h0 : 0 ≤ f) (h1 : f ≤ 1) :
    (⌊(n : ℚ) * f⌋).toNat ≤ n := by
  have h2 : (n : ℚ) * f ≤ (n : ℚ) := by
    calc (n : ℚ) * f ≤ (n : ℚ) * 1 :=
          mul_le_mul_of_nonneg_left h1 (by positivity)
      _ = (n : ℚ) := mul_one _
  have h3 : ⌊(n : ℚ) * f⌋ ≤ (n : Int) := by
    calc ⌊(n : ℚ) * f⌋ ≤ ⌊(n : ℚ)⌋ := Int.floor_le_floor h2
      _ = (n : Int) := Int.floor_natCast n
  omega

/-! ### Counting the walls removed by the loop injector -/

theorem inB_loopFold (W : List (Int × Int × Dir)) (m : Maze) (q : Int × Int) :
    (W.foldl loopStep m).inB q ↔ m.inB q := by
  unfold Maze.inB
  rw [loopFold_width, loopFold_height]

theorem mem_image_reassoc (W : List (Int × Int × Dir)) (p : Int × Int)
    (d : Dir) :
    (p, d) ∈ W.toFinset.image
        (fun t : Int × Int × Dir => ((t.1, t.2.1), t.2.2))
      ↔ (p.1, p.2, d) ∈ W := by
  rw [Finset.mem_image]
  constructor
  · rintro ⟨t, htW, heq⟩
    have h1 : (t.1, t.2.1) = p := congrArg Prod.fst heq
    have h2 : t.2.2 = d := congrArg Prod.snd heq
    have ht : (p.1, p.2, d) = t := by
      rw [← h1, ← h2]
    rw [ht]
    exact List.mem_toFinset.1 htW
  · intro h
    exact ⟨(p.1, p.2, d), List.mem_toFinset.2 h, rfl⟩

/-- The loop fold opens exactly one internal wall per (distinct, present,
in-bounds, E/S-directed) candidate. -/
theorem openInternalCount_loopFold (m : Maze) (W : List (Int × Int × Dir))
    (hWB : ∀ t ∈ W, m.inB (t.1, t.2.1) ∧ m.inB (stepP (t.1, t.2.1) t.2.2))
    (hWwall : ∀ t ∈ W, (m.cells (t.1, t.2.1)).walls t.2.2 = true)
    (hWdir : ∀ t ∈ W, t.2.2 = Dir.E ∨ t.2.2 = Dir.S)
    (hnd : W.Nodup) :
    openInternalCount (W.foldl loopStep m)
      = openInternalCount m + W.length := by
  have hco : ∀ (p : Int × Int) (d : Dir), (d = Dir.E ∨ d = Dir.S) →
      ((stepP p d).1, (stepP p d).2, d.opposite) ∉ W := by
    intro p d hd hmem
    have hdir := hWdir _ hmem
    simp only at hdir
    rcases hd with rfl | rfl <;> rcases hdir with h | h <;> cases h
  have hwalls := walls_loopFold W m hWB
  have hset : ((gridFinset m.width m.height)
        ×ˢ ({Dir.E, Dir.S} : Finset Dir)).filter
        (fun t => openRec (W.foldl loopStep m) t.1 t.2)
      = ((gridFinset m.width m.height)
          ×ˢ ({Dir.E, Dir.S} : Finset Dir)).filter
          (fun t => openRec m t.1 t.2)
        ∪ W.toFinset.image
          (fun t : Int × Int × Dir => ((t.1, t.2.1), t.2.2)) := by
    ext t
    obtain ⟨p, d⟩ := t
    rw [Finset.mem_union, Finset.mem_filter, Finset.mem_filter,
      mem_image_reassoc]
    constructor
    · rintro ⟨hgrid, hopen⟩
      obtain ⟨h1, h2, h3⟩ := hopen
      rw [hwalls p d] at h3
      by_cases hm : (p.1, p.2, d) ∈ W
      · exact Or.inr hm
      · have hds : d = Dir.E ∨ d = Dir.S := by
          have := (Finset.mem_product.1 hgrid).2
          simpa using this
        rw [if_neg] at h3
        · refine Or.inl ⟨hgrid, ?_, ?_, h3⟩
          · exact (inB_loopFold W m p).1 h1
          · exact (inB_loopFold W m _).1 h2
        · rintro (h | h)
          · exact hm h
          · exact hco p d hds h
    · rintro (⟨hgrid, hopen⟩ | hm)
      · obtain ⟨h1, h2, h3⟩ := hopen
        refine ⟨hgrid, (inB_loopFold W m p).2 h1, (inB_loopFold W m _).2 h2,
          ?_⟩
        rw [hwalls p d]
        split
        · rfl
        · exact h3
      · have hB := hWB _ hm
        have hdir := hWdir _ hm
        simp only at hB hdir
        have hpe : ((p.1, p.2) : Int × Int) = p := Prod.mk.eta
        refine ⟨?_, ?_, ?_, ?_⟩
        · rw [Finset.mem_product]
          constructor
          · rw [mem_gridFinset, ← inB_iff_inBnds]
            rw [hpe] at hB
            exact hB.1
          · rcases hdir with rfl | rfl <;> simp
        · rw [inB_loopFold]
          rw [hpe] at hB
          exact hB.1
        · rw [inB_loopFold]
          rw [hpe] at hB
          exact hB.2
        · rw [hwalls p d, if_pos (Or.inl hm)]
  have hdisj : Disjoint
      (((gridFinset m.width m.height)
        ×ˢ ({Dir.E, Dir.S} : Finset Dir)).filter
        (fun t => openRec m t.1 t.2))
      (W.toFinset.image
        (fun t : Int × Int × Dir => ((t.1, t.2.1), t.2.2))) := by
    rw [Finset.disjoint_left]
    intro t ht1 ht2
    obtain ⟨p, d⟩ := t
    have hopen := (Finset.mem_filter.1 ht1).2
    have hm := (mem_image_reassoc W p d).1 ht2
    have hw := hWwall _ hm
    simp only at hw
    have hpe : ((p.1, p.2) : Int × Int) = p := Prod.mk.eta
    rw [hpe] at hw
    obtain ⟨-, -, h3⟩ := hopen
    rw [hw] at h3
    cases h3
  have hinj : Function.Injective
      (fun t : Int × Int × Dir => ((t.1, t.2.1), t.2.2)) := by
    intro a b hab
    have h1 : a.1 = b.1 := congrArg (fun q : (Int × Int) × Dir => q.1.1) hab
    have h2 : a.2.1 = b.2.1 :=
      congrArg (fun q : (Int × Int) × Dir => q.1.2) hab
    have h3 : a.2.2 = b.2.2 := congrArg (fun q : (Int × Int) × Dir => q.2) hab
    exact Prod.ext h1 (Prod.ext h2 h3)
  unfold openInternalCount
  rw [loopFold_width, loopFold_height, hset,
    Finset.card_union_of_disjoint hdisj,
    Finset.card_image_of_injective _ hinj,
    List.toFinset_card_of_nodup hnd]

/-- The loop injector, run with an arbitrary requested sample size `k`,
opens exactly `min k candidates` internal walls. -/
theorem add_loops_count (m : Maze) (r : RNG) (k : Nat) :
    openInternalCount
        ((r.sample (m.internal_walls m.pattern_walls) k).1.foldl loopStep m)
      = openInternalCount m
        + min k (m.internal_walls m.pattern_walls).length := by
  have hsub := sample_subset k (m.internal_walls m.pattern_walls) r
  rw [openInternalCount_loopFold m _ ?_ ?_ ?_ ?_]
  · rw [sample_length]
  · intro t ht
    have h := mem_internal_walls_elim m _ t (hsub t ht)
    exact ⟨h.1, h.2.1⟩
  · intro t ht
    exact (mem_internal_walls_elim m _ t (hsub t ht)).2.2.1
  · intro t ht
    exact (mem_internal_walls_elim m _ t (hsub t ht)).2.2.2.2.2
  · exact sample_nodup k _ r (internal_walls_nodup m _)

/-- C5: with the clamped loop factor `f` (the constructor clamps it into
`[0, 1]`), the loop injector removes exactly
`floor(candidate_count * f)` internal walls, a number that never exceeds
the candidate count; a candidate is an existing E/S wall between two
in-bounds non-reserved cells.  In particular the stage is a no-op when
`f = 0` or when no candidate exists. -/
theorem claim_C5_loop_count (g : MazeGenerator) (m : Maze) (r : RNG)
    (hlf0 : 0 ≤ g.loop_factor) (hlf1 : g.loop_factor ≤ 1) :
    (openInternalCount (g.add_loops m r).1
        = openInternalCount m
          + (⌊((m.internal_walls m.pattern_walls).length : ℚ)
              * g.loop_factor⌋).toNat
      ∧ (⌊((m.internal_walls m.pattern_walls).length : ℚ)
          * g.loop_factor⌋).toNat
        ≤ (m.internal_walls m.pattern_walls).length)
    ∧ ∀ (w h : Nat) (pf : Bool) (lf : ℚ) (seed : Nat),
        0 ≤ (MazeGenerator.init w h pf lf seed).loop_factor
        ∧ (MazeGenerator.init w h pf lf seed).loop_factor ≤ 1 := by
  have hle : (⌊((m.internal_walls m.pattern_walls).length : ℚ)
      * g.loop_factor⌋).toNat ≤ (m.internal_walls m.pattern_walls).length :=
    floor_mul_le _ _ hlf0 hlf1
  refine ⟨⟨?_, hle⟩, ?_⟩
  · rw [add_loops_eq]
    rw [add_loops_count]
    omega
  · intro w h pf lf seed
    constructor
    · exact le_max_left 0 _
    · simp only [MazeGenerator.init]
      rw [max_le_iff]
      exact ⟨by norm_num, min_le_left 1 lf⟩

/-- Witness for C5 at a concrete instance. -/
theorem claim_C5_witness :
    (openInternalCount
          ((MazeGenerator.init 3 3 false (1/2) 0).add_loops
            (mkMaze 3 3 (0, 0) (2, 2)) ⟨fun n => n, 0⟩).1
        = openInternalCount (mkMaze 3 3 (0, 0) (2, 2))
          + (⌊(((mkMaze 3 3 (0, 0) (2, 2)).internal_walls
              (mkMaze 3 3 (0, 0) (2, 2)).pattern_walls).length : ℚ)
              * (MazeGenerator.init 3 3 false (1/2) 0).loop_factor⌋).toNat
      ∧ (⌊(((mkMaze 3 3 (0, 0) (2, 2)).internal_walls
          (mkMaze 3 3 (0, 0) (2, 2)).pattern_walls).length : ℚ)
          * (MazeGenerator.init 3 3 false (1/2) 0).loop_factor⌋).toNat
        ≤ ((mkMaze 3 3 (0, 0) (2, 2)).internal_walls
          (mkMaze 3 3 (0, 0) (2, 2)).pattern_walls).length)
    ∧ ∀ (w h : Nat) (pf : Bool) (lf : ℚ) (seed : Nat),
        0 ≤ (MazeGenerator.init w h pf lf seed).loop_factor
        ∧ (MazeGenerator.init w h pf lf seed).loop_factor ≤ 1 :=
  claim_C5_loop_count (MazeGenerator.init 3 3 false (1/2) 0)
    (mkMaze 3 3 (0, 0) (2, 2)) ⟨fun n => n, 0⟩
    (by simp [MazeGenerator.init])
    (by simp only [MazeGenerator.init]
        rw [max_le_iff]
        exact ⟨by norm_num, min_le_left 1 (1/2)⟩)

/-! ### Geometry of the stamped bitmap: every cell can escape the region -/

/-- The rectangular region covered by the centred bitmap. -/
def regionP (w h : Nat) (p : Int × Int) : Prop :=
  offX w ≤ p.1 ∧ p.1 ≤ offX w + 6 ∧ offY h ≤ p.2 ∧ p.2 ≤ offY h + 4

instance (w h : Nat) (p : Int × Int) : Decidable (regionP w h p) := by
  unfold regionP
  infer_instance

theorem offX_ge_one (w : Nat) (hw : 9 ≤ w) : 1 ≤ offX w := by
  unfold offX
  have h1 : 1 ≤ (w - 7) / 2 := by omega
  exact_mod_cast h1

theorem offX_add_le (w : Nat) (hw : 9 ≤ w) : offX w + 6 ≤ (w : Int) - 2 := by
  unfold offX
  have h1 : (w - 7) / 2 + 6 ≤ w - 2 := by omega
  have h2 : 7 ≤ w := by omega
  omega

theorem offY_ge_one (h : Nat) (hh : 7 ≤ h) : 1 ≤ offY h := by
  unfold offY
  have h1 : 1 ≤ (h - 5) / 2 := by omega
  exact_mod_cast h1

theorem offY_add_le (h : Nat) (hh : 7 ≤ h) : offY h + 4 ≤ (h : Int) - 2 := by
  unfold offY
  have h1 : (h - 5) / 2 + 4 ≤ h - 2 := by omega
  have h2 : 5 ≤ h := by omega
  omega

theorem stamped_regionP (w h : Nat) (en ex p : Int × Int)
    (hs : stampedB w h en ex p = true) : regionP w h p := by
  rcases (stampedB_iff w h en ex p).1 hs with ⟨hw, hh, hmem, -, -⟩
  rcases (mem_stampList w h p).1 hmem with ⟨q, hq, rfl⟩
  have hb := relPos_bounds q hq
  unfold regionP
  refine ⟨?_, ?_, ?_, ?_⟩ <;> simp only [] <;> omega

theorem not_stamped_of_not_region (w h : Nat) (en ex p : Int × Int)
    (hnr : ¬ regionP w h p) : stampedB w h en ex p = false := by
  by_contra hc
  have hs : stampedB w h en ex p = true := by
    cases hsb : stampedB w h en ex p
    · exact absurd hsb hc
    · rfl
  exact hnr (stamped_regionP w h en ex p hs)

theorem mem_relPos_iff : ∀ a < 7, ∀ b < 5,
    ((a, b) ∈ relPos ↔ patBit a b = 1) := by decide

theorem not_stamped_of_bit0 (w h : Nat) (en ex : Int × Int) (a b : Nat)
    (ha : a < 7) (hb : b < 5) (h0 : patBit a b = 0) :
    stampedB w h en ex (offX w + (a : Int), offY h + (b : Int)) = false := by
  by_contra hc
  have hs : stampedB w h en ex (offX w + (a : Int), offY h + (b : Int))
      = true := by
    cases hsb : stampedB w h en ex (offX w + (a : Int), offY h + (b : Int))
    · exact absurd hsb hc
    · rfl
  rcases (stampedB_iff w h en ex _).1 hs with ⟨-, -, hmem, -, -⟩
  rcases (mem_stampList w h _).1 hmem with ⟨q, hq, heq⟩
  have h1 : offX w + (a : Int) = offX w + (q.1 : Int) :=
    congrArg Prod.fst heq
  have h2 : offY h + (b : Int) = offY h + (q.2 : Int) :=
    congrArg Prod.snd heq
  have hqa : q.1 = a := by omega
  have hqb : q.2 = b := by omega
  have hmem2 : (a, b) ∈ relPos := by
    have : ((q.1, q.2) : Nat × Nat) = (a, b) := by rw [hqa, hqb]
    rw [← this]
    exact hq
  have := (mem_relPos_iff a ha b hb).1 hmem2
  omega

/-- Escape directions for the 7 x 5 bitmap cells: from every cell, the
listed direction leads either straight out of the region or to a `0` bit
of strictly smaller escape rank. -/
def escT : List (List Dir) :=
  [[Dir.N, Dir.N, Dir.N, Dir.N, Dir.N, Dir.N, Dir.N],
   [Dir.W, Dir.N, Dir.W, Dir.N, Dir.W, Dir.W, Dir.E],
   [Dir.W, Dir.N, Dir.E, Dir.N, Dir.N, Dir.N, Dir.E],
   [Dir.W, Dir.W, Dir.W, Dir.S, Dir.W, Dir.E, Dir.E],
   [Dir.S, Dir.S, Dir.S, Dir.S, Dir.S, Dir.S, Dir.S]]

/-- Escape ranks justifying termination of the escape walk. -/
def escR : List (List Nat) :=
  [[0, 0, 0, 0, 0, 0, 0],
   [0, 1, 2, 1, 2, 3, 0],
   [0, 2, 3, 2, 3, 4, 0],
   [0, 1, 2, 1, 2, 1, 0],
   [0, 0, 0, 0, 0, 0, 0]]

def escDir (px py : Nat) : Dir := (escT.getD py []).getD px Dir.N

def escRank (px py : Nat) : Nat := (escR.getD py []).getD px 0

theorem esc_spec : ∀ px : Nat, px < 7 → ∀ py : Nat, py < 5 →
    (¬ (0 ≤ (px : Int) + (escDir px py).off.1
        ∧ (px : Int) + (escDir px py).off.1 ≤ 6
        ∧ 0 ≤ (py : Int) + (escDir px py).off.2
        ∧ (py : Int) + (escDir px py).off.2 ≤ 4)
    ∨ (patBit ((px : Int) + (escDir px py).off.1).toNat
          ((py : Int) + (escDir px py).off.2).toNat = 0
      ∧ escRank ((px : Int) + (escDir px py).off.1).toNat
          ((py : Int) + (escDir px py).off.2).toNat < escRank px py)) := by
  decide

theorem dir_off_bounds (d : Dir) :
    -1 ≤ d.off.1 ∧ d.off.1 ≤ 1 ∧ -1 ≤ d.off.2 ∧ d.off.2 ≤ 1 := by
  cases d <;> decide

/-- During a validated generation the entry cell always has an in-bounds
neighbor left free by the stamper. -/
theorem exists_free_neighbor (w h : Nat) (en ex : Int × Int)
    (hen : inBnds w h en) (hex : inBnds w h ex) (hne : en ≠ ex) :
    ∃ d : Dir, inBnds w h (stepP en d)
      ∧ stampedB w h en ex (stepP en d) = false := by
  obtain ⟨he1, he2, he3, he4⟩ := hen
  by_cases hbig : 9 ≤ w ∧ 7 ≤ h
  · obtain ⟨hw9, hh7⟩ := hbig
    have hX1 := offX_ge_one w hw9
    have hX2 := offX_add_le w hw9
    have hY1 := offY_ge_one h hh7
    have hY2 := offY_add_le h hh7
    by_cases hreg : regionP w h en
    · obtain ⟨hr1, hr2, hr3, hr4⟩ := hreg
      have hpx : (en.1 - offX w).toNat < 7 := by omega
      have hpy : (en.2 - offY h).toNat < 5 := by omega
      have hex1 : (((en.1 - offX w).toNat : Nat) : Int) = en.1 - offX w := by
        omega
      have hey1 : (((en.2 - offY h).toNat : Nat) : Int) = en.2 - offY h := by
        omega
      obtain ⟨d, hd⟩ : ∃ d : Dir,
          d = escDir (en.1 - offX w).toNat (en.2 - offY h).toNat := ⟨_, rfl⟩
      have hesc := esc_spec (en.1 - offX w).toNat hpx (en.2 - offY h).toNat hpy
      rw [← hd] at hesc
      obtain ⟨ho1, ho2, ho3, ho4⟩ := dir_off_bounds d
      have hs1 : (stepP en d).1 = en.1 + d.off.1 := rfl
      have hs2 : (stepP en d).2 = en.2 + d.off.2 := rfl
      refine ⟨d, ?_, ?_⟩
      · refine ⟨?_, ?_, ?_, ?_⟩ <;> omega
      · rcases hesc with hout | ⟨hbit, -⟩
        · apply not_stamped_of_not_region
          intro hrq
          obtain ⟨hq1, hq2, hq3, hq4⟩ := hrq
          apply hout
          refine ⟨?_, ?_, ?_, ?_⟩ <;> omega
        · by_cases hin : 0 ≤ ((en.1 - offX w).toNat : Int) + d.off.1
              ∧ ((en.1 - offX w).toNat : Int) + d.off.1 ≤ 6
              ∧ 0 ≤ ((en.2 - offY h).toNat : Int) + d.off.2
              ∧ ((en.2 - offY h).toNat : Int) + d.off.2 ≤ 4
          · obtain ⟨hi1, hi2, hi3, hi4⟩ := hin
            have h1 : en.1 + d.off.1
                = offX w + (((((en.1 - offX w).toNat : Int)
                  + d.off.1).toNat : Nat) : Int) := by omega
            have h2 : en.2 + d.off.2
                = offY h + (((((en.2 - offY h).toNat : Int)
                  + d.off.2).toNat : Nat) : Int) := by omega
            have hq : stepP en d
                = (offX w + (((((en.1 - offX w).toNat : Int)
                    + d.off.1).toNat : Nat) : Int),
                  offY h + (((((en.2 - offY h).toNat : Int)
                    + d.off.2).toNat : Nat) : Int)) :=
              Prod.ext h1 h2
            rw [hq]
            exact not_stamped_of_bit0 w h en ex _ _ (by omega) (by omega) hbit
          · apply not_stamped_of_not_region
            intro hrq
            obtain ⟨hq1, hq2, hq3, hq4⟩ := hrq
            apply hin
            refine ⟨?_, ?_, ?_, ?_⟩ <;> omega
    · by_cases hA : en.1 < offX w ∨ offX w + 6 < en.1
      · by_cases hy1 : 1 ≤ en.2
        · refine ⟨Dir.N, ?_, ?_⟩
          · refine ⟨?_, ?_, ?_, ?_⟩ <;> simp only [stepP, Dir.off] <;> omega
          · apply not_stamped_of_not_region
            intro hr
            obtain ⟨hr1, hr2, hr3, hr4⟩ := hr
            simp only [stepP, Dir.off] at hr1 hr2
            omega
        · refine ⟨Dir.S, ?_, ?_⟩
          · refine ⟨?_, ?_, ?_, ?_⟩ <;> simp only [stepP, Dir.off] <;> omega
          · apply not_stamped_of_not_region
            intro hr
            obtain ⟨hr1, hr2, hr3, hr4⟩ := hr
            simp only [stepP, Dir.off] at hr1 hr2
            omega
      · have hB : en.2 < offY h ∨ offY h + 4 < en.2 := by
          unfold regionP at hreg
          omega
        by_cases hx1 : 1 ≤ en.1
        · refine ⟨Dir.W, ?_, ?_⟩
          · refine ⟨?_, ?_, ?_, ?_⟩ <;> simp only [stepP, Dir.off] <;> omega
          · apply not_stamped_of_not_region
            intro hr
            obtain ⟨hr1, hr2, hr3, hr4⟩ := hr
            simp only [stepP, Dir.off] at hr3 hr4
            omega
        · refine ⟨Dir.E, ?_, ?_⟩
          · refine ⟨?_, ?_, ?_, ?_⟩ <;> simp only [stepP, Dir.off] <;> omega
          · apply not_stamped_of_not_region
            intro hr
            obtain ⟨hr1, hr2, hr3, hr4⟩ := hr
            simp only [stepP, Dir.off] at hr3 hr4
            omega
  · have hst : ∀ p, stampedB w h en ex p = false := by
      intro p
      unfold stampedB
      rcases not_and_or.1 hbig with hw | hh
      · have hw7 : ¬ (7 + 2 ≤ w) := by omega
        simp [hw7]
      · have hh5 : ¬ (5 + 2 ≤ h) := by omega
        simp [hh5]
    have hwh : 2 ≤ w ∨ 2 ≤ h := by
      by_contra hc
      push_neg at hc
      obtain ⟨hc1, hc2⟩ := hc
      obtain ⟨hx1, hx2, hx3, hx4⟩ := hex
      apply hne
      refine Prod.ext ?_ ?_ <;> omega
    rcases hwh with hw2 | hh2
    · by_cases hxe : en.1 + 1 < (w : Int)
      · refine ⟨Dir.E, ?_, hst _⟩
        refine ⟨?_, ?_, ?_, ?_⟩ <;> simp only [stepP, Dir.off] <;> omega
      · refine ⟨Dir.W, ?_, hst _⟩
        refine ⟨?_, ?_, ?_, ?_⟩ <;> simp only [stepP, Dir.off] <;> omega
    · by_cases hye : en.2 + 1 < (h : Int)
      · refine ⟨Dir.S, ?_, hst _⟩
        refine ⟨?_, ?_, ?_, ?_⟩ <;> simp only [stepP, Dir.off] <;> omega
      · refine ⟨Dir.N, ?_, hst _⟩
        refine ⟨?_, ?_, ?_, ?_⟩ <;> simp only [stepP, Dir.off] <;> omega

/-! ### Reachability of free cells inside the plain grid -/

/-- Reachability between grid cells stepping only on free (in-bounds,
unstamped) cells. -/
inductive GridReachF (w h : Nat) (en ex : Int × Int) :
    (Int × Int) → (Int × Int) → Prop where
  | refl (p : Int × Int) (hp : freeCell w h en ex p) :
      GridReachF w h en ex p p
  | tail (p q : Int × Int) (d : Dir) (hr : GridReachF w h en ex p q)
      (hs : freeCell w h en ex (stepP q d)) :
      GridReachF w h en ex p (stepP q d)

theorem gridReach_trans {w h : Nat} {en ex : Int × Int} {a b c : Int × Int}
    (h1 : GridReachF w h en ex a b) (h2 : GridReachF w h en ex b c) :
    GridReachF w h en ex a c := by
  induction h2 with
  | refl hp => exact h1
  | tail q d hr hs ih => exact GridReachF.tail _ _ d ih hs

theorem GridReachF.dst_free {w h : Nat} {en ex : Int × Int}
    {a b : Int × Int} (h1 : GridReachF w h en ex a b) :
    freeCell w h en ex b := by
  induction h1 with
  | refl hp => exact hp
  | tail q d hr hs ih => exact hs

theorem gridReach_symm {w h : Nat} {en ex : Int × Int} {a b : Int × Int}
    (h1 : GridReachF w h en ex a b) : GridReachF w h en ex b a := by
  induction h1 with
  | refl hp => exact GridReachF.refl _ hp
  | tail q d hr hs ih =>
    refine gridReach_trans ?_ ih
    have hq : freeCell w h en ex q := GridReachF.dst_free hr
    have hstep : GridReachF w h en ex (stepP q d)
        (stepP (stepP q d) d.opposite) :=
      GridReachF.tail _ _ d.opposite (GridReachF.refl _ hs)
        (by rw [stepP_opposite]; exact hq)
    rw [stepP_opposite] at hstep
    exact hstep

theorem free_of_not_region (w h : Nat) (en ex p : Int × Int)
    (hin : inBnds w h p) (hnr : ¬ regionP w h p) :
    freeCell w h en ex p := by
  refine ⟨hin, ?_⟩
  rw [not_stamped_of_not_region w h en ex p hnr]
  simp

theorem stampedB_small (w h : Nat) (en ex : Int × Int)
    (hbig : ¬ (9 ≤ w ∧ 7 ≤ h)) (p : Int × Int) :
    stampedB w h en ex p = false := by
  unfold stampedB
  rcases not_and_or.1 hbig with hw | hh
  · have hw7 : ¬ (7 + 2 ≤ w) := by omega
    simp [hw7]
  · have hh5 : ¬ (5 + 2 ≤ h) := by omega
    simp [hh5]

theorem not_region_fst (w h : Nat) (a b : Int)
    (hA : a < offX w ∨ offX w + 6 < a) : ¬ regionP w h (a, b) := by
  intro hr
  obtain ⟨r1, r2, r3, r4⟩ := hr
  simp only [] at r1 r2
  omega

theorem not_region_snd (w h : Nat) (a b : Int)
    (hB : b < offY h ∨ offY h + 4 < b) : ¬ regionP w h (a, b) := by
  intro hr
  obtain ⟨r1, r2, r3, r4⟩ := hr
  simp only [] at r3 r4
  omega

theorem walk_down (w h : Nat) (en ex : Int × Int) (x : Int) :
    ∀ n : Nat, (∀ k : Nat, k ≤ n → freeCell w h en ex (x, (k : Int))) →
      GridReachF w h en ex (x, 0) (x, (n : Int)) := by
  intro n
  induction n with
  | zero =>
    intro hf
    exact GridReachF.refl _ (hf 0 (Nat.le_refl 0))
  | succ n ih =>
    intro hf
    have hstep : stepP (x, (n : Int)) Dir.S = (x, ((n + 1 : Nat) : Int)) :=
      Prod.ext (by simp only [stepP, Dir.off]; omega)
        (by simp only [stepP, Dir.off]; omega)
    have hfree : freeCell w h en ex (stepP (x, (n : Int)) Dir.S) := by
      rw [hstep]
      exact hf (n + 1) (Nat.le_refl _)
    have htl := GridReachF.tail (x, 0) (x, (n : Int)) Dir.S
      (ih (fun k hk => hf k (Nat.le_succ_of_le hk))) hfree
    rw [hstep] at htl
    exact htl

theorem walk_right (w h : Nat) (en ex : Int × Int) (y : Int) :
    ∀ n : Nat, (∀ k : Nat, k ≤ n → freeCell w h en ex ((k : Int), y)) →
      GridReachF w h en ex (0, y) ((n : Int), y) := by
  intro n
  induction n with
  | zero =>
    intro hf
    exact GridReachF.refl _ (hf 0 (Nat.le_refl 0))
  | succ n ih =>
    intro hf
    have hstep : stepP ((n : Int), y) Dir.E = (((n + 1 : Nat) : Int), y) :=
      Prod.ext (by simp only [stepP, Dir.off]; omega)
        (by simp only [stepP, Dir.off]; omega)
    have hfree : freeCell w h en ex (stepP ((n : Int), y) Dir.E) := by
      rw [hstep]
      exact hf (n + 1) (Nat.le_refl _)
    have htl := GridReachF.tail (0, y) ((n : Int), y) Dir.E
      (ih (fun k hk => hf k (Nat.le_succ_of_le hk))) hfree
    rw [hstep] at htl
    exact htl

/-- Every in-bounds cell outside the bitmap region walks to the origin on
free cells. -/
theorem outside_reach_origin (w h : Nat) (en ex : Int × Int)
    (hw9 : 9 ≤ w) (hh7 : 7 ≤ h) (p : Int × Int) (hin : inBnds w h p)
    (hnr : ¬ regionP w h p) : GridReachF w h en ex p (0, 0) := by
  have hX1 := offX_ge_one w hw9
  have hY1 := offY_ge_one h hh7
  obtain ⟨hp1, hp2, hp3, hp4⟩ := hin
  by_cases hA : p.1 < offX w ∨ offX w + 6 < p.1
  · have hcol : ∀ k : Nat, k ≤ p.2.toNat →
        freeCell w h en ex (p.1, (k : Int)) := by
      intro k hk
      refine free_of_not_region w h en ex _ ?_ (not_region_fst w h _ _ hA)
      refine ⟨?_, ?_, ?_, ?_⟩ <;> simp only [] <;> omega
    have h1 := walk_down w h en ex p.1 p.2.toNat hcol
    have he2 : ((p.2.toNat : Nat) : Int) = p.2 := by omega
    rw [he2, Prod.mk.eta] at h1
    have hrow : ∀ k : Nat, k ≤ p.1.toNat →
        freeCell w h en ex ((k : Int), 0) := by
      intro k hk
      refine free_of_not_region w h en ex _ ?_
        (not_region_snd w h _ _ (Or.inl (by omega)))
      refine ⟨?_, ?_, ?_, ?_⟩ <;> simp only [] <;> omega
    have h2 := walk_right w h en ex 0 p.1.toNat hrow
    have he1 : ((p.1.toNat : Nat) : Int) = p.1 := by omega
    rw [he1] at h2
    exact gridReach_trans (gridReach_symm h1) (gridReach_symm h2)
  · have hB : p.2 < offY h ∨ offY h + 4 < p.2 := by
      unfold regionP at hnr
      omega
    have hrow : ∀ k : Nat, k ≤ p.1.toNat →
        freeCell w h en ex ((k : Int), p.2) := by
      intro k hk
      refine free_of_not_region w h en ex _ ?_ (not_region_snd w h _ _ hB)
      refine ⟨?_, ?_, ?_, ?_⟩ <;> simp only [] <;> omega
    have h1 := walk_right w h en ex p.2 p.1.toNat hrow
    have he1 : ((p.1.toNat : Nat) : Int) = p.1 := by omega
    rw [he1, Prod.mk.eta] at h1
    have hcol : ∀ k : Nat, k ≤ p.2.toNat →
        freeCell w h en ex ((0 : Int), (k : Int)) := by
      intro k hk
      refine free_of_not_region w h en ex _ ?_
        (not_region_fst w h _ _ (Or.inl (by omega)))
      refine ⟨?_, ?_, ?_, ?_⟩ <;> simp only [] <;> omega
    have h2 := walk_down w h en ex 0 p.2.toNat hcol
    have he2 : ((p.2.toNat : Nat) : Int) = p.2 := by omega
    rw [he2] at h2
    exact gridReach_trans (gridReach_symm h1) (gridReach_symm h2)

/-- Free cells inside the bitmap region escape to the origin, by
induction on the escape rank. -/
theorem region_reach_origin (w h : Nat) (en ex : Int × Int)
    (hw9 : 9 ≤ w) (hh7 : 7 ≤ h) :
    ∀ n : Nat, ∀ px py : Nat, px < 7 → py < 5 → escRank px py ≤ n →
    ∀ p : Int × Int, p = (offX w + (px : Int), offY h + (py : Int)) →
    freeCell w h en ex p → GridReachF w h en ex p (0, 0) := by
  have hX1 := offX_ge_one w hw9
  have hX2 := offX_add_le w hw9
  have hY1 := offY_ge_one h hh7
  have hY2 := offY_add_le h hh7
  intro n
  induction n with
  | zero =>
    intro px py hpx hpy hrk p hpeq hfree
    obtain ⟨d, hd⟩ : ∃ d : Dir, d = escDir px py := ⟨_, rfl⟩
    have hesc := esc_spec px hpx py hpy
    rw [← hd] at hesc
    obtain ⟨ho1, ho2, ho3, ho4⟩ := dir_off_bounds d
    have hpe1 : p.1 = offX w + (px : Int) := by rw [hpeq]
    have hpe2 : p.2 = offY h + (py : Int) := by rw [hpeq]
    have hs1 : (stepP p d).1 = p.1 + d.off.1 := rfl
    have hs2 : (stepP p d).2 = p.2 + d.off.2 := rfl
    have hqin : inBnds w h (stepP p d) := by
      refine ⟨?_, ?_, ?_, ?_⟩ <;> omega
    rcases hesc with hout | ⟨-, hrank⟩
    · have hqfree : freeCell w h en ex (stepP p d) := by
        refine free_of_not_region w h en ex _ hqin ?_
        intro hrq
        obtain ⟨hq1, hq2, hq3, hq4⟩ := hrq
        apply hout
        refine ⟨?_, ?_, ?_, ?_⟩ <;> omega
      have hstep : GridReachF w h en ex p (stepP p d) :=
        GridReachF.tail _ _ d (GridReachF.refl _ hfree) hqfree
      refine gridReach_trans hstep
        (outside_reach_origin w h en ex hw9 hh7 _ hqin ?_)
      intro hrq
      obtain ⟨hq1, hq2, hq3, hq4⟩ := hrq
      apply hout
      refine ⟨?_, ?_, ?_, ?_⟩ <;> omega
    · omega
  | succ n ih =>
    intro px py hpx hpy hrk p hpeq hfree
    obtain ⟨d, hd⟩ : ∃ d : Dir, d = escDir px py := ⟨_, rfl⟩
    have hesc := esc_spec px hpx py hpy
    rw [← hd] at hesc
    obtain ⟨ho1, ho2, ho3, ho4⟩ := dir_off_bounds d
    have hpe1 : p.1 = offX w + (px : Int) := by rw [hpeq]
    have hpe2 : p.2 = offY h + (py : Int) := by rw [hpeq]
    have hs1 : (stepP p d).1 = p.1 + d.off.1 := rfl
    have hs2 : (stepP p d).2 = p.2 + d.off.2 := rfl
    have hqin : inBnds w h (stepP p d) := by
      refine ⟨?_, ?_, ?_, ?_⟩ <;> omega
    by_cases hbox : 0 ≤ (px : Int) + d.off.1 ∧ (px : Int) + d.off.1 ≤ 6
        ∧ 0 ≤ (py : Int) + d.off.2 ∧ (py : Int) + d.off.2 ≤ 4
    · obtain ⟨hb1, hb2, hb3, hb4⟩ := hbox
      rcases hesc with hout | ⟨hbit, hrank⟩
      · exact absurd ⟨hb1, hb2, hb3, hb4⟩ hout
      · have hqeq : stepP p d
            = (offX w + ((((px : Int) + d.off.1).toNat : Nat) : Int),
              offY h + ((((py : Int) + d.off.2).toNat : Nat) : Int)) :=
          Prod.ext (by omega) (by omega)
        have hqfree : freeCell w h en ex (stepP p d) := by
          refine ⟨hqin, ?_⟩
          rw [hqeq,
            not_stamped_of_bit0 w h en ex _ _ (by omega) (by omega) hbit]
          simp
        have hstep : GridReachF w h en ex p (stepP p d) :=
          GridReachF.tail _ _ d (GridReachF.refl _ hfree) hqfree
        refine gridReach_trans hstep
          (ih ((px : Int) + d.off.1).toNat ((py : Int) + d.off.2).toNat
            (by omega) (by omega) (by omega) _ hqeq hqfree)
    · have hqfree : freeCell w h en ex (stepP p d) := by
        refine free_of_not_region w h en ex _ hqin ?_
        intro hrq
        obtain ⟨hq1, hq2, hq3, hq4⟩ := hrq
        apply hbox
        refine ⟨?_, ?_, ?_, ?_⟩ <;> omega
      have hstep : GridReachF w h en ex p (stepP p d) :=
        GridReachF.tail _ _ d (GridReachF.refl _ hfree) hqfree
      refine gridReach_trans hstep
        (outside_reach_origin w h en ex hw9 hh7 _ hqin ?_)
      intro hrq
      obtain ⟨hq1, hq2, hq3, hq4⟩ := hrq
      apply hbox
      refine ⟨?_, ?_, ?_, ?_⟩ <;> omega

theorem free_reach_origin (w h : Nat) (en ex : Int × Int)
    (hw9 : 9 ≤ w) (hh7 : 7 ≤ h) (p : Int × Int)
    (hfree : freeCell w h en ex p) : GridReachF w h en ex p (0, 0) := by
  by_cases hreg : regionP w h p
  · obtain ⟨hr1, hr2, hr3, hr4⟩ := hreg
    refine region_reach_origin w h en ex hw9 hh7
      (escRank (p.1 - offX w).toNat (p.2 - offY h).toNat)
      (p.1 - offX w).toNat (p.2 - offY h).toNat
      (by omega) (by omega) (Nat.le_refl _) p
      (Prod.ext (by omega) (by omega)) hfree
  · exact outside_reach_origin w h en ex hw9 hh7 p hfree.1 hreg

theorem reach_origin_all_free (w h : Nat) (en ex : Int × Int)
    (hall : ∀ q, inBnds w h q → freeCell w h en ex q) (p : Int × Int)
    (hin : inBnds w h p) : GridReachF w h en ex p (0, 0) := by
  obtain ⟨hp1, hp2, hp3, hp4⟩ := hin
  have hcol : ∀ k : Nat, k ≤ p.2.toNat →
      freeCell w h en ex (p.1, (k : Int)) := by
    intro k hk
    refine hall _ ?_
    refine ⟨?_, ?_, ?_, ?_⟩ <;> simp only [] <;> omega
  have h1 := walk_down w h en ex p.1 p.2.toNat hcol
  have he2 : ((p.2.toNat : Nat) : Int) = p.2 := by omega
  rw [he2, Prod.mk.eta] at h1
  have hrow : ∀ k : Nat, k ≤ p.1.toNat →
      freeCell w h en ex ((k : Int), 0) := by
    intro k hk
    refine hall _ ?_
    refine ⟨?_, ?_, ?_, ?_⟩ <;> simp only [] <;> omega
  have h2 := walk_right w h en ex 0 p.1.toNat hrow
  have he1 : ((p.1.toNat : Nat) : Int) = p.1 := by omega
  rw [he1] at h2
  exact gridReach_trans (gridReach_symm h1) (gridReach_symm h2)

/-- Every free cell is grid-reachable from the entry through free cells:
the stamped bitmap never disconnects the free cells. -/
theorem all_free_reach (w h : Nat) (en ex : Int × Int)
    (hen : inBnds w h en) (p : Int × Int) (hp : freeCell w h en ex p) :
    GridReachF w h en ex en p := by
  have henf : freeCell w h en ex en := ⟨hen, by rw [stampedB_entry]; simp⟩
  by_cases hbig : 9 ≤ w ∧ 7 ≤ h
  · exact gridReach_trans
      (free_reach_origin w h en ex hbig.1 hbig.2 en henf)
      (gridReach_symm (free_reach_origin w h en ex hbig.1 hbig.2 p hp))
  · have hall : ∀ q, inBnds w h q → freeCell w h en ex q := by
      intro q hq
      refine ⟨hq, ?_⟩
      rw [stampedB_small w h en ex hbig q]
      simp
    exact gridReach_trans
      (reach_origin_all_free w h en ex hall en hen)
      (gridReach_symm (reach_origin_all_free w h en ex hall p hp.1))

/-! ### The generation pipeline, stage by stage -/

/-- The maze (and advanced random state) after stamping and carving. -/
def carvedPair (g : MazeGenerator) (en ex : Int × Int) : Maze × RNG :=
  MazeGenerator.recursive_backtracker
    (g.add_42_pattern (mkMaze g.width g.height en ex)) en.1 en.2 g.ran

/-- The maze after the (conditional) loop-injection stage. -/
def loopedM (g : MazeGenerator) (en ex : Int × Int) : Maze :=
  (if ¬ g.perfect then
      g.add_loops (carvedPair g en ex).1 (carvedPair g en ex).2
    else carvedPair g en ex).1

/-- The finished maze returned by a validated `generate` call. -/
def finalM (g : MazeGenerator) (en ex : Int × Int) : Maze :=
  MazeGenerator.add_border_walls (loopedM g en ex)

theorem generate_ok (g : MazeGenerator) (en ex : Int × Int)
    (hen : inBnds g.width g.height en) (hex : inBnds g.width g.height ex)
    (hne : en ≠ ex) :
    g.generate en ex = Except.ok (finalM g en ex) := by
  unfold MazeGenerator.generate
  have hen' : 0 ≤ en.1 ∧ en.1 < (g.width : Int)
      ∧ 0 ≤ en.2 ∧ en.2 < (g.height : Int) := hen
  have hex' : 0 ≤ ex.1 ∧ ex.1 < (g.width : Int)
      ∧ 0 ≤ ex.2 ∧ ex.2 < (g.height : Int) := hex
  rw [if_neg (not_not_intro hen'), if_neg (not_not_intro hex'), if_neg hne]
  rfl

theorem generate_ok_elim (g : MazeGenerator) (en ex : Int × Int) (M : Maze)
    (h : g.generate en ex = Except.ok M) :
    inBnds g.width g.height en ∧ inBnds g.width g.height ex ∧ en ≠ ex
      ∧ M = finalM g en ex := by
  have hval : inBnds g.width g.height en ∧ inBnds g.width g.height ex
      ∧ en ≠ ex := by
    unfold MazeGenerator.generate at h
    by_cases c1 : 0 ≤ en.1 ∧ en.1 < (g.width : Int)
        ∧ 0 ≤ en.2 ∧ en.2 < (g.height : Int)
    · by_cases c2 : 0 ≤ ex.1 ∧ ex.1 < (g.width : Int)
          ∧ 0 ≤ ex.2 ∧ ex.2 < (g.height : Int)
      · by_cases c3 : en = ex
        · rw [if_neg (not_not_intro c1), if_neg (not_not_intro c2),
            if_pos c3] at h
          cases h
        · exact ⟨c1, c2, c3⟩
      · rw [if_neg (not_not_intro c1), if_pos c2] at h
        cases h
    · rw [if_pos c1] at h
      cases h
  obtain ⟨hen, hex, hne⟩ := hval
  rw [generate_ok g en ex hen hex hne] at h
  refine ⟨hen, hex, hne, ?_⟩
  cases h
  rfl

/-- A property preserved by every guarded carving update is preserved by
the whole carving loop. -/
theorem carve_preserve (P : Maze → Prop)
    (hupd : ∀ (m : Maze) (x y : Int) (t : Int × Int × Dir),
      t ∈ m.unvisitedNeighbors x y → m.inB (x, y) → m.inB (t.1, t.2.1) →
      P m → P (carveUpd m x y t.1 t.2.1 t.2.2)) :
    ∀ (fuel : Nat) (m : Maze) (stack : List (Int × Int)) (r : RNG),
      P m → P (carve fuel m stack r).1 := by
  intro fuel
  induction fuel with
  | zero =>
    intro m stack r hP
    exact hP
  | succ fuel ih =>
    intro m stack r hP
    cases stack with
    | nil => exact hP
    | cons p0 rest =>
      obtain ⟨x, y⟩ := p0
      rw [show carve (fuel + 1) m ((x, y) :: rest) r
          = if (m.unvisitedNeighbors x y).isEmpty then carve fuel m rest r
            else
              (fun t r' =>
                if m.inB (x, y) ∧ m.inB (t.1, t.2.1) then
                  carve fuel (carveUpd m x y t.1 t.2.1 t.2.2)
                    ((t.1, t.2.1) :: (x, y) :: rest) r'
                else carve fuel m ((x, y) :: rest) r')
                (r.choice (m.unvisitedNeighbors x y)).1
                (r.choice (m.unvisitedNeighbors x y)).2
        from rfl]
      by_cases hemp : (m.unvisitedNeighbors x y).isEmpty
      · rw [if_pos hemp]
        exact ih m rest r hP
      · rw [if_neg hemp]
        have hnonnil : m.unvisitedNeighbors x y ≠ [] := by
          intro hc
          rw [hc] at hemp
          exact hemp rfl
        have htmem := choice_mem r (m.unvisitedNeighbors x y) hnonnil
        dsimp only
        by_cases hB : m.inB (x, y)
            ∧ m.inB ((r.choice (m.unvisitedNeighbors x y)).1.1,
              (r.choice (m.unvisitedNeighbors x y)).1.2.1)
        · rw [if_pos hB]
          exact ih _ _ _ (hupd m x y _ htmem hB.1 hB.2 hP)
        · rw [if_neg hB]
          exact ih _ _ _ hP

theorem carve_width (fuel : Nat) (m : Maze) (stack : List (Int × Int))
    (r : RNG) : (carve fuel m stack r).1.width = m.width :=
  carve_preserve (fun mm => mm.width = m.width)
    (fun m' x y t ht hB1 hB2 hP => by
      dsimp only
      rw [carveUpd_width]
      exact hP) fuel m stack r rfl

theorem carve_height (fuel : Nat) (m : Maze) (stack : List (Int × Int))
    (r : RNG) : (carve fuel m stack r).1.height = m.height :=
  carve_preserve (fun mm => mm.height = m.height)
    (fun m' x y t ht hB1 hB2 hP => by
      dsimp only
      rw [carveUpd_height]
      exact hP) fuel m stack r rfl

theorem carvedPair_width (g : MazeGenerator) (en ex : Int × Int) :
    (carvedPair g en ex).1.width = g.width := by
  unfold carvedPair MazeGenerator.recursive_backtracker
  rw [carve_width]
  split <;> exact (add42_width g _).trans rfl

theorem carvedPair_height (g : MazeGenerator) (en ex : Int × Int) :
    (carvedPair g en ex).1.height = g.height := by
  unfold carvedPair MazeGenerator.recursive_backtracker
  rw [carve_height]
  split <;> exact (add42_height g _).trans rfl

theorem loopedM_width (g : MazeGenerator) (en ex : Int × Int) :
    (loopedM g en ex).width = g.width := by
  unfold loopedM
  split
  · rw [add_loops_eq]
    exact (loopFold_width _ _).trans (carvedPair_width g en ex)
  · exact carvedPair_width g en ex

theorem loopedM_height (g : MazeGenerator) (en ex : Int × Int) :
    (loopedM g en ex).height = g.height := by
  unfold loopedM
  split
  · rw [add_loops_eq]
    exact (loopFold_height _ _).trans (carvedPair_height g en ex)
  · exact carvedPair_height g en ex

theorem finalM_width (g : MazeGenerator) (en ex : Int × Int) :
    (finalM g en ex).width = g.width :=
  (addBorder_width _).trans (loopedM_width g en ex)

theorem finalM_height (g : MazeGenerator) (en ex : Int × Int) :
    (finalM g en ex).height = g.height :=
  (addBorder_height _).trans (loopedM_height g en ex)

/-- The carving invariant holds, with an empty stack, for the maze the
carver hands to the next stage. -/
theorem pipeline_inv (g : MazeGenerator) (en ex : Int × Int)
    (hen : inBnds g.width g.height en) (hex : inBnds g.width g.height ex)
    (hne : en ≠ ex) :
    CarveInv g.width g.height en ex (carvedPair g en ex).1 [] :=
  recursive_backtracker_inv g en ex g.ran hen
    (exists_free_neighbor g.width g.height en ex hen hex hne)

theorem free_stamped_false {w h : Nat} {en ex p : Int × Int}
    (hf : freeCell w h en ex p) : stampedB w h en ex p = false := by
  cases hsb : stampedB w h en ex p
  · rfl
  · exact absurd hsb hf.2

/-- After the carver finishes, every free cell has been visited: the
carver exhausts the whole free component of the entry. -/
theorem all_free_visited (g : MazeGenerator) (en ex : Int × Int)
    (hen : inBnds g.width g.height en) (hex : inBnds g.width g.height ex)
    (hne : en ≠ ex) (p : Int × Int)
    (hp : freeCell g.width g.height en ex p) :
    (((carvedPair g en ex).1).cells p).visited = true := by
  have inv := pipeline_inv g en ex hen hex hne
  have hinB : ∀ q, (carvedPair g en ex).1.inB q
      ↔ inBnds g.width g.height q := by
    intro q
    rw [inB_iff_inBnds, inv.hw, inv.hh]
  have hreach := all_free_reach g.width g.height en ex hen p hp
  clear hp
  induction hreach with
  | refl hp2 => exact inv.hen_vis
  | tail q d hr hs ih =>
    have hq : freeCell g.width g.height en ex q := GridReachF.dst_free hr
    have hqvis := ih
    rcases inv.hcomplete q ((hinB q).2 hq.1) hqvis (free_stamped_false hq)
      with habs | hall
    · exact absurd habs (List.not_mem_nil q)
    · have hmem : ((stepP q d).1, (stepP q d).2, d)
          ∈ (carvedPair g en ex).1.get_neighbors q.1 q.2 := by
        refine (mem_get_neighbors _ q.1 q.2 _).2 ⟨d, ?_, ?_⟩
        · rfl
        · show (carvedPair g en ex).1.inB ((stepP q d).1, (stepP q d).2)
          rw [Prod.mk.eta]
          exact (hinB _).2 hs.1
      have := hall _ hmem
      rw [Prod.mk.eta] at this
      exact this

/-! ### C9: the reserved-cell scan recovers exactly the stamped cells -/

/-- C9: at the moment the loop injector runs (after stamping and carving,
before border enforcement), the cells that are visited with all four
walls intact — the `pattern_walls` scan of `add_loops` — are exactly the
cells the pattern stamper stamped: no carved cell is misclassified as
reserved and no stamped cell escapes the reserved set. -/
theorem claim_C9_reserved (g : MazeGenerator) (en ex : Int × Int)
    (hen : inBnds g.width g.height en) (hex : inBnds g.width g.height ex)
    (hne : en ≠ ex) :
    ∀ p, p ∈ ((carvedPair g en ex).1).pattern_walls
      ↔ stampedB g.width g.height en ex p = true := by
  have inv := pipeline_inv g en ex hen hex hne
  have hinB : ∀ q, (carvedPair g en ex).1.inB q
      ↔ inBnds g.width g.height q := by
    intro q
    rw [inB_iff_inBnds, inv.hw, inv.hh]
  intro p
  rw [mem_pattern_walls]
  constructor
  · rintro ⟨hinBp, hvis, hwalls⟩
    cases hsb : stampedB g.width g.height en ex p
    · rcases inv.hmiss with hleft | ⟨-, hstack⟩
      · rcases hleft p hinBp hsb hvis with ⟨d, hd⟩
        rw [hwalls d] at hd
        cases hd
      · cases hstack
    · rfl
  · intro hs
    have h := inv.hstamp p hs
    refine ⟨?_, h.1, h.2⟩
    exact (hinB p).2 (stamped_inB g.width g.height en ex p hs)

/-- Witness for C9 at a concrete instance. -/
theorem claim_C9_witness :
    (1, 1) ∈ ((carvedPair (MazeGenerator.init 9 7 true 0 2) (0, 0)
        (8, 6)).1).pattern_walls
      ↔ stampedB 9 7 (0, 0) (8, 6) (1, 1) = true :=
  claim_C9_reserved (MazeGenerator.init 9 7 true 0 2) (0, 0) (8, 6)
    (by decide) (by decide) (by decide) (1, 1)

/-! ### C2: the pairing invariant at every stage boundary -/

theorem sample_internal_inB (m : Maze) (r : RNG) (k : Nat) :
    ∀ t ∈ (r.sample (m.internal_walls m.pattern_walls) k).1,
      m.inB (t.1, t.2.1) ∧ m.inB (stepP (t.1, t.2.1) t.2.2) := by
  intro t ht
  have h := mem_internal_walls_elim m _ t
    (sample_subset k (m.internal_walls m.pattern_walls) r t ht)
  exact ⟨h.1, h.2.1⟩

theorem Paired_loopFold (m : Maze) (W : List (Int × Int × Dir))
    (hWB : ∀ t ∈ W, m.inB (t.1, t.2.1) ∧ m.inB (stepP (t.1, t.2.1) t.2.2))
    (hpair : Paired m) : Paired (W.foldl loopStep m) := by
  intro p d h1 h2
  rw [walls_loopFold W m hWB p d, walls_loopFold W m hWB (stepP p d)
    d.opposite, stepP_opposite, Dir.opposite_opposite]
  by_cases hC : (p.1, p.2, d) ∈ W
      ∨ ((stepP p d).1, (stepP p d).2, d.opposite) ∈ W
  · rw [if_pos hC, if_pos (Or.symm hC)]
  · rw [if_neg hC, if_neg (fun hc => hC (Or.symm hc))]
    exact hpair p d ((inB_loopFold W m p).1 h1)
      ((inB_loopFold W m _).1 h2)

theorem inB_addBorder (m : Maze) (q : Int × Int) :
    (MazeGenerator.add_border_walls m).inB q ↔ m.inB q := by
  unfold Maze.inB
  rw [addBorder_width, addBorder_height]

theorem Paired_addBorder (m : Maze) (hpair : Paired m) :
    Paired (MazeGenerator.add_border_walls m) := by
  intro p d h1 h2
  have hp : m.inB p := (inB_addBorder m p).1 h1
  have hq : m.inB (stepP p d) := (inB_addBorder m _).1 h2
  rw [addBorder_inner m p d hp hq, addBorder_inner m (stepP p d) d.opposite
    hq (by rw [stepP_opposite]; exact hp)]
  exact hpair p d hp hq

/-- C2: the wall-pairing invariant — two adjacent in-bounds cells always
agree about their shared wall — holds after stamping, after carving,
after loop injection and after border enforcement; each stage touches
shared walls only in matched pairs. -/
theorem claim_C2_pairing (g : MazeGenerator) (en ex : Int × Int)
    (hen : inBnds g.width g.height en) (hex : inBnds g.width g.height ex)
    (hne : en ≠ ex) :
    Paired (g.add_42_pattern (mkMaze g.width g.height en ex))
    ∧ Paired (carvedPair g en ex).1
    ∧ Paired (loopedM g en ex)
    ∧ Paired (finalM g en ex) := by
  have inv := pipeline_inv g en ex hen hex hne
  have h1 : Paired (g.add_42_pattern (mkMaze g.width g.height en ex)) := by
    intro p d hp hq
    rw [walls_add42_mkMaze, walls_add42_mkMaze]
  have h3 : Paired (loopedM g en ex) := by
    unfold loopedM
    split
    · rw [add_loops_eq]
      exact Paired_loopFold _ _ (sample_internal_inB _ _ _) inv.hpair
    · exact inv.hpair
  exact ⟨h1, inv.hpair, h3, Paired_addBorder _ h3⟩

/-- Witness for C2 at a concrete instance. -/
theorem claim_C2_witness :
    Paired ((MazeGenerator.init 9 7 false (1/2) 5).add_42_pattern
      (mkMaze 9 7 (0, 0) (8, 6)))
    ∧ Paired (carvedPair (MazeGenerator.init 9 7 false (1/2) 5) (0, 0)
        (8, 6)).1
    ∧ Paired (loopedM (MazeGenerator.init 9 7 false (1/2) 5) (0, 0) (8, 6))
    ∧ Paired (finalM (MazeGenerator.init 9 7 false (1/2) 5) (0, 0) (8, 6)) :=
  claim_C2_pairing (MazeGenerator.init 9 7 false (1/2) 5) (0, 0) (8, 6)
    (by decide) (by decide) (by decide)

/-! ### C4: boundary walls -/

/-- C4: after `generate` completes every boundary cell has its
outward-facing wall set (first conjunct); and neither the carving loop
(second conjunct) nor the loop injector (third conjunct) ever removes a
wall that faces out of the grid — only the border enforcer touches those,
forcing them closed. -/
theorem claim_C4_borders :
    (∀ (g : MazeGenerator) (en ex : Int × Int) (M : Maze),
      g.generate en ex = Except.ok M →
      ∀ (p : Int × Int) (d : Dir), M.inB p → ¬ M.inB (stepP p d) →
        ((M.cells p).walls d) = true)
    ∧ (∀ (fuel : Nat) (m : Maze) (stack : List (Int × Int)) (r : RNG)
        (p : Int × Int) (d : Dir), m.inB p → ¬ m.inB (stepP p d) →
        ((m.cells p).walls d) = true →
        ((((carve fuel m stack r).1).cells p).walls d) = true)
    ∧ (∀ (g : MazeGenerator) (m : Maze) (r : RNG) (p : Int × Int) (d : Dir),
        m.inB p → ¬ m.inB (stepP p d) →
        ((m.cells p).walls d) = true →
        ((((g.add_loops m r).1).cells p).walls d) = true) := by
  refine ⟨?_, ?_, ?_⟩
  · intro g en ex M hok p d hp hout
    obtain ⟨hen, hex, hne, rfl⟩ := generate_ok_elim g en ex M hok
    have hp' : (loopedM g en ex).inB p := (inB_addBorder _ p).1 hp
    have hout' : ¬ (loopedM g en ex).inB (stepP p d) := by
      intro hc
      exact hout ((inB_addBorder _ _).2 hc)
    exact addBorder_boundary (loopedM g en ex) p d hp' hout'
  · intro fuel m stack r p d hp hout hw
    have key := carve_preserve
      (fun mm => mm.width = m.width ∧ mm.height = m.height
        ∧ ((mm.cells p).walls d) = true)
      ?_ fuel m stack r ⟨rfl, rfl, hw⟩
    · exact key.2.2
    · intro m1 x y t ht hB1 hB2 hP
      obtain ⟨hw1, hh1, hwall1⟩ := hP
      obtain ⟨hteq, -, -⟩ := mem_unvisitedNeighbors_elim m1 x y t ht
      have htb : (t.1, t.2.1) = stepP (x, y) t.2.2 := by
        rw [hteq]
      have hne1 : ((t.1 : Int), (t.2.1 : Int)) ≠ (x, y) := by
        rw [htb]
        exact stepP_ne _ _
      refine ⟨hw1, hh1, ?_⟩
      rw [walls_carveUpd m1 x y t.1 t.2.1 t.2.2 hne1 p d]
      have hinB_eq : ∀ q, m1.inB q ↔ m.inB q := by
        intro q
        unfold Maze.inB
        rw [hw1, hh1]
      rw [if_neg, if_neg]
      · exact hwall1
      · rintro ⟨hp1, hd1⟩
        apply hout
        rw [← hinB_eq]
        have hsp : stepP p d = (x, y) := by
          rw [hp1, hd1, htb, stepP_opposite]
        rw [hsp]
        exact hB1
      · rintro ⟨hp1, hd1⟩
        apply hout
        rw [← hinB_eq]
        have hsp : stepP p d = (t.1, t.2.1) := by
          rw [hp1, hd1, ← htb]
        rw [hsp]
        exact hB2
  · intro g m r p d hp hout hw
    rw [add_loops_eq]
    rw [walls_loopFold _ m (sample_internal_inB m r _) p d]
    rw [if_neg]
    · exact hw
    · rintro (hmem | hmem)
      · have h := mem_internal_walls_elim m _ _
          (sample_subset _ _ _ _ hmem)
        apply hout
        have hpe : (((p.1, p.2, d) : Int × Int × Dir).1,
            ((p.1, p.2, d) : Int × Int × Dir).2.1) = p := Prod.mk.eta
        rw [hpe] at h
        exact h.2.1
      · have h := mem_internal_walls_elim m _ _
          (sample_subset _ _ _ _ hmem)
        apply hout
        have hpe : ((((stepP p d).1, (stepP p d).2, d.opposite)
              : Int × Int × Dir).1,
            (((stepP p d).1, (stepP p d).2, d.opposite)
              : Int × Int × Dir).2.1) = stepP p d := Prod.mk.eta
        rw [hpe] at h
        exact h.1

/-- Witness for C4 at a concrete instance. -/
theorem claim_C4_witness :
    ((((MazeGenerator.init 2 2 false 0 0).add_loops
          (mkMaze 2 2 (0, 0) (1, 1)) ⟨fun n => n, 0⟩).1.cells
        (0, 0)).walls Dir.N) = true :=
  claim_C4_borders.2.2 (MazeGenerator.init 2 2 false 0 0)
    (mkMaze 2 2 (0, 0) (1, 1)) ⟨fun n => n, 0⟩ (0, 0) Dir.N
    (by decide) (by decide) rfl

/-! ### C6: stamped cells keep their walls -/

theorem addBorder_walls_mono (m : Maze) (p : Int × Int) (e : Dir)
    (h : ((m.cells p).walls e) = true) :
    (((MazeGenerator.add_border_walls m).cells p).walls e) = true := by
  unfold MazeGenerator.add_border_walls
  exact foldl_keeps
    (fun mm (y : Nat) => ((mm.addWallAt 0 (y : Int) Dir.W).addWallAt
      ((m.width : Int) - 1) (y : Int) Dir.E))
    (fun mm => ((mm.cells p).walls e) = true)
    (fun mm y hP => by
      dsimp only
      exact walls_addWallAt_mono _ _ _ _ _ _
        (walls_addWallAt_mono _ _ _ _ _ _ hP)) (List.range m.height)
    _ (foldl_keeps
      (fun mm (x : Nat) => ((mm.addWallAt (x : Int) 0 Dir.N).addWallAt
        (x : Int) ((m.height : Int) - 1) Dir.S))
      (fun mm => ((mm.cells p).walls e) = true)
      (fun mm x hP => by
        dsimp only
        exact walls_addWallAt_mono _ _ _ _ _ _
          (walls_addWallAt_mono _ _ _ _ _ _ hP)) (List.range m.width) m h)

theorem visited_loopedM (g : MazeGenerator) (en ex : Int × Int)
    (p : Int × Int) :
    ((loopedM g en ex).cells p).visited
      = (((carvedPair g en ex).1).cells p).visited := by
  unfold loopedM
  split
  · rw [add_loops_eq]
    exact visited_loopFold _ _ p
  · rfl

/-- The loop injector never touches a wall of a stamped cell: stamped
cells sit in the reserved scan, which every candidate avoids. -/
theorem walls_loopedM_stamped (g : MazeGenerator) (en ex : Int × Int)
    (hen : inBnds g.width g.height en) (hex : inBnds g.width g.height ex)
    (hne : en ≠ ex) (p : Int × Int)
    (hs : stampedB g.width g.height en ex p = true) (d : Dir) :
    (((loopedM g en ex).cells p).walls d) = true := by
  have inv := pipeline_inv g en ex hen hex hne
  have hstamp := inv.hstamp p hs
  have hinBp : (carvedPair g en ex).1.inB p := by
    rw [inB_iff_inBnds, inv.hw, inv.hh]
    exact stamped_inB g.width g.height en ex p hs
  have hpw : p ∈ ((carvedPair g en ex).1).pattern_walls :=
    (mem_pattern_walls _ p).2 ⟨hinBp, hstamp.1, hstamp.2⟩
  unfold loopedM
  split
  · rw [add_loops_eq]
    rw [walls_loopFold _ _ (sample_internal_inB _ _ _) p d, if_neg]
    · exact hstamp.2 d
    · rintro (hmem | hmem)
      · have h := mem_internal_walls_elim _ _ _
          (sample_subset _ _ _ _ hmem)
        have hpe : (((p.1, p.2, d) : Int × Int × Dir).1,
            ((p.1, p.2, d) : Int × Int × Dir).2.1) = p := Prod.mk.eta
        rw [hpe] at h
        exact h.2.2.2.1 hpw
      · have h := mem_internal_walls_elim _ _ _
          (sample_subset _ _ _ _ hmem)
        have hpe : ((((stepP p d).1, (stepP p d).2, d.opposite)
              : Int × Int × Dir).1,
            (((stepP p d).1, (stepP p d).2, d.opposite)
              : Int × Int × Dir).2.1) = stepP p d := Prod.mk.eta
        have hpe2 : stepP (stepP p d) d.opposite = p := stepP_opposite p d
        rw [hpe] at h
        have h2 := h.2.2.2.2.1
        have hde : (((stepP p d).1, (stepP p d).2, d.opposite)
            : Int × Int × Dir).2.2 = d.opposite := rfl
        rw [hde, hpe2] at h2
        exact h2 hpw
  · exact hstamp.2 d

/-- C6: every cell the pattern stamper closes (a `1`-bit cell distinct
from entry and exit) is visited and keeps all four walls in the maze
`generate` returns; the stamper itself never touches any wall flag, and
leaves the entry and the exit cells completely untouched. -/
theorem claim_C6_stamped :
    (∀ (g : MazeGenerator) (en ex : Int × Int) (M : Maze),
      g.generate en ex = Except.ok M →
      ∀ p, stampedB g.width g.height en ex p = true →
        (M.cells p).visited = true ∧ ∀ d, ((M.cells p).walls d) = true)
    ∧ (∀ (g : MazeGenerator) (m : Maze) (p : Int × Int) (d : Dir),
        ((g.add_42_pattern m).cells p).walls d = (m.cells p).walls d)
    ∧ (∀ (g : MazeGenerator) (en ex : Int × Int) (p : Int × Int),
        p = en ∨ p = ex →
        ((g.add_42_pattern (mkMaze g.width g.height en ex)).cells p)
          = ((mkMaze g.width g.height en ex).cells p)) := by
  refine ⟨?_, add42_walls, ?_⟩
  · intro g en ex M hok p hs
    obtain ⟨hen, hex, hne, rfl⟩ := generate_ok_elim g en ex M hok
    have inv := pipeline_inv g en ex hen hex hne
    constructor
    · show (((MazeGenerator.add_border_walls (loopedM g en ex)).cells
        p).visited) = true
      rw [visited_addBorder, visited_loopedM]
      exact (inv.hstamp p hs).1
    · intro d
      exact addBorder_walls_mono _ p d
        (walls_loopedM_stamped g en ex hen hex hne p hs d)
  · intro g en ex p hp
    rw [cells_mkMaze]
    have hw : ((g.add_42_pattern (mkMaze g.width g.height en ex)).cells
        p).walls = freshCell.walls := by
      funext d
      exact (walls_add42_mkMaze g en ex p d).trans rfl
    have hv : ((g.add_42_pattern (mkMaze g.width g.height en ex)).cells
        p).visited = false := by
      rw [visited_add42_mkMaze]
      rcases hp with rfl | rfl
      · exact stampedB_entry _ _ _ _
      · exact stampedB_exit_pos _ _ _ _
    calc (g.add_42_pattern (mkMaze g.width g.height en ex)).cells p
        = ⟨((g.add_42_pattern (mkMaze g.width g.height en ex)).cells
            p).walls,
          ((g.add_42_pattern (mkMaze g.width g.height en ex)).cells
            p).visited⟩ := rfl
      _ = ⟨freshCell.walls, false⟩ := by rw [hw, hv]
      _ = freshCell := rfl

/-- Witness for C6 at a concrete instance. -/
theorem claim_C6_witness :
    ((MazeGenerator.init 3 3 true 0 0).add_42_pattern
        (mkMaze 3 3 (0, 0) (1, 1))).cells (0, 0)
      = (mkMaze 3 3 (0, 0) (1, 1)).cells (0, 0) :=
  claim_C6_stamped.2.2 (MazeGenerator.init 3 3 true 0 0) (0, 0) (1, 1)
    (0, 0) (Or.inl rfl)

/-! ### C1: the perfect maze is a spanning tree of the free cells -/

/-- The open-passage graph of a maze: vertices are coordinates, edges the
two-sided open walls between adjacent in-bounds cells. -/
def mazeGraph (m : Maze) : SimpleGraph (Int × Int) where
  Adj p q := OpenEdge m p q
  symm := fun p q h => OpenEdge.symm h
  loopless := by
    intro p h
    rcases h with ⟨d, heq, -, -, -, -⟩
    exact stepP_ne p d heq.symm

theorem OpenEdge_addBorder (m : Maze) (p q : Int × Int) :
    OpenEdge (MazeGenerator.add_border_walls m) p q ↔ OpenEdge m p q := by
  constructor
  · rintro ⟨d, rfl, hp, hq, h1, h2⟩
    have hp' := (inB_addBorder m p).1 hp
    have hq' := (inB_addBorder m _).1 hq
    refine ⟨d, rfl, hp', hq', ?_, ?_⟩
    · rw [addBorder_inner m p d hp' hq'] at h1
      exact h1
    · rw [addBorder_inner m (stepP p d) d.opposite hq'
        (by rw [stepP_opposite]; exact hp')] at h2
      exact h2
  · rintro ⟨d, rfl, hp, hq, h1, h2⟩
    refine ⟨d, rfl, (inB_addBorder m p).2 hp, (inB_addBorder m _).2 hq,
      ?_, ?_⟩
    · rw [addBorder_inner m p d hp hq]
      exact h1
    · rw [addBorder_inner m (stepP p d) d.opposite hq
        (by rw [stepP_opposite]; exact hp)]
      exact h2

theorem mazeGraph_addBorder (m : Maze) :
    mazeGraph (MazeGenerator.add_border_walls m) = mazeGraph m := by
  ext p q
  exact OpenEdge_addBorder m p q

theorem reachable_of_openReach (m : Maze) {a b : Int × Int}
    (h : OpenReach m a b) : (mazeGraph m).Reachable a b := by
  induction h with
  | refl => exact ⟨SimpleGraph.Walk.nil⟩
  | tail q s hr he ih => exact ih.trans (SimpleGraph.Adj.reachable he)

theorem walk_support_getD {V : Type} {G : SimpleGraph V} {u v : V} :
    ∀ (p : G.Walk u v) (i : Nat), i ≤ p.length →
      p.support.getD i v = p.getVert i := by
  intro p
  induction p with
  | nil =>
    intro i hi
    have h0 : i = 0 := Nat.le_zero.1 hi
    subst h0
    rfl
  | cons h q ih =>
    intro i hi
    cases i with
    | zero => rfl
    | succ j => exact ih j (Nat.succ_le_succ_iff.1 hi)

/-- The maze graph has no cycle as soon as every open edge joins ranked
vertices with distinct ranks and a unique lower-ranked parent per vertex:
the maximal-rank vertex of a cycle would need two of them. -/
theorem mazeGraph_acyclic (m : Maze) (A : (Int × Int) → Prop)
    (rk : (Int × Int) → Nat)
    (hend : ∀ p q, OpenEdge m p q → A p)
    (hinj : ∀ p q, A p → A q → rk p = rk q → p = q)
    (huniq : ∀ p a a', OpenEdge m a p → OpenEdge m a' p →
      rk a < rk p → rk a' < rk p → a = a') :
    (mazeGraph m).IsAcyclic := by
  intro v c hc
  have hsupp : ∀ u ∈ c.support, A u := by
    intro u hu
    rcases SimpleGraph.Walk.mem_support_iff_exists_getVert.1 hu
      with ⟨n, hgv, hn⟩
    have hlen : 0 < c.length := by
      have h3 := hc.three_le_length
      omega
    by_cases hn' : n < c.length
    · have hadj := c.adj_getVert_succ hn'
      rw [hgv] at hadj
      exact hend _ _ hadj
    · have hv : u = v := by
        rw [← hgv]
        exact c.getVert_of_length_le (Nat.le_of_not_lt hn')
      subst hv
      have hadj := c.adj_getVert_succ hlen
      rw [c.getVert_zero] at hadj
      exact hend _ _ hadj
  obtain ⟨u, hu_mem, hu_max⟩ :=
    Finset.exists_max_image c.support.toFinset rk
      ⟨v, List.mem_toFinset.2 c.start_mem_support⟩
  rw [List.mem_toFinset] at hu_mem
  have hsub : ∀ x ∈ (c.rotate hu_mem).support, x ∈ c.support := by
    intro x hx
    rw [SimpleGraph.Walk.support_eq_cons] at hx
    rcases List.mem_cons.1 hx with rfl | hx2
    · exact hu_mem
    · have hperm := SimpleGraph.Walk.support_rotate c hu_mem
      have hx3 : x ∈ c.support.tail := hperm.mem_iff.1 hx2
      rw [SimpleGraph.Walk.support_eq_cons c]
      exact List.mem_cons_of_mem _ hx3
  have hcyc := hc.rotate hu_mem
  revert hcyc hsub
  cases hcw : c.rotate hu_mem with
  | nil =>
    intro hsub hcyc
    simp at hcyc
  | cons hadj q =>
    intro hsub hcyc
    have hqlen : 2 ≤ q.length := by
      have h3 := hcyc.three_le_length
      simp only [SimpleGraph.Walk.length_cons] at h3
      omega
    have hnodup : q.support.Nodup := by
      have hnd := hcyc.support_nodup
      simpa [SimpleGraph.Walk.support_cons] using hnd
    have hadj2 := q.adj_getVert_succ (show q.length - 1 < q.length by omega)
    rw [show q.length - 1 + 1 = q.length by omega, q.getVert_length] at hadj2
    have hxA := hend _ _ hadj.symm
    have haA := hend _ _ hadj2
    have huA := hend _ _ hadj
    have hx_mem : _ ∈ c.support :=
      hsub _ (by
        rw [SimpleGraph.Walk.support_cons]
        exact List.mem_cons_of_mem _ q.start_mem_support)
    have ha_mem : q.getVert (q.length - 1) ∈ c.support :=
      hsub _ (by
        rw [SimpleGraph.Walk.support_cons]
        refine List.mem_cons_of_mem _ ?_
        exact SimpleGraph.Walk.mem_support_iff_exists_getVert.2
          ⟨q.length - 1, rfl, by omega⟩)
    have hxr := Nat.lt_of_le_of_ne (hu_max _ (List.mem_toFinset.2 hx_mem))
      (fun he => hadj.ne ((hinj _ _ hxA huA he).symm))
    have har := Nat.lt_of_le_of_ne (hu_max _ (List.mem_toFinset.2 ha_mem))
      (fun he => hadj2.ne (hinj _ _ haA huA he))
    have hax := huniq u _ _ hadj2 hadj.symm har hxr
    have h0 : q.getVert (q.length - 1) = q.getVert 0 :=
      hax.trans q.getVert_zero.symm
    have hlensup := SimpleGraph.Walk.length_support q
    have e1 := walk_support_getD q (q.length - 1) (by omega)
    have e2 := walk_support_getD q 0 (Nat.zero_le _)
    have hgd : q.support.getD (q.length - 1) u = q.support.getD 0 u := by
      rw [e1, e2, h0]
    rw [List.getD_eq_getElem _ _ (by omega),
      List.getD_eq_getElem _ _ (by omega)] at hgd
    have hij := hnodup.getElem_inj_iff.1 hgd
    omega

theorem openInternalCount_addBorder (m : Maze) :
    openInternalCount (MazeGenerator.add_border_walls m)
      = openInternalCount m := by
  unfold openInternalCount
  rw [addBorder_width, addBorder_height]
  congr 1
  apply Finset.filter_congr
  intro t ht
  obtain ⟨p, d⟩ := t
  show openRec (MazeGenerator.add_border_walls m) p d ↔ openRec m p d
  unfold openRec
  constructor
  · rintro ⟨h1, h2, h3⟩
    have h1' := (inB_addBorder m p).1 h1
    have h2' := (inB_addBorder m _).1 h2
    refine ⟨h1', h2', ?_⟩
    rw [addBorder_inner m p d h1' h2'] at h3
    exact h3
  · rintro ⟨h1, h2, h3⟩
    refine ⟨(inB_addBorder m p).2 h1, (inB_addBorder m _).2 h2, ?_⟩
    rw [addBorder_inner m p d h1 h2]
    exact h3

theorem loopedM_perfect (g : MazeGenerator) (en ex : Int × Int)
    (hpf : g.perfect = true) : loopedM g en ex = (carvedPair g en ex).1 := by
  unfold loopedM
  rw [if_neg (not_not_intro hpf)]

/-- C1: for a validated perfect generation the open-passage graph of the
returned maze, restricted to the free (non-obstacle) cells, is connected
and acyclic, and exactly `free cells - 1` internal walls are open — one
per cell the carver first visited (the border enforcer and the skipped
loop stage open none). -/
theorem claim_C1_spanning_tree (g : MazeGenerator) (en ex : Int × Int)
    (M : Maze) (hpf : g.perfect = true)
    (hok : g.generate en ex = Except.ok M) :
    (∀ p q, freeCell g.width g.height en ex p →
        freeCell g.width g.height en ex q → (mazeGraph M).Reachable p q)
    ∧ (mazeGraph M).IsAcyclic
    ∧ openInternalCount M + 1 = freeCount g.width g.height en ex
    ∧ openInternalCount M = openInternalCount (carvedPair g en ex).1 := by
  obtain ⟨hen, hex, hne, rfl⟩ := generate_ok_elim g en ex M hok
  have hlp := loopedM_perfect g en ex hpf
  have inv := pipeline_inv g en ex hen hex hne
  have hinB : ∀ q, (carvedPair g en ex).1.inB q
      ↔ inBnds g.width g.height q := by
    intro q
    rw [inB_iff_inBnds, inv.hw, inv.hh]
  have hG : mazeGraph (finalM g en ex)
      = mazeGraph (carvedPair g en ex).1 := by
    unfold finalM
    rw [mazeGraph_addBorder, hlp]
  have hcount : openInternalCount (finalM g en ex)
      = openInternalCount (carvedPair g en ex).1 := by
    unfold finalM
    rw [openInternalCount_addBorder, hlp]
  have hreach_en : ∀ p, freeCell g.width g.height en ex p →
      (mazeGraph (carvedPair g en ex).1).Reachable en p := by
    intro p hp
    exact reachable_of_openReach _
      (inv.hreach p ((hinB p).2 hp.1)
        (all_free_visited g en ex hen hex hne p hp)
        (free_stamped_false hp))
  refine ⟨?_, ?_, ?_, hcount⟩
  · intro p q hp hq
    rw [hG]
    exact (hreach_en p hp).symm.trans (hreach_en q hq)
  · rw [hG]
    obtain ⟨rk, ctr, hbound, hinj, huniq⟩ := inv.hrank
    refine mazeGraph_acyclic _ (fun p => (carvedPair g en ex).1.inB p
      ∧ (((carvedPair g en ex).1.cells p).visited = true)
      ∧ stampedB g.width g.height en ex p = false) rk ?_ ?_ huniq
    · intro p q he
      obtain ⟨hv, hs⟩ := inv.hedge p q he
      obtain ⟨d, -, hpB, -, -, -⟩ := he
      exact ⟨hpB, hv, hs⟩
    · intro p q hp hq heq
      exact hinj p q hp.1 hq.1 hp.2.1 hq.2.1 hp.2.2 hq.2.2 heq
  · rw [hcount, inv.hcount]
    unfold visitedFreeCount freeCount
    rw [inv.hw, inv.hh]
    congr 1
    apply Finset.filter_congr
    intro p hp
    rw [mem_gridFinset] at hp
    constructor
    · rintro ⟨-, hns⟩
      exact hns
    · intro hns
      exact ⟨all_free_visited g en ex hen hex hne p ⟨hp, hns⟩, hns⟩

/-- Witness for C1 at a concrete instance. -/
theorem claim_C1_witness :
    (∀ p q, freeCell 9 7 (0, 0) (8, 6) p → freeCell 9 7 (0, 0) (8, 6) q →
        (mazeGraph (finalM (MazeGenerator.init 9 7 true 0 1) (0, 0)
          (8, 6))).Reachable p q)
    ∧ (mazeGraph (finalM (MazeGenerator.init 9 7 true 0 1) (0, 0)
        (8, 6))).IsAcyclic
    ∧ openInternalCount (finalM (MazeGenerator.init 9 7 true 0 1) (0, 0)
          (8, 6)) + 1
        = freeCount 9 7 (0, 0) (8, 6)
    ∧ openInternalCount (finalM (MazeGenerator.init 9 7 true 0 1) (0, 0)
          (8, 6))
        = openInternalCount (carvedPair (MazeGenerator.init 9 7 true 0 1)
          (0, 0) (8, 6)).1 :=
  claim_C1_spanning_tree (MazeGenerator.init 9 7 true 0 1) (0, 0) (8, 6)
    (finalM (MazeGenerator.init 9 7 true 0 1) (0, 0) (8, 6)) rfl
    (generate_ok (MazeGenerator.init 9 7 true 0 1) (0, 0) (8, 6)
      (by decide) (by decide) (by decide))

/-! ### C10: the None branch of get_cell is dead inside the stages -/

/-- The carver neighbor scan with the source's unguarded
`maze.get_cell(nx, ny).visited` dereference made explicit: `none` if any
dereference would fault. -/
def Maze.unvisitedNeighborsChecked (m : Maze) (x y : Int) :
    Option (List (Int × Int × Dir)) :=
  (m.get_neighbors x y).foldr
    (fun t acc => match m.get_cell t.1 t.2.1, acc with
      | some c, some l => some (if ¬ c.visited then t :: l else l)
      | _, _ => none)
    (some [])

theorem checked_foldr (m : Maze) :
    ∀ (l : List (Int × Int × Dir)), (∀ t ∈ l, m.inB (t.1, t.2.1)) →
      l.foldr
        (fun t acc => match m.get_cell t.1 t.2.1, acc with
          | some c, some l2 => some (if ¬ c.visited then t :: l2 else l2)
          | _, _ => none)
        (some [])
      = some (l.filter (fun t => ¬ (m.cellD t.1 t.2.1).visited)) := by
  intro l
  induction l with
  | nil =>
    intro hmem
    rfl
  | cons t l ih =>
    intro hmem
    have hB := hmem t (List.mem_cons_self _ _)
    rw [List.foldr_cons,
      ih (fun t2 ht2 => hmem t2 (List.mem_cons_of_mem _ ht2)),
      get_cell_eq_some _ _ _ hB, List.filter_cons]
    by_cases hv : (m.cells (t.1, t.2.1)).visited = true
    · simp [hv, cellD_eq_cells _ _ _ hB]
    · simp [hv, cellD_eq_cells _ _ _ hB]

theorem unvisitedNeighborsChecked_eq (m : Maze) (x y : Int) :
    m.unvisitedNeighborsChecked x y = some (m.unvisitedNeighbors x y) := by
  unfold Maze.unvisitedNeighborsChecked Maze.unvisitedNeighbors
  exact checked_foldr m (m.get_neighbors x y)
    (fun t ht => mem_get_neighbors_inB m x y t ht)

/-- The carving loop with every `get_cell` dereference checked. -/
def carveChecked (fuel : Nat) (m : Maze) (stack : List (Int × Int))
    (r : RNG) : Option (Maze × RNG) :=
  match fuel with
  | 0 => some (m, r)
  | fuel + 1 =>
    match stack with
    | [] => some (m, r)
    | (x, y) :: rest =>
      match m.unvisitedNeighborsChecked x y with
      | none => none
      | some ns =>
        if ns.isEmpty then carveChecked fuel m rest r
        else
          let (t, r') := r.choice ns
          if m.inB (x, y) ∧ m.inB (t.1, t.2.1) then
            carveChecked fuel (carveUpd m x y t.1 t.2.1 t.2.2)
              ((t.1, t.2.1) :: (x, y) :: rest) r'
          else carveChecked fuel m ((x, y) :: rest) r'

theorem carveChecked_eq : ∀ (fuel : Nat) (m : Maze)
    (stack : List (Int × Int)) (r : RNG),
    carveChecked fuel m stack r = some (carve fuel m stack r) := by
  intro fuel
  induction fuel with
  | zero =>
    intro m stack r
    rfl
  | succ fuel ih =>
    intro m stack r
    cases stack with
    | nil => rfl
    | cons p0 rest =>
      obtain ⟨x, y⟩ := p0
      rw [show carveChecked (fuel + 1) m ((x, y) :: rest) r
          = match m.unvisitedNeighborsChecked x y with
            | none => none
            | some ns =>
              if ns.isEmpty then carveChecked fuel m rest r
              else
                (fun t r' =>
                  if m.inB (x, y) ∧ m.inB (t.1, t.2.1) then
                    carveChecked fuel (carveUpd m x y t.1 t.2.1 t.2.2)
                      ((t.1, t.2.1) :: (x, y) :: rest) r'
                  else carveChecked fuel m ((x, y) :: rest) r')
                  (r.choice ns).1 (r.choice ns).2
        from rfl]
      rw [show carve (fuel + 1) m ((x, y) :: rest) r
          = if (m.unvisitedNeighbors x y).isEmpty then carve fuel m rest r
            else
              (fun t r' =>
                if m.inB (x, y) ∧ m.inB (t.1, t.2.1) then
                  carve fuel (carveUpd m x y t.1 t.2.1 t.2.2)
                    ((t.1, t.2.1) :: (x, y) :: rest) r'
                else carve fuel m ((x, y) :: rest) r')
                (r.choice (m.unvisitedNeighbors x y)).1
                (r.choice (m.unvisitedNeighbors x y)).2
        from rfl]
      rw [unvisitedNeighborsChecked_eq]
      show (if (m.unvisitedNeighbors x y).isEmpty
          then carveChecked fuel m rest r
          else
            (fun t r' =>
              if m.inB (x, y) ∧ m.inB (t.1, t.2.1) then
                carveChecked fuel (carveUpd m x y t.1 t.2.1 t.2.2)
                  ((t.1, t.2.1) :: (x, y) :: rest) r'
              else carveChecked fuel m ((x, y) :: rest) r')
              (r.choice (m.unvisitedNeighbors x y)).1
              (r.choice (m.unvisitedNeighbors x y)).2)
        = _
      by_cases hemp : (m.unvisitedNeighbors x y).isEmpty
      · rw [if_pos hemp, if_pos hemp]
        exact ih m rest r
      · rw [if_neg hemp, if_neg hemp]
        dsimp only
        by_cases hB : m.inB (x, y)
            ∧ m.inB ((r.choice (m.unvisitedNeighbors x y)).1.1,
              (r.choice (m.unvisitedNeighbors x y)).1.2.1)
        · rw [if_pos hB, if_pos hB]
          exact ih _ _ _
        · rw [if_neg hB, if_neg hB]
          exact ih _ _ _

/-- One checked loop-removal step: `none` if either `get_cell` would
fault. -/
def loopStepChecked (om : Option Maze) (t : Int × Int × Dir) :
    Option Maze :=
  match om with
  | none => none
  | some m1 =>
    match m1.get_cell t.1 t.2.1,
        m1.get_cell (t.1 + t.2.2.off.1) (t.2.1 + t.2.2.off.2) with
    | some _, some _ =>
      some ((m1.removeWallAt t.1 t.2.1 t.2.2).removeWallAt
        (t.1 + t.2.2.off.1) (t.2.1 + t.2.2.off.2) t.2.2.opposite)
    | _, _ => none

/-- The loop injector with every removal dereference checked. -/
def add_loopsChecked (g : MazeGenerator) (m : Maze) (r : RNG) :
    Option (Maze × RNG) :=
  match ((r.sample (m.internal_walls m.pattern_walls)
      (min ((⌊((m.internal_walls m.pattern_walls).length : ℚ)
        * g.loop_factor⌋).toNat)
        (m.internal_walls m.pattern_walls).length)).1).foldl
      loopStepChecked (some m) with
  | none => none
  | some m2 =>
    some (m2, (r.sample (m.internal_walls m.pattern_walls)
      (min ((⌊((m.internal_walls m.pattern_walls).length : ℚ)
        * g.loop_factor⌋).toNat)
        (m.internal_walls m.pattern_walls).length)).2)

/-- A none-propagating fold equals `some` of the plain fold as long as
every step's side condition holds along the way. -/
theorem foldl_checked {α : Type} (fc : Option Maze → α → Option Maze)
    (f : Maze → α → Maze) (C : α → Maze → Prop)
    (hstep : ∀ mm a, C a mm → fc (some mm) a = some (f mm a))
    (hpres : ∀ mm a b, C b mm → C b (f mm a)) :
    ∀ (l : List α) (m : Maze), (∀ a ∈ l, C a m) →
      l.foldl fc (some m) = some (l.foldl f m) := by
  intro l
  induction l with
  | nil =>
    intro m hC
    rfl
  | cons a l ih =>
    intro m hC
    rw [List.foldl_cons, List.foldl_cons,
      hstep m a (hC a (List.mem_cons_self _ _))]
    exact ih (f m a)
      (fun b hb => hpres m a b (hC b (List.mem_cons_of_mem _ hb)))

theorem loopStepChecked_some (mm : Maze) (t : Int × Int × Dir)
    (h1 : mm.inB (t.1, t.2.1)) (h2 : mm.inB (stepP (t.1, t.2.1) t.2.2)) :
    loopStepChecked (some mm) t = some (loopStep mm t) := by
  show (match mm.get_cell t.1 t.2.1,
      mm.get_cell (t.1 + t.2.2.off.1) (t.2.1 + t.2.2.off.2) with
    | some _, some _ =>
      some ((mm.removeWallAt t.1 t.2.1 t.2.2).removeWallAt
        (t.1 + t.2.2.off.1) (t.2.1 + t.2.2.off.2) t.2.2.opposite)
    | _, _ => none) = some (loopStep mm t)
  unfold loopStep
  rw [get_cell_eq_some _ _ _ h1, get_cell_eq_some _ _ _ h2]

theorem add_loopsChecked_eq (g : MazeGenerator) (m : Maze) (r : RNG) :
    add_loopsChecked g m r = some (g.add_loops m r) := by
  unfold add_loopsChecked
  rw [foldl_checked loopStepChecked loopStep
    (fun t mm => mm.inB (t.1, t.2.1) ∧ mm.inB (stepP (t.1, t.2.1) t.2.2))
    (fun mm a hC => loopStepChecked_some mm a hC.1 hC.2)
    (fun mm a b hC => ⟨(inB_loopStep mm a _).2 hC.1,
      (inB_loopStep mm a _).2 hC.2⟩) _ m (sample_internal_inB m r _)]
  rw [add_loops_eq]

/-- The border enforcer with the source's `maze.get_cell(x, 0).add_wall`
dereferences checked. -/
def add_border_wallsChecked (m : Maze) : Option Maze :=
  (List.range m.height).foldl
    (fun om (y : Nat) => match om with
      | none => none
      | some mm =>
        match mm.get_cell 0 (y : Int),
            mm.get_cell ((m.width : Int) - 1) (y : Int) with
        | some _, some _ =>
          some ((mm.addWallAt 0 (y : Int) Dir.W).addWallAt
            ((m.width : Int) - 1) (y : Int) Dir.E)
        | _, _ => none)
    ((List.range m.width).foldl
      (fun om (x : Nat) => match om with
        | none => none
        | some mm =>
          match mm.get_cell (x : Int) 0,
              mm.get_cell (x : Int) ((m.height : Int) - 1) with
          | some _, some _ =>
            some ((mm.addWallAt (x : Int) 0 Dir.N).addWallAt
              (x : Int) ((m.height : Int) - 1) Dir.S)
          | _, _ => none) (some m))

theorem inB_addWallAt (m : Maze) (x y : Int) (d : Dir) (q : Int × Int) :
    (m.addWallAt x y d).inB q ↔ m.inB q := Iff.rfl

theorem add_border_wallsChecked_eq (m : Maze) (hw : 1 ≤ m.width)
    (hh : 1 ≤ m.height) :
    add_border_wallsChecked m
      = some (MazeGenerator.add_border_walls m) := by
  unfold add_border_wallsChecked MazeGenerator.add_border_walls
  have hNS := foldl_checked
    (fun om (x : Nat) => match om with
      | none => none
      | some mm =>
        match mm.get_cell (x : Int) 0,
            mm.get_cell (x : Int) ((m.height : Int) - 1) with
        | some _, some _ =>
          some ((mm.addWallAt (x : Int) 0 Dir.N).addWallAt
            (x : Int) ((m.height : Int) - 1) Dir.S)
        | _, _ => none)
    (fun mm (x : Nat) => ((mm.addWallAt (x : Int) 0 Dir.N).addWallAt
      (x : Int) ((m.height : Int) - 1) Dir.S))
    (fun (x : Nat) mm => mm.inB ((x : Int), 0)
      ∧ mm.inB ((x : Int), (m.height : Int) - 1))
    (fun mm a hC => by
      dsimp only
      rw [get_cell_eq_some _ _ _ hC.1, get_cell_eq_some _ _ _ hC.2])
    (fun mm a b hC => hC)
    (List.range m.width) m
    (fun a ha => by
      rw [List.mem_range] at ha
      refine ⟨⟨?_, ?_, ?_, ?_⟩, ⟨?_, ?_, ?_, ?_⟩⟩ <;> simp only [] <;> omega)
  rw [hNS]
  have hm1w : ((List.range m.width).foldl
      (fun mm (x : Nat) => ((mm.addWallAt (x : Int) 0 Dir.N).addWallAt
        (x : Int) ((m.height : Int) - 1) Dir.S)) m).width = m.width :=
    foldl_keeps
      (fun mm (x : Nat) => ((mm.addWallAt (x : Int) 0 Dir.N).addWallAt
        (x : Int) ((m.height : Int) - 1) Dir.S))
      (fun mm => mm.width = m.width) (fun mm x hP => hP)
      (List.range m.width) m rfl
  have hm1h : ((List.range m.width).foldl
      (fun mm (x : Nat) => ((mm.addWallAt (x : Int) 0 Dir.N).addWallAt
        (x : Int) ((m.height : Int) - 1) Dir.S)) m).height = m.height :=
    foldl_keeps
      (fun mm (x : Nat) => ((mm.addWallAt (x : Int) 0 Dir.N).addWallAt
        (x : Int) ((m.height : Int) - 1) Dir.S))
      (fun mm => mm.height = m.height) (fun mm x hP => hP)
      (List.range m.width) m rfl
  have hinB1 : ∀ q, ((List.range m.width).foldl
      (fun mm (x : Nat) => ((mm.addWallAt (x : Int) 0 Dir.N).addWallAt
        (x : Int) ((m.height : Int) - 1) Dir.S)) m).inB q ↔ m.inB q := by
    intro q
    unfold Maze.inB
    rw [hm1w, hm1h]
  exact foldl_checked
    (fun om (y : Nat) => match om with
      | none => none
      | some mm =>
        match mm.get_cell 0 (y : Int),
            mm.get_cell ((m.width : Int) - 1) (y : Int) with
        | some _, some _ =>
          some ((mm.addWallAt 0 (y : Int) Dir.W).addWallAt
            ((m.width : Int) - 1) (y : Int) Dir.E)
        | _, _ => none)
    (fun mm (y : Nat) => ((mm.addWallAt 0 (y : Int) Dir.W).addWallAt
      ((m.width : Int) - 1) (y : Int) Dir.E))
    (fun (y : Nat) mm => mm.inB (0, (y : Int))
      ∧ mm.inB ((m.width : Int) - 1, (y : Int)))
    (fun mm a hC => by
      dsimp only
      rw [get_cell_eq_some _ _ _ hC.1, get_cell_eq_some _ _ _ hC.2])
    (fun mm a b hC => hC)
    (List.range m.height) _
    (fun a ha => by
      rw [List.mem_range] at ha
      constructor
      · refine (hinB1 _).2 ?_
        refine ⟨?_, ?_, ?_, ?_⟩ <;> simp only [] <;> omega
      · refine (hinB1 _).2 ?_
        refine ⟨?_, ?_, ?_, ?_⟩ <;> simp only [] <;> omega)

/-- C10: during generation every `get_cell` dereference of the carver,
the loop injector and the border enforcer receives in-bounds coordinates:
the checked variants of the three stages (which return `none` exactly
when a dereference would hit `get_cell`'s `None` branch) always return
`some` of the unchecked stage result — for the border enforcer under the
positive dimensions every validated `generate` call guarantees. -/
theorem claim_C10_get_cell_total :
    (∀ (fuel : Nat) (m : Maze) (stack : List (Int × Int)) (r : RNG),
      carveChecked fuel m stack r = some (carve fuel m stack r))
    ∧ (∀ (m : Maze) (x y : Int),
      m.unvisitedNeighborsChecked x y = some (m.unvisitedNeighbors x y))
    ∧ (∀ (g : MazeGenerator) (m : Maze) (r : RNG),
      add_loopsChecked g m r = some (g.add_loops m r))
    ∧ (∀ (m : Maze), 1 ≤ m.width → 1 ≤ m.height →
      add_border_wallsChecked m = some (MazeGenerator.add_border_walls m))
    ∧ (∀ (g : MazeGenerator) (en ex : Int × Int) (M : Maze),
      g.generate en ex = Except.ok M → 1 ≤ g.width ∧ 1 ≤ g.height) := by
  refine ⟨carveChecked_eq, unvisitedNeighborsChecked_eq,
    add_loopsChecked_eq, add_border_wallsChecked_eq, ?_⟩
  intro g en ex M hok
  obtain ⟨hen, -, -, -⟩ := generate_ok_elim g en ex M hok
  obtain ⟨h1, h2, h3, h4⟩ := hen
  omega

/-- Witness for C10 at a concrete instance. -/
theorem claim_C10_witness :
    add_border_wallsChecked (mkMaze 2 2 (0, 0) (1, 1))
      = some (MazeGenerator.add_border_walls (mkMaze 2 2 (0, 0) (1, 1))) :=
  claim_C10_get_cell_total.2.2.2.1 (mkMaze 2 2 (0, 0) (1, 1))
    (by decide) (by decide)

end MazeGen
